import Mathlib

/-!
Verification development for the citation extraction and classification engine
of `streamlit_app.py` (SAKET03/CitationAnalytics).

The Python source is regex-driven, so the embedding contains a small
backtracking regular-expression engine faithful to CPython `re` semantics for
exactly the constructs the source uses: literals (optionally case-insensitive),
single-character classes, greedy and lazy `*` and `+` over single-character
classes, capturing groups, alternation, lookahead, optional groups, `$`
(without MULTILINE) and `\Z`.  Strings are modelled as `List Char`.
-/

/-- Python `\s` and `str.strip` whitespace (ASCII range, which is all the
pipeline's inputs contain). -/
def pySpace (c : Char) : Bool :=
  c = ' ' || c = '\t' || c = '\n' || c = '\r' || c = '\x0b' || c = '\x0c'

/-- Convert a string literal to the `List Char` representation used throughout. -/
def lc (s : String) : List Char := s.data

/-- Python `str.strip()`: drop whitespace from both ends. -/
def pyStrip (s : List Char) : List Char :=
  ((s.dropWhile pySpace).reverse.dropWhile pySpace).reverse

/-- Helper for `collapseWs`; the flag records whether we are inside a
whitespace run whose replacement space was already emitted. -/
def collapseWsAux : Bool → List Char → List Char
  | _, [] => []
  | inRun, c :: rest =>
    if pySpace c then
      if inRun then collapseWsAux true rest else ' ' :: collapseWsAux true rest
    else c :: collapseWsAux false rest

/-- Python `re.sub(r"\s+", " ", s)`: every maximal whitespace run becomes one space. -/
def collapseWs (s : List Char) : List Char := collapseWsAux false s

/-- Python `re.sub(r"\s+", "", s)`: delete all whitespace. -/
def removeWs (s : List Char) : List Char := s.filter (fun c => !pySpace c)

/-- Python `pat in s` substring test. -/
def containsSub (pat s : List Char) : Bool :=
  s.tails.any (fun t => pat.isPrefixOf t)

/-- Worker for `replaceSub`; the fuel starts at the input length and makes the
recursion structural (a non-empty pattern always consumes at least one
character per step). -/
def replaceSubAux (pat rep : List Char) : Nat → List Char → List Char
  | _, [] => []
  | 0, s => s
  | fuel + 1, c :: rest =>
    if pat ≠ [] ∧ pat.isPrefixOf (c :: rest) then
      rep ++ replaceSubAux pat rep fuel ((c :: rest).drop pat.length)
    else
      c :: replaceSubAux pat rep fuel rest

/-- Python `s.replace(pat, rep)` for a non-empty `pat`: left-to-right,
non-overlapping. -/
def replaceSub (pat rep : List Char) (s : List Char) : List Char :=
  replaceSubAux pat rep s.length s

/-- Worker for `countSub`, fueled like `replaceSubAux`. -/
def countSubAux (pat : List Char) : Nat → List Char → Nat
  | _, [] => 0
  | 0, _ => 0
  | fuel + 1, c :: rest =>
    if pat ≠ [] ∧ pat.isPrefixOf (c :: rest) then
      1 + countSubAux pat fuel ((c :: rest).drop pat.length)
    else
      countSubAux pat fuel rest

/-- Python `len(re.findall(pat, s))` for a literal non-empty `pat`:
count of leftmost non-overlapping occurrences. -/
def countSub (pat : List Char) (s : List Char) : Nat :=
  countSubAux pat s.length s

/-- Python `str.isdigit()` (ASCII digits). -/
def pyIsdigit (s : List Char) : Bool := !s.isEmpty && s.all Char.isDigit

/-- Python `int(...)` on a digit string. -/
def digitsToNat (s : List Char) : Nat :=
  s.foldl (fun n c => 10 * n + (c.toNat - '0'.toNat)) 0

/-- Python `s.split("\n")`. -/
def splitLines (s : List Char) : List (List Char) :=
  s.foldr
    (fun c acc =>
      match acc with
      | [] => [[c]]
      | l :: ls => if c = '\n' then [] :: l :: ls else (c :: l) :: ls)
    [[]]

/-- Python `"\n".join(lines)`. -/
def joinLines (lines : List (List Char)) : List Char :=
  List.intercalate (lc "\n") lines

/-! ## Regular-expression engine -/

/-- Regex abstract syntax: exactly the constructs appearing in the source's
patterns.  `starC`/`plusC` quantify over single-character classes only, which
is true of every quantifier in the source's regexes. -/
inductive RE where
  | chC (p : Char → Bool)
  | litS (cs : List Char) (ci : Bool)
  | seqR (a b : RE)
  | altR (a b : RE)
  | starC (p : Char → Bool) (lazy : Bool)
  | plusC (p : Char → Bool) (lazy : Bool)
  | grpR (i : Nat) (r : RE)
  | lookR (r : RE)
  | optR (r : RE)
  | dollarR
  | endR

/-- Captured groups: group index paired with the captured characters,
most recent capture first. -/
abbrev Caps := List (Nat × List Char)

/-- Result of a match attempt: the rest of the input after the match together
with the captures, or failure. -/
abbrev MRes := Option (List Char × Caps)

/-- Greedy star over a character class: consume as many `p`-characters as
possible, backtracking into the continuation `k` on failure. -/
def mstarG (p : Char → Bool) (k : List Char → MRes) : List Char → MRes
  | [] => k []
  | c :: rest =>
    if p c then
      match mstarG p k rest with
      | some r => some r
      | none => k (c :: rest)
    else k (c :: rest)

/-- Lazy star over a character class: try the continuation first, consume a
`p`-character only on failure. -/
def mstarL (p : Char → Bool) (k : List Char → MRes) : List Char → MRes
  | [] => k []
  | c :: rest =>
    match k (c :: rest) with
    | some r => some r
    | none => if p c then mstarL p k rest else none

/-- Match a literal, optionally case-insensitively (Python `re.IGNORECASE`). -/
def litMatch (cs : List Char) (ci : Bool) (s : List Char) : Option (List Char) :=
  match cs, s with
  | [], rest => some rest
  | _ :: _, [] => none
  | c :: cr, d :: dr =>
    if (if ci then c.toLower = d.toLower else c = d) then litMatch cr ci dr else none

/-- Backtracking matcher in continuation-passing style, mirroring CPython's
`re` backtracking order (greedy tries longer first, lazy tries shorter first,
alternation tries the left branch first). -/
def mrun : RE → List Char → (List Char → Caps → MRes) → Caps → MRes
  | .chC p, s, k, caps =>
    match s with
    | [] => none
    | c :: rest => if p c then k rest caps else none
  | .litS cs ci, s, k, caps =>
    match litMatch cs ci s with
    | some rest => k rest caps
    | none => none
  | .seqR a b, s, k, caps => mrun a s (fun s1 caps1 => mrun b s1 k caps1) caps
  | .altR a b, s, k, caps =>
    match mrun a s k caps with
    | some r => some r
    | none => mrun b s k caps
  | .starC p lz, s, k, caps =>
    if lz then mstarL p (fun s1 => k s1 caps) s else mstarG p (fun s1 => k s1 caps) s
  | .plusC p lz, s, k, caps =>
    match s with
    | [] => none
    | c :: rest =>
      if p c then
        if lz then mstarL p (fun s1 => k s1 caps) rest
        else mstarG p (fun s1 => k s1 caps) rest
      else none
  | .grpR i r, s, k, caps =>
    mrun r s (fun s1 caps1 => k s1 ((i, s.take (s.length - s1.length)) :: caps1)) caps
  | .lookR r, s, k, caps =>
    match mrun r s (fun s1 caps1 => some (s1, caps1)) caps with
    | some _ => k s caps
    | none => none
  | .optR r, s, k, caps =>
    match mrun r s k caps with
    | some res => some res
    | none => k s caps
  | .dollarR, s, k, caps =>
    if s = [] ∨ s = ['\n'] then k s caps else none
  | .endR, s, k, caps =>
    if s = [] then k s caps else none

/-- Python `re.search`: leftmost match.  Returns the suffix at the match
start, the suffix at the match end, and the captures. -/
def msearch (re : RE) : List Char → Option (List Char × List Char × Caps)
  | [] =>
    match mrun re [] (fun s1 caps => some (s1, caps)) [] with
    | some (s1, caps) => some ([], s1, caps)
    | none => none
  | c :: t =>
    match mrun re (c :: t) (fun s1 caps => some (s1, caps)) [] with
    | some (s1, caps) => some (c :: t, s1, caps)
    | none => msearch re t

/-- Value of group `i` after a match (`""` when the group did not participate). -/
def grpOf (caps : Caps) (i : Nat) : List Char :=
  match caps.find? (fun x => x.1 == i) with
  | some x => x.2
  | none => []

/-- Worker for `findAllCaps`; fuel bounds the number of matches, which is at
most the input length plus one. -/
def findAllAux (re : RE) (fuel : Nat) (s : List Char) : List Caps :=
  match fuel with
  | 0 => []
  | fuel + 1 =>
    match msearch re s with
    | none => []
    | some (s1, s2, caps) =>
      caps ::
        (if s2.length < s1.length then findAllAux re fuel s2
         else
           match s2 with
           | [] => []
           | _ :: t => findAllAux re fuel t)

/-- Python `re.findall`: captures of all leftmost non-overlapping matches. -/
def findAllCaps (re : RE) (s : List Char) : List Caps :=
  findAllAux re (s.length + 1) s

/-- Replacement template for `re.sub`: literal pieces and group references. -/
abbrev Tmpl := List (Sum (List Char) Nat)

/-- Instantiate a replacement template with the captures of a match. -/
def applyTmpl (caps : Caps) : Tmpl → List Char
  | [] => []
  | .inl cs :: rest => cs ++ applyTmpl caps rest
  | .inr i :: rest => grpOf caps i ++ applyTmpl caps rest

/-- Worker for `subAll`. -/
def subAllAux (re : RE) (t : Tmpl) (fuel : Nat) (s : List Char) : List Char :=
  match fuel with
  | 0 => s
  | fuel + 1 =>
    match msearch re s with
    | none => s
    | some (s1, s2, caps) =>
      s.take (s.length - s1.length) ++ applyTmpl caps t ++
        (if s2.length < s1.length then subAllAux re t fuel s2
         else
           match s2 with
           | [] => []
           | c :: rest => c :: subAllAux re t fuel rest)

/-- Python `re.sub(pattern, template, s)`. -/
def subAll (re : RE) (t : Tmpl) (s : List Char) : List Char :=
  subAllAux re t (s.length + 1) s

/-- Fold a non-empty pattern list into a sequence regex. -/
def seqL (rs : List RE) : RE :=
  match rs with
  | [] => RE.litS [] false
  | r :: rest => rest.foldl RE.seqR r

/-! ## Character classes and patterns of the source -/

/-- `\d`. -/
def isDigitC (c : Char) : Bool := c.isDigit

/-- `[^\]]`. -/
def notRBrk (c : Char) : Bool := c != ']'

/-- `[^:]`. -/
def notColon (c : Char) : Bool := c != ':'

/-- `.` under `re.DOTALL`. -/
def anyChar (_ : Char) : Bool := true

/-- `[^\s]`. -/
def nonWs (c : Char) : Bool := !pySpace c

/-- `[^\s\)]`. -/
def nonWsRp (c : Char) : Bool := !pySpace c && c != ')'

/-- `[a-z]`. -/
def lowerAZ (c : Char) : Bool := 'a' ≤ c && c ≤ 'z'

/-- `[A-Z]`. -/
def upperAZ (c : Char) : Bool := 'A' ≤ c && c ≤ 'Z'

/-- `[.!?]`. -/
def sentEndC (c : Char) : Bool := c == '.' || c == '!' || c == '?'

/-- `s` (case-sensitive optional in `https?`). -/
def sChar (c : Char) : Bool := c == 's'

/-- `s` under `re.IGNORECASE`. -/
def sCharCI (c : Char) : Bool := c == 's' || c == 'S'

/-- `\n`. -/
def nlChar (c : Char) : Bool := c == '\n'

/-- Line 140: `\[(\d+)\]\s*\[([^\]]+)\]\s*([^:]+?):\s*(.*?)(?=\n\[|\Z)`
with `re.UNICODE | re.DOTALL`. -/
def citationPat : RE := seqL [
  .litS (lc "[") false, .grpR 1 (.plusC isDigitC false), .litS (lc "]") false,
  .starC pySpace false,
  .litS (lc "[") false, .grpR 2 (.plusC notRBrk false), .litS (lc "]") false,
  .starC pySpace false,
  .grpR 3 (.plusC notColon true), .litS (lc ":") false, .starC pySpace false,
  .grpR 4 (.starC anyChar true),
  .lookR (.altR (.litS (lc "\n[") false) .endR)]

/-- Line 147: `\[15\]\s*\[([^\]]+)\]\s*([^:]+?):\s*(.*?)(?=\n\[|\Z)`
with `re.UNICODE | re.DOTALL`. -/
def test15Pat : RE := seqL [
  .litS (lc "[15]") false, .starC pySpace false,
  .litS (lc "[") false, .grpR 1 (.plusC notRBrk false), .litS (lc "]") false,
  .starC pySpace false,
  .grpR 2 (.plusC notColon true), .litS (lc ":") false, .starC pySpace false,
  .grpR 3 (.starC anyChar true),
  .lookR (.altR (.litS (lc "\n[") false) .endR)]

/-- Line 77: `References\s*\n(.*)` with `re.IGNORECASE | re.DOTALL`. -/
def refPat1 : RE := seqL [
  .litS (lc "References") true, .starC pySpace false, .chC nlChar,
  .grpR 1 (.starC anyChar false)]

/-- Line 78: `REFERENCES\s*\n(.*)` with `re.IGNORECASE | re.DOTALL`. -/
def refPat2 : RE := seqL [
  .litS (lc "REFERENCES") true, .starC pySpace false, .chC nlChar,
  .grpR 1 (.starC anyChar false)]

/-- Line 167: `(https?://[^\s]+)` (no flags). -/
def urlPat : RE :=
  .grpR 1 (seqL [.litS (lc "http") false, .optR (.chC sChar),
                 .litS (lc "://") false, .plusC nonWs false])

/-- Line 235: `\[(\d+)\]` (no flags). -/
def bracketPat : RE := seqL [
  .litS (lc "[") false, .grpR 1 (.plusC isDigitC false), .litS (lc "]") false]

/-- `https?://[^\s]+` under `re.IGNORECASE`. -/
def urlTokCI : RE := seqL [
  .litS (lc "http") true, .optR (.chC sCharCI), .litS (lc "://") false,
  .plusC nonWs false]

/-- `https?://[^\s\)]+` under `re.IGNORECASE`. -/
def urlTokCIRp : RE := seqL [
  .litS (lc "http") true, .optR (.chC sCharCI), .litS (lc "://") false,
  .plusC nonWsRp false]

/-- The literal decimal digits of `n` (Python f-string interpolation). -/
def litNat (n : Nat) : RE := .litS (Nat.toDigits 10 n) false

/-- Common prefix `\[{n}\]\s*\[([^\]]+)\]\s*` of the gap-filler patterns. -/
def gapHead (n : Nat) : List RE := [
  .litS (lc "[") false, litNat n, .litS (lc "]") false, .starC pySpace false,
  .litS (lc "[") false, .grpR 1 (.plusC notRBrk false), .litS (lc "]") false,
  .starC pySpace false]

/-- Line 258: `\[{n}\]\s*\[([^\]]+)\]\s*([^:]+):\s*(https?://[^\s]+)`,
flags `re.IGNORECASE | re.DOTALL | re.UNICODE`. -/
def gapPat1 (n : Nat) : RE := seqL (gapHead n ++ [
  .grpR 2 (.plusC notColon false), .litS (lc ":") false, .starC pySpace false,
  .grpR 3 urlTokCI])

/-- Line 259: `\[{n}\]\s*\[([^\]]+)\]\s*(.+?)\n(https?://[^\s]+)`, same flags. -/
def gapPat2 (n : Nat) : RE := seqL (gapHead n ++ [
  .grpR 2 (.plusC anyChar true), .chC nlChar, .grpR 3 urlTokCI])

/-- Line 260: `\[{n}\]\s*\[([^\]]+)\]\s*([^:]+):\s*$`, same flags
(`$` without MULTILINE). -/
def gapPat3 (n : Nat) : RE := seqL (gapHead n ++ [
  .grpR 2 (.plusC notColon false), .litS (lc ":") false, .starC pySpace false,
  .dollarR])

/-- Line 261: `\[{n}\]\s*\[([^\]]+)\]\s*(.+?)(?:\s*https?://[^\s\)]+)?`, same flags. -/
def gapPat4 (n : Nat) : RE := seqL (gapHead n ++ [
  .grpR 2 (.plusC anyChar true), .optR (seqL [.starC pySpace false, urlTokCIRp])])

/-- Line 296: `\[{n}\]\s*\[([^\]]+)\]\s*([^:]+):\s*\n\s*(https?://[^\s]+)`,
flags `re.IGNORECASE | re.DOTALL | re.UNICODE | re.MULTILINE`. -/
def nextLinePat (n : Nat) : RE := seqL (gapHead n ++ [
  .grpR 2 (.plusC notColon false), .litS (lc ":") false, .starC pySpace false,
  .chC nlChar, .starC pySpace false, .grpR 3 urlTokCI])

/-- Line 306: `\[{n}\]\s*\[([^\]]+)\]\s*([^:]+):\s*\n(https?://[^\s]+)`, same flags. -/
def simpleNlPat (n : Nat) : RE := seqL (gapHead n ++ [
  .grpR 2 (.plusC notColon false), .litS (lc ":") false, .starC pySpace false,
  .chC nlChar, .grpR 3 urlTokCI])

/-! ## `clean_text` (lines 50-68) -/

/-- Line 55: `\n\s*\n\s*\n+`. -/
def nlRun3Pat : RE := seqL [
  .chC nlChar, .starC pySpace false, .chC nlChar, .starC pySpace false,
  .plusC nlChar false]

/-- Line 58: `([a-z])([A-Z])`. -/
def camelPat : RE := seqL [.grpR 1 (.chC lowerAZ), .grpR 2 (.chC upperAZ)]

/-- Line 59: `([.!?])([A-Z])`. -/
def sentencePat : RE := seqL [.grpR 1 (.chC sentEndC), .grpR 2 (.chC upperAZ)]

/-- Line 63: `\[(\d+)\]\s*\[([^\]]+)\]\s*([^:]+):\s*(https?://[^\s]+)` (no flags). -/
def citeSpacingPat : RE := seqL [
  .litS (lc "[") false, .grpR 1 (.plusC isDigitC false), .litS (lc "]") false,
  .starC pySpace false,
  .litS (lc "[") false, .grpR 2 (.plusC notRBrk false), .litS (lc "]") false,
  .starC pySpace false,
  .grpR 3 (.plusC notColon false), .litS (lc ":") false, .starC pySpace false,
  .grpR 4 (seqL [.litS (lc "http") false, .optR (.chC sChar),
                 .litS (lc "://") false, .plusC nonWs false])]

/-- `clean_text` (lines 50-68): the four `re.sub` passes in order. -/
def clean_text (text : List Char) : List Char :=
  let t1 := subAll nlRun3Pat [.inl (lc "\n\n")] text
  let t2 := subAll camelPat [.inr 1, .inl (lc " "), .inr 2] t1
  let t3 := subAll sentencePat [.inr 1, .inl (lc " "), .inr 2] t2
  subAll citeSpacingPat
    [.inl (lc "["), .inr 1, .inl (lc "] ["), .inr 2, .inl (lc "] "),
     .inr 3, .inl (lc ": "), .inr 4] t3

/-! ## `find_references_section` (lines 71-93) -/

/-- Lines 88-92: scan lines in order, return the joined-and-stripped tail
after the first line containing `References` or `REFERENCES`. -/
def refFallback : List (List Char) → Option (List Char)
  | [] => none
  | l :: rest =>
    if containsSub (lc "References") l || containsSub (lc "REFERENCES") l then
      some (pyStrip (joinLines rest))
    else refFallback rest

/-- `find_references_section` (lines 71-93). -/
def find_references_section (text : List Char) : List Char :=
  match msearch refPat1 text with
  | some (_, _, caps) => pyStrip (grpOf caps 1)
  | none =>
    match msearch refPat2 text with
    | some (_, _, caps) => pyStrip (grpOf caps 1)
    | none =>
      match refFallback (splitLines text) with
      | some r => r
      | none => text

/-! ## Occurrence counting and classification -/

/-- The literal token `[n]`. -/
def bracketTok (n : Nat) : List Char := '[' :: (Nat.toDigits 10 n ++ [']'])

/-- `count_citation_occurrences` (lines 123-126): non-overlapping occurrences
of the literal `[n]` in `text`. -/
def count_citation_occurrences (n : Nat) (text : List Char) : Nat :=
  countSub (bracketTok n) text

/-- `get_sql_urls` (lines 9-38): the static allow-list. -/
def sql_urls : List (List Char) := [
  lc "https://dashboard.msme.gov.in/Udyam_Statewise.aspx",
  lc "https://data.adb.org/dataset/2023-asia-small-and-medium-sized-enterprise-monitor",
  lc "https://data.adb.org/media/10421/download",
  lc "https://data.rbi.org.in/#/dbie/indicators",
  lc "https://eaindustry.nic.in/download_data_1112.asp",
  lc "https://esankhyiki.mospi.gov.in/",
  lc "https://esankhyiki.mospi.gov.in/catalogue-main/catalogue?index=&page=0&product=NAS",
  lc "https://esankhyiki.mospi.gov.in/catalogue-main/catalogue?page=0&search=&product=NAS&q=NSDP",
  lc "https://esankhyiki.mospi.gov.in/macroindicators-main/macroindicators?product=asi",
  lc "https://esankhyiki.mospi.gov.in/macroindicators-main/macroindicators?product=asuse",
  lc "https://esankhyiki.mospi.gov.in/macroindicators-main/macroindicators?product=nss77&tab=table",
  lc "https://esankhyiki.mospi.gov.in/macroindicators-main/macroindicators?product=nss78",
  lc "https://esankhyiki.mospi.gov.in/macroindicators-main/macroindicators?product=plfs",
  lc "https://esankhyiki.mospi.gov.in/macroindicators?product=cpi",
  lc "https://labourbureau.gov.in/uploads/public/notice/MIL-07-2024pdf-bd246163a1b7f2b4515a6eedd5df650d.pdf",
  lc "https://mospi.gov.in/GSVA-NSVA",
  lc "https://niryat.gov.in/india",
  lc "https://residex.nhbonline.org.in/",
  lc "https://www.data.gov.in/resource/kisan-call-centre-kcc-transcripts-farmers-queries-answers",
  lc "https://www.gst.gov.in/download/gststatistics",
  lc "https://www.indiabudget.gov.in/budget2022-23/economicsurvey/doc/stat/tab43.pdf",
  lc "https://www.indiabudget.gov.in/economicsurvey/doc/Statistical-Appendix-in-English.pdf",
  lc "https://www.niftyindices.com/indices/equity/thematic-indices/nifty-sme-emerge",
  lc "https://www.rbi.org.in/scripts/Data_Sectoral_Deployment.aspx"]

/-- `classify_citation_type` (lines 41-47). -/
def classify_citation_type (url : List Char) : List Char :=
  if url = [] then lc "Vector"
  else if url ∈ sql_urls then lc "SQL" else lc "Vector"

/-! ## Data model -/

/-- One output record (the `citation_data` dict of the source). -/
structure Citation where
  citation_number : Nat
  citation_headline : List Char
  citation_link : List Char
  web_internal : List Char
  total_occurrences : Nat
  vector_sql : List Char
deriving DecidableEq, Repr

/-! ## Primary parser (lines 129-232) -/

/-- A raw regex match tuple `(num, tag, headline, url)`. -/
abbrev Raw4 := List Char × List Char × List Char × List Char

/-- Group tuples of all matches, for a 4-group pattern. -/
def findAll4 (re : RE) (s : List Char) : List Raw4 :=
  (findAllCaps re s).map (fun caps => (grpOf caps 1, grpOf caps 2, grpOf caps 3, grpOf caps 4))

/-- Group tuples of all matches, for a 3-group pattern. -/
def findAll3 (re : RE) (s : List Char) : List (List Char × List Char × List Char) :=
  (findAllCaps re s).map (fun caps => (grpOf caps 1, grpOf caps 2, grpOf caps 3))

/-- Group tuples of all matches, for a 2-group pattern. -/
def findAll2 (re : RE) (s : List Char) : List (List Char × List Char) :=
  (findAllCaps re s).map (fun caps => (grpOf caps 1, grpOf caps 2))

/-- Group strings of all matches, for a 1-group pattern. -/
def findAll1 (re : RE) (s : List Char) : List (List Char) :=
  (findAllCaps re s).map (fun caps => grpOf caps 1)

/-- Lines 140-154: the raw match list, with the targeted `[15]` recovery
appended when no raw match has the number string `"15"`. -/
def rawMatches (rc : List Char) : List Raw4 :=
  let matches1 := findAll4 citationPat rc
  let citation_15_found := matches1.any (fun m => m.1 = lc "15")
  if citation_15_found then matches1
  else
    match findAll3 test15Pat rc with
    | [] => matches1
    | t :: _ => matches1 ++ [(lc "15", t.1, t.2.1, t.2.2)]

/-- Lines 158-171: URL cleaning of one raw match. -/
def cleanRaw (m : Raw4) : Raw4 :=
  let cu0 := removeWs (pyStrip m.2.2.2)
  let cu1 := if containsSub (lc "Govtsource:") cu0
             then replaceSub (lc "Govtsource:") [] cu0 else cu0
  let cu2 := match msearch urlPat cu1 with
             | some (_, _, caps) => grpOf caps 1
             | none => cu1
  (m.1, m.2.1, m.2.2.1, cu2)

/-- Lines 156-173: the cleaned match list. -/
def cleanedMatches (rc : List Char) : List Raw4 :=
  (rawMatches rc).map cleanRaw

/-- Lines 181-187 applied to a headline: strip, collapse whitespace, then
replace newlines and carriage returns by spaces. -/
def normHeadline (h : List Char) : List Char :=
  replaceSub (lc "\r") (lc " ") (replaceSub (lc "\n") (lc " ") (collapseWs (pyStrip h)))

/-- Lines 183-187 applied to a link: strip, delete whitespace, then delete
newlines and carriage returns. -/
def normLink (u : List Char) : List Char :=
  replaceSub (lc "\r") [] (replaceSub (lc "\n") []
    (if u ≠ [] then removeWs (pyStrip u) else []))

/-- Lines 178-213: build the `citation_data` record of one cleaned match. -/
def mkPrimaryData (text : List Char) (m : Raw4) : Citation :=
  let n := digitsToNat m.1
  let headline := normHeadline m.2.2.1
  let url_clean := normLink m.2.2.2
  let label := if containsSub (lc "Web") m.2.1 then lc "Web"
               else if containsSub (lc "Internal") m.2.1 then lc "Internal"
               else if url_clean ≠ [] then lc "Web" else lc "Internal"
  let occ := count_citation_occurrences n text
  let cat := if label = lc "Internal" then classify_citation_type url_clean else lc "N/A"
  ⟨n, headline, url_clean, label, occ, cat⟩

/-- Lookup in the insertion-ordered association list modelling `citation_dict`. -/
def dictLookup (n : Nat) : List (Nat × Citation) → Option Citation
  | [] => none
  | (k, v) :: rest => if k = n then some v else dictLookup n rest

/-- Lines 219-227: choose between the kept candidate `cur` and a new
candidate `new` for the same number. -/
def chooseCit (cur new : Citation) : Citation :=
  if new.citation_link ≠ [] ∧ cur.citation_link = [] then new
  else if cur.citation_headline.length < new.citation_headline.length then new
  else cur

/-- In-place value update of a Python dict entry (insertion order kept). -/
def dictUpdate (n : Nat) (v : Citation) (d : List (Nat × Citation)) :
    List (Nat × Citation) :=
  d.map (fun kv => if kv.1 = n then (kv.1, v) else kv)

/-- Lines 215-227: insert one candidate into `citation_dict`. -/
def dictInsert (d : List (Nat × Citation)) (c : Citation) : List (Nat × Citation) :=
  match dictLookup c.citation_number d with
  | none => d ++ [(c.citation_number, c)]
  | some cur => dictUpdate c.citation_number (chooseCit cur c) d

/-- Lines 176-227: the deduplicated `citation_dict` of the primary parser. -/
def primaryDict (text rc : List Char) : List (Nat × Citation) :=
  (cleanedMatches rc).foldl (fun d m => dictInsert d (mkPrimaryData text m)) []

/-! ## Gap filler (lines 234-345) -/

/-- Lines 235-241: bare bracket numbers of the reference section, as values,
restricted to at most 100. -/
def bracketNums (rc : List Char) : List Nat :=
  (findAll1 bracketPat rc).filterMap
    (fun m => if pyIsdigit m ∧ digitsToNat m ≤ 100 then some (digitsToNat m) else none)

/-- Lines 243-244: `max(seen_brackets)` before forcing, `0` if empty. -/
def maxCitationNum (rc : List Char) : Nat := (bracketNums rc).foldl max 0

/-- Lines 239-249: the set `seen_brackets` after forcing `[1, maxNumber]`
membership, iterated in ascending order. -/
def gapIterList (rc : List Char) (seen : List Nat) : List Nat :=
  (List.range 101).filter
    (fun n => n ∈ bracketNums rc ∨ (1 ≤ n ∧ n ≤ maxCitationNum rc ∧ n ∉ seen))

/-- Lines 296-313: second-chance URL search on the line after the headline. -/
def twoGroupLink (rc : List Char) (n : Nat) : List Char :=
  match findAll3 (nextLinePat n) rc with
  | m :: _ => pyStrip m.2.2
  | [] =>
    match findAll3 (simpleNlPat n) rc with
    | m :: _ => pyStrip m.2.2
    | [] => []

/-- Lines 256-315: try the four context grammars in order and produce
`(headline, link, label)`, defaulting to a `Missing citation` placeholder. -/
def gapContext (rc : List Char) (n : Nat) : List Char × List Char × List Char :=
  match findAll3 (gapPat1 n) rc with
  | m :: _ =>
    (pyStrip m.2.1, if m.2.2 ≠ [] then pyStrip m.2.2 else [],
     if containsSub (lc "Web") m.1 then lc "Web" else lc "Internal")
  | [] =>
    match findAll3 (gapPat2 n) rc with
    | m :: _ =>
      (pyStrip m.2.1, if m.2.2 ≠ [] then pyStrip m.2.2 else [],
       if containsSub (lc "Web") m.1 then lc "Web" else lc "Internal")
    | [] =>
      match findAll2 (gapPat3 n) rc with
      | m :: _ =>
        (pyStrip m.2, twoGroupLink rc n,
         if containsSub (lc "Web") m.1 then lc "Web" else lc "Internal")
      | [] =>
        match findAll2 (gapPat4 n) rc with
        | m :: _ =>
          (pyStrip m.2, twoGroupLink rc n,
           if containsSub (lc "Web") m.1 then lc "Web" else lc "Internal")
        | [] => (lc "Missing citation", [], lc "Internal")

/-- Lines 317-318: the quality guard on the candidate headline:
discard when `len(headline.strip()) < 3` or `headline.strip().isdigit()`. -/
def guardFails (h : List Char) : Bool :=
  decide ((pyStrip h).length < 3) || pyIsdigit (pyStrip h)

/-- Lines 321-343: build the gap-filled record for number `n`. -/
def mkGapData (text rc : List Char) (n : Nat) : Citation :=
  let ctx := gapContext rc n
  let headline := normHeadline ctx.1
  let link := normLink ctx.2.1
  ⟨n, headline, link, ctx.2.2, count_citation_occurrences n text,
   classify_citation_type link⟩

/-- Lines 252-345: one iteration of the gap-filling loop over the state
`(citations, seen_citations)`. -/
def gapStep (text rc : List Char) (st : List Citation × List Nat) (n : Nat) :
    List Citation × List Nat :=
  if n ∈ st.2 then st
  else
    if guardFails (gapContext rc n).1 then (st.1, n :: st.2)
    else (st.1 ++ [mkGapData text rc n], n :: st.2)

/-! ## Assembly (lines 129-350) -/

/-- Insert into a list sorted ascending by citation number. -/
def insertCit (c : Citation) : List Citation → List Citation
  | [] => [c]
  | d :: ds =>
    if c.citation_number < d.citation_number then c :: d :: ds
    else d :: insertCit c ds

/-- Line 348: `citations.sort(key=lambda x: x["citation_number"])`
(any comparison sort agrees on lists whose keys are distinct). -/
def sortCitations : List Citation → List Citation
  | [] => []
  | c :: cs => insertCit c (sortCitations cs)

/-- Lines 229-231: the records of `citation_dict`, in insertion order. -/
def primaryCitations (text rc : List Char) : List Citation :=
  (primaryDict text rc).map (fun kv => kv.2)

/-- Lines 229-232: `seen_citations` after the primary pass. -/
def primaryKeys (text rc : List Char) : List Nat :=
  (primaryDict text rc).map (fun kv => kv.1)

/-- Lines 234-345: state `(citations, seen_citations)` after the gap-filling loop. -/
def gapState (text rc : List Char) : List Citation × List Nat :=
  (gapIterList rc (primaryKeys text rc)).foldl (gapStep text rc)
    (primaryCitations text rc, primaryKeys text rc)

/-- `extract_citations_directly` (lines 129-350). -/
def extract_citations_directly (text : List Char) : List Citation :=
  sortCitations (gapState text (find_references_section text)).1

/-! ## Generic fold invariance -/

/-- Invariant preservation along `List.foldl`. -/
theorem foldl_inv {α β : Type} (Q : β → Prop) (op : β → α → β) (l : List α) (b : β)
    (h0 : Q b) (hs : ∀ b a, a ∈ l → Q b → Q (op b a)) : Q (l.foldl op b) := by
  induction l generalizing b with
  | nil => exact h0
  | cons a t ih =>
    exact ih (op b a) (hs b a (by simp) h0) (fun b1 a1 ha1 => hs b1 a1 (by simp [ha1]))

/-! ## Lemmas about the deduplicating dictionary -/

theorem chooseCit_eq_or (cur new : Citation) :
    chooseCit cur new = cur ∨ chooseCit cur new = new := by
  unfold chooseCit
  split_ifs <;> simp

theorem dictLookup_mem {n : Nat} {d : List (Nat × Citation)} {v : Citation}
    (h : dictLookup n d = some v) : (n, v) ∈ d := by
  induction d with
  | nil => simp [dictLookup] at h
  | cons kv rest ih =>
    obtain ⟨k, w⟩ := kv
    by_cases hk : k = n
    · subst hk
      simp [dictLookup] at h
      simp [h]
    · simp only [dictLookup, if_neg hk] at h
      exact List.mem_cons_of_mem _ (ih h)

theorem dictLookup_none_iff {n : Nat} {d : List (Nat × Citation)} :
    dictLookup n d = none ↔ ∀ kv ∈ d, kv.1 ≠ n := by
  induction d with
  | nil => simp [dictLookup]
  | cons kv rest ih =>
    obtain ⟨k, w⟩ := kv
    by_cases hk : k = n
    · subst hk
      simp [dictLookup]
    · simp [dictLookup, hk, ih]

theorem mem_dictUpdate {kv : Nat × Citation} {n : Nat} {v : Citation}
    {d : List (Nat × Citation)} (h : kv ∈ dictUpdate n v d) :
    kv = (n, v) ∨ kv ∈ d := by
  unfold dictUpdate at h
  rcases List.mem_map.1 h with ⟨kv0, hm, he⟩
  by_cases h0 : kv0.1 = n
  · left
    rw [if_pos h0] at he
    rw [← he, h0]
  · right
    rw [if_neg h0] at he
    rwa [← he]

theorem dictUpdate_keys (n : Nat) (v : Citation) (d : List (Nat × Citation)) :
    (dictUpdate n v d).map (fun kv => kv.1) = d.map (fun kv => kv.1) := by
  induction d with
  | nil => rfl
  | cons kv rest ih =>
    simp only [dictUpdate, List.map_cons] at ih ⊢
    by_cases h0 : kv.1 = n
    · simp [h0, ih]
    · simp [h0, ih]

theorem dictInsert_values_P (P : Citation → Prop) {d : List (Nat × Citation)}
    {c : Citation} (hd : ∀ kv ∈ d, P kv.2) (hc : P c) :
    ∀ kv ∈ dictInsert d c, P kv.2 := by
  intro kv hkv
  unfold dictInsert at hkv
  cases hl : dictLookup c.citation_number d with
  | none =>
    rw [hl] at hkv
    rcases List.mem_append.1 hkv with h | h
    · exact hd kv h
    · simp at h
      rw [h]
      exact hc
  | some cur =>
    rw [hl] at hkv
    rcases mem_dictUpdate hkv with h | h
    · rcases chooseCit_eq_or cur c with he | he <;> rw [h] <;> simp only [he]
      · exact hd _ (dictLookup_mem hl)
      · exact hc
    · exact hd kv h

theorem dictInsert_keyinv {d : List (Nat × Citation)} {c : Citation}
    (hd : ∀ kv ∈ d, kv.2.citation_number = kv.1) :
    ∀ kv ∈ dictInsert d c, kv.2.citation_number = kv.1 := by
  intro kv hkv
  unfold dictInsert at hkv
  cases hl : dictLookup c.citation_number d with
  | none =>
    rw [hl] at hkv
    rcases List.mem_append.1 hkv with h | h
    · exact hd kv h
    · simp at h
      rw [h]
  | some cur =>
    rw [hl] at hkv
    rcases mem_dictUpdate hkv with h | h
    · have hcur : cur.citation_number = c.citation_number := hd _ (dictLookup_mem hl)
      rcases chooseCit_eq_or cur c with he | he <;> rw [h] <;> simp only [he]
      · exact hcur
    · exact hd kv h

theorem dictInsert_keys_nodup {d : List (Nat × Citation)} {c : Citation}
    (hd : (d.map (fun kv => kv.1)).Nodup) :
    ((dictInsert d c).map (fun kv => kv.1)).Nodup := by
  unfold dictInsert
  cases hl : dictLookup c.citation_number d with
  | none =>
    have hnm : c.citation_number ∉ d.map (fun kv => kv.1) := by
      intro hmem
      rcases List.mem_map.1 hmem with ⟨kv, hkv, he⟩
      exact (dictLookup_none_iff.1 hl kv hkv) he
    simp [List.nodup_append, hd, hnm]
  | some cur =>
    rw [dictUpdate_keys]
    exact hd

theorem dictInsert_keys_sub {d : List (Nat × Citation)} {c : Citation} {n : Nat}
    (h : n ∈ (dictInsert d c).map (fun kv => kv.1)) :
    n ∈ d.map (fun kv => kv.1) ∨ n = c.citation_number := by
  unfold dictInsert at h
  cases hl : dictLookup c.citation_number d with
  | none =>
    rw [hl] at h
    simp only [List.map_append, List.map_cons, List.map_nil, List.mem_append] at h
    rcases h with h | h
    · exact Or.inl h
    · simp at h
      exact Or.inr h
  | some cur =>
    rw [hl, dictUpdate_keys] at h
    exact Or.inl h

/-! ## Invariants of the record constructors -/

theorem classify_sql_or_vector (u : List Char) :
    classify_citation_type u = lc "SQL" ∨ classify_citation_type u = lc "Vector" := by
  unfold classify_citation_type
  split_ifs <;> simp

theorem classify_ne_na (u : List Char) : classify_citation_type u ≠ lc "N/A" := by
  rcases classify_sql_or_vector u with h | h <;> rw [h] <;> decide

theorem mkPrimaryData_label (text : List Char) (m : Raw4) :
    (mkPrimaryData text m).web_internal = lc "Web" ∨
    (mkPrimaryData text m).web_internal = lc "Internal" := by
  unfold mkPrimaryData
  by_cases h1 : containsSub (lc "Web") m.2.1 = true <;>
    by_cases h2 : containsSub (lc "Internal") m.2.1 = true <;>
      by_cases h3 : normLink m.2.2.2 = [] <;>
        simp [h1, h2, h3]

theorem mkPrimaryData_cat_eq (text : List Char) (m : Raw4) :
    (mkPrimaryData text m).vector_sql =
      if (mkPrimaryData text m).web_internal = lc "Internal"
      then classify_citation_type (mkPrimaryData text m).citation_link
      else lc "N/A" := rfl

theorem mkPrimaryData_cat_iff (text : List Char) (m : Raw4) :
    ((mkPrimaryData text m).vector_sql = lc "N/A" ↔
      (mkPrimaryData text m).web_internal = lc "Web") := by
  rw [mkPrimaryData_cat_eq]
  rcases mkPrimaryData_label text m with h | h <;> rw [h]
  · rw [if_neg (by decide)]
    simp
  · rw [if_pos rfl]
    constructor
    · intro hna
      exact absurd hna (classify_ne_na _)
    · intro hw
      exact absurd hw (by decide)

theorem mkPrimaryData_occ (text : List Char) (m : Raw4) :
    (mkPrimaryData text m).total_occurrences =
      count_citation_occurrences (mkPrimaryData text m).citation_number text := rfl

theorem mkGapData_num (text rc : List Char) (n : Nat) :
    (mkGapData text rc n).citation_number = n := rfl

theorem mkGapData_occ (text rc : List Char) (n : Nat) :
    (mkGapData text rc n).total_occurrences =
      count_citation_occurrences (mkGapData text rc n).citation_number text := rfl

theorem mkGapData_cat (text rc : List Char) (n : Nat) :
    (mkGapData text rc n).vector_sql =
      classify_citation_type (mkGapData text rc n).citation_link := rfl

/-! ## Lemmas about the gap-filling loop -/

theorem gapStep_fst_cases (text rc : List Char) (st : List Citation × List Nat) (n : Nat) :
    (gapStep text rc st n).1 = st.1 ∨
    (gapStep text rc st n).1 = st.1 ++ [mkGapData text rc n] := by
  unfold gapStep
  split_ifs <;> simp

theorem gapStep_keep {text rc : List Char} {st : List Citation × List Nat} {n : Nat}
    {r : Citation} (h : r ∈ st.1) : r ∈ (gapStep text rc st n).1 := by
  rcases gapStep_fst_cases text rc st n with he | he <;> rw [he]
  · exact h
  · exact List.mem_append.2 (Or.inl h)

theorem gapStep_snd_sub {text rc : List Char} {st : List Citation × List Nat} {n : Nat}
    {m : Nat} (h : m ∈ st.2) : m ∈ (gapStep text rc st n).2 := by
  unfold gapStep
  split_ifs <;> simp [h]

theorem gapStep_snd_not_mem {text rc : List Char} {st : List Citation × List Nat}
    {n m : Nat} (h : m ∉ st.2) (hne : m ≠ n) : m ∉ (gapStep text rc st n).2 := by
  unfold gapStep
  split_ifs <;> simp [h, hne]

theorem gapStep_mem_fst {text rc : List Char} {st : List Citation × List Nat} {n : Nat}
    {r : Citation} (h : r ∈ (gapStep text rc st n).1) :
    r ∈ st.1 ∨ r = mkGapData text rc n := by
  unfold gapStep at h
  split_ifs at h
  · exact Or.inl h
  · exact Or.inl h
  · rcases List.mem_append.1 h with h1 | h1
    · exact Or.inl h1
    · simp at h1
      exact Or.inr h1

/-- Predicate preservation across the whole gap-filling fold. -/
theorem gapFold_P (P : Citation → Prop) (text rc : List Char) (L : List Nat)
    (st : List Citation × List Nat) (h0 : ∀ r ∈ st.1, P r)
    (hmk : ∀ n, P (mkGapData text rc n)) :
    ∀ r ∈ (L.foldl (gapStep text rc) st).1, P r := by
  refine foldl_inv (fun st1 => ∀ r ∈ st1.1, P r) (gapStep text rc) L st h0 ?_
  intro st1 n _ hst1 r hr
  rcases gapStep_mem_fst hr with h | h
  · exact hst1 r h
  · rw [h]
    exact hmk n

/-- Records present before the fold stay present. -/
theorem gapFold_keep {text rc : List Char} {L : List Nat}
    {st : List Citation × List Nat} {r : Citation} (h : r ∈ st.1) :
    r ∈ (L.foldl (gapStep text rc) st).1 := by
  refine foldl_inv (fun st1 => r ∈ st1.1) (gapStep text rc) L st h ?_
  intro st1 n _ hmem
  exact gapStep_keep hmem

/-- If `n` occurs in the iteration list, is not yet seen, and its candidate
headline passes the quality guard, the gap record for `n` is in the result. -/
theorem gapFold_processed {text rc : List Char} {L : List Nat}
    {st : List Citation × List Nat} {n : Nat} (hL : n ∈ L) (hseen : n ∉ st.2)
    (hguard : guardFails (gapContext rc n).1 = false) :
    mkGapData text rc n ∈ (L.foldl (gapStep text rc) st).1 := by
  induction L generalizing st with
  | nil => cases hL
  | cons m t ih =>
    simp only [List.foldl_cons]
    by_cases hmn : m = n
    · subst hmn
      have : mkGapData text rc m ∈ (gapStep text rc st m).1 := by
        unfold gapStep
        rw [if_neg hseen, if_neg (by simp [hguard])]
        simp
      exact gapFold_keep this
    · rcases List.mem_cons.1 hL with h | h
      · exact absurd h.symm hmn
      · exact ih h (gapStep_snd_not_mem hseen (fun he => hmn he.symm))

/-- If the candidate headline for `n` fails the guard and no record numbered
`n` is present initially, no record numbered `n` is ever added. -/
theorem gapFold_absent {text rc : List Char} {L : List Nat}
    {st : List Citation × List Nat} {n : Nat}
    (h0 : ∀ r ∈ st.1, r.citation_number ≠ n)
    (hguard : guardFails (gapContext rc n).1 = true) :
    ∀ r ∈ (L.foldl (gapStep text rc) st).1, r.citation_number ≠ n := by
  refine foldl_inv (fun st1 => ∀ r ∈ st1.1, r.citation_number ≠ n)
    (gapStep text rc) L st h0 ?_
  intro st1 m _ hst1 r hr
  by_cases hmn : m = n
  · subst hmn
    have hfst : (gapStep text rc st1 m).1 = st1.1 := by
      unfold gapStep
      by_cases hmem : m ∈ st1.2
      · rw [if_pos hmem]
      · rw [if_neg hmem, if_pos hguard]
    rw [hfst] at hr
    exact hst1 r hr
  · rcases gapStep_mem_fst hr with h | h
    · exact hst1 r h
    · rw [h, mkGapData_num]
      exact hmn

/-- Uniqueness invariant: every record number is recorded as seen, and the
record numbers are distinct. -/
theorem gapFold_nodup {text rc : List Char} {L : List Nat}
    {st : List Citation × List Nat}
    (h0 : (∀ r ∈ st.1, r.citation_number ∈ st.2) ∧
          (st.1.map (fun r => r.citation_number)).Nodup) :
    (∀ r ∈ (L.foldl (gapStep text rc) st).1,
        r.citation_number ∈ (L.foldl (gapStep text rc) st).2) ∧
    (((L.foldl (gapStep text rc) st).1.map (fun r => r.citation_number)).Nodup) := by
  refine foldl_inv
    (fun st1 => (∀ r ∈ st1.1, r.citation_number ∈ st1.2) ∧
        (st1.1.map (fun r => r.citation_number)).Nodup)
    (gapStep text rc) L st h0 ?_
  intro st1 n _ hst1
  unfold gapStep
  split_ifs with h1 h2
  · exact hst1
  · constructor
    · intro r hr
      exact List.mem_cons_of_mem _ (hst1.1 r hr)
    · exact hst1.2
  · constructor
    · intro r hr
      rcases List.mem_append.1 hr with h | h
      · exact List.mem_cons_of_mem _ (hst1.1 r h)
      · simp at h
        rw [h, mkGapData_num]
        exact List.mem_cons_self _ _
    · have hnotin : n ∉ st1.1.map (fun r => r.citation_number) := by
        intro hmem
        rcases List.mem_map.1 hmem with ⟨r, hr, he⟩
        exact h1 (he ▸ hst1.1 r hr)
      simp [List.nodup_append, hst1.2, hnotin, mkGapData_num]

/-! ## Lemmas about the final sort -/

theorem insertCit_perm (c : Citation) (l : List Citation) :
    (insertCit c l).Perm (c :: l) := by
  induction l with
  | nil => simp [insertCit]
  | cons d ds ih =>
    unfold insertCit
    split_ifs
    · exact List.Perm.refl _
    · exact (List.Perm.cons d ih).trans (List.Perm.swap c d ds)

theorem sortCitations_perm (l : List Citation) : (sortCitations l).Perm l := by
  induction l with
  | nil => simp [sortCitations]
  | cons c cs ih =>
    exact (insertCit_perm c (sortCitations cs)).trans (List.Perm.cons c ih)

theorem mem_sortCitations {r : Citation} {l : List Citation} :
    r ∈ sortCitations l ↔ r ∈ l :=
  (sortCitations_perm l).mem_iff

theorem mem_insertCit {r c : Citation} {l : List Citation}
    (h : r ∈ insertCit c l) : r = c ∨ r ∈ l :=
  List.mem_cons.1 ((insertCit_perm c l).mem_iff.1 h)

theorem insertCit_pairwise_le {c : Citation} {l : List Citation}
    (h : l.Pairwise (fun a b => a.citation_number ≤ b.citation_number)) :
    (insertCit c l).Pairwise (fun a b => a.citation_number ≤ b.citation_number) := by
  induction l with
  | nil => simp [insertCit]
  | cons d ds ih =>
    rcases List.pairwise_cons.1 h with ⟨hd, hds⟩
    unfold insertCit
    split_ifs with hlt
    · refine List.pairwise_cons.2 ⟨?_, h⟩
      intro b hb
      rcases List.mem_cons.1 hb with hb | hb
      · rw [hb]
        exact Nat.le_of_lt hlt
      · exact Nat.le_trans (Nat.le_of_lt hlt) (hd b hb)
    · refine List.pairwise_cons.2 ⟨?_, ih hds⟩
      intro b hb
      rcases mem_insertCit hb with hb | hb
      · rw [hb]
        exact Nat.le_of_not_lt hlt
      · exact hd b hb

theorem sortCitations_pairwise_le (l : List Citation) :
    (sortCitations l).Pairwise (fun a b => a.citation_number ≤ b.citation_number) := by
  induction l with
  | nil => simp [sortCitations]
  | cons c cs ih => exact insertCit_pairwise_le ih

/-- A list sorted weakly by number with pairwise-distinct numbers is sorted
strictly. -/
theorem pairwise_lt_of_le_nodup {l : List Citation}
    (hle : l.Pairwise (fun a b => a.citation_number ≤ b.citation_number))
    (hnd : (l.map (fun r => r.citation_number)).Nodup) :
    l.Pairwise (fun a b => a.citation_number < b.citation_number) := by
  induction l with
  | nil => simp
  | cons c cs ih =>
    rcases List.pairwise_cons.1 hle with ⟨hc, hcs⟩
    simp only [List.map_cons, List.nodup_cons] at hnd
    refine List.pairwise_cons.2 ⟨?_, ih hcs hnd.2⟩
    intro b hb
    refine Nat.lt_of_le_of_ne (hc b hb) ?_
    intro he
    exact hnd.1 (he ▸ List.mem_map_of_mem (fun r => r.citation_number) hb)

/-! ## Stage-level invariants -/

theorem primaryDict_values_P (P : Citation → Prop) (text rc : List Char)
    (hP : ∀ m, P (mkPrimaryData text m)) :
    ∀ kv ∈ primaryDict text rc, P kv.2 := by
  unfold primaryDict
  refine foldl_inv (fun (d : List (Nat × Citation)) => ∀ kv ∈ d, P kv.2)
    (fun d m => dictInsert d (mkPrimaryData text m)) (cleanedMatches rc) []
    (by simp) ?_
  intro d m _ hd
  exact dictInsert_values_P P hd (hP m)

theorem primaryDict_keyinv (text rc : List Char) :
    ∀ kv ∈ primaryDict text rc, kv.2.citation_number = kv.1 := by
  unfold primaryDict
  refine foldl_inv
    (fun (d : List (Nat × Citation)) => ∀ kv ∈ d, kv.2.citation_number = kv.1)
    (fun d m => dictInsert d (mkPrimaryData text m)) (cleanedMatches rc) []
    (by simp) ?_
  intro d m _ hd
  exact dictInsert_keyinv hd

theorem primaryDict_keys_nodup (text rc : List Char) :
    ((primaryDict text rc).map (fun kv => kv.1)).Nodup := by
  unfold primaryDict
  refine foldl_inv
    (fun (d : List (Nat × Citation)) => (d.map (fun kv => kv.1)).Nodup)
    (fun d m => dictInsert d (mkPrimaryData text m)) (cleanedMatches rc) []
    (by simp) ?_
  intro d m _ hd
  exact dictInsert_keys_nodup hd

/-- Every record of the final output is either a primary-dictionary value or a
gap record, so a predicate holding for both constructors holds for the whole
output. -/
theorem extract_mem_P (P : Citation → Prop) (text : List Char)
    (hprim : ∀ m, P (mkPrimaryData text m))
    (hgap : ∀ n, P (mkGapData text (find_references_section text) n)) :
    ∀ r ∈ extract_citations_directly text, P r := by
  intro r hr
  unfold extract_citations_directly at hr
  rw [mem_sortCitations] at hr
  unfold gapState at hr
  refine gapFold_P P text _ _ _ ?_ hgap r hr
  intro r0 hr0
  unfold primaryCitations at hr0
  rcases List.mem_map.1 hr0 with ⟨kv, hkv, he⟩
  exact he ▸ primaryDict_values_P P text _ hprim kv hkv

theorem mkPrimaryData_internal_cat (text : List Char) (m : Raw4)
    (h : (mkPrimaryData text m).web_internal = lc "Internal") :
    (mkPrimaryData text m).vector_sql =
      classify_citation_type (mkPrimaryData text m).citation_link := by
  rw [mkPrimaryData_cat_eq, if_pos h]

/-! ## Analytics of `main` (lines 404-522) -/

/-- Line 407: `unique_internal_count`. -/
def unique_internal_count (cs : List Citation) : Nat :=
  (cs.filter (fun c => c.web_internal == lc "Internal")).length

/-- Line 415: `total_internal_occurrences`. -/
def total_internal_occurrences (cs : List Citation) : Nat :=
  ((cs.filter (fun c => c.web_internal == lc "Internal")).map
    (fun c => c.total_occurrences)).sum

/-- Line 429: `internal_vector_citations`. -/
def internal_vector_citations (cs : List Citation) : List Citation :=
  cs.filter (fun c => c.web_internal == lc "Internal" && c.vector_sql == lc "Vector")

/-- Line 434: `internal_sql_citations`. -/
def internal_sql_citations (cs : List Citation) : List Citation :=
  cs.filter (fun c => c.web_internal == lc "Internal" && c.vector_sql == lc "SQL")

/-- Line 439: `internal_vector_occurrences`. -/
def internal_vector_occurrences (cs : List Citation) : Nat :=
  ((internal_vector_citations cs).map (fun c => c.total_occurrences)).sum

/-- Line 442: `internal_sql_occurrences`. -/
def internal_sql_occurrences (cs : List Citation) : Nat :=
  ((internal_sql_citations cs).map (fun c => c.total_occurrences)).sum

/-- Lines 511-517: both validation checks of `main`. -/
def validationPasses (cs : List Citation) : Bool :=
  (total_internal_occurrences cs ==
      internal_sql_occurrences cs + internal_vector_occurrences cs) &&
  (unique_internal_count cs ==
      (internal_sql_citations cs).length + (internal_vector_citations cs).length)

/-- Counting and occurrence sums partition along SQL/Vector for any list in
which every Internal record is classified SQL or Vector. -/
theorem internal_partition (cs : List Citation)
    (h : ∀ c ∈ cs, c.web_internal = lc "Internal" →
         c.vector_sql = lc "SQL" ∨ c.vector_sql = lc "Vector") :
    unique_internal_count cs =
      (internal_sql_citations cs).length + (internal_vector_citations cs).length ∧
    total_internal_occurrences cs =
      internal_sql_occurrences cs + internal_vector_occurrences cs := by
  induction cs with
  | nil =>
    simp [unique_internal_count, internal_sql_citations, internal_vector_citations,
      total_internal_occurrences, internal_sql_occurrences, internal_vector_occurrences]
  | cons c t ih =>
    obtain ⟨ht1, ht2⟩ := ih (fun x hx hi => h x (List.mem_cons_of_mem c hx) hi)
    simp only [unique_internal_count, internal_sql_citations,
      internal_vector_citations, total_internal_occurrences,
      internal_sql_occurrences, internal_vector_occurrences,
      List.filter_cons] at ht1 ht2 ⊢
    by_cases hi : c.web_internal = lc "Internal"
    · have hbi : (c.web_internal == lc "Internal") = true := by simp [hi]
      rcases h c (List.mem_cons_self c t) hi with hs | hs
      · have hbs : (c.vector_sql == lc "SQL") = true := by simp [hs]
        have hbv : (c.vector_sql == lc "Vector") = false := by rw [hs]; decide
        simp only [hbi, hbs, hbv, Bool.true_and, Bool.and_false, Bool.and_true,
          Bool.false_eq_true, if_true, if_false, List.length_cons, List.map_cons,
          List.sum_cons]
        omega
      · have hbs : (c.vector_sql == lc "SQL") = false := by rw [hs]; decide
        have hbv : (c.vector_sql == lc "Vector") = true := by simp [hs]
        simp only [hbi, hbs, hbv, Bool.true_and, Bool.and_false, Bool.and_true,
          Bool.false_eq_true, if_true, if_false, List.length_cons, List.map_cons,
          List.sum_cons]
        omega
    · have hbi : (c.web_internal == lc "Internal") = false := by
        simpa using hi
      simp only [hbi, Bool.false_and, Bool.false_eq_true, if_false]
      exact ⟨ht1, ht2⟩

/-! ## Numbers of the final output -/

theorem primaryCitations_num_mem (text rc : List Char) :
    ∀ r ∈ primaryCitations text rc, r.citation_number ∈ primaryKeys text rc := by
  intro r hr
  unfold primaryCitations at hr
  rcases List.mem_map.1 hr with ⟨kv, hkv, he⟩
  have hk := primaryDict_keyinv text rc kv hkv
  rw [← he, hk]
  exact List.mem_map_of_mem (fun kv => kv.1) hkv

theorem primaryCitations_nums_nodup (text rc : List Char) :
    ((primaryCitations text rc).map (fun r => r.citation_number)).Nodup := by
  unfold primaryCitations
  rw [List.map_map]
  have he : (primaryDict text rc).map (fun kv => kv.2.citation_number) =
      (primaryDict text rc).map (fun kv => kv.1) :=
    List.map_congr_left (primaryDict_keyinv text rc)
  have : ((fun r : Citation => r.citation_number) ∘ (fun kv : Nat × Citation => kv.2)) =
      fun kv : Nat × Citation => kv.2.citation_number := rfl
  rw [this, he]
  exact primaryDict_keys_nodup text rc

theorem gapState_nodup (text rc : List Char) :
    ((gapState text rc).1.map (fun r => r.citation_number)).Nodup := by
  unfold gapState
  exact (gapFold_nodup ⟨primaryCitations_num_mem text rc,
    primaryCitations_nums_nodup text rc⟩).2

/-- C6: the output numbers are strictly increasing (hence pairwise distinct). -/
theorem c6_sorted_unique (text : List Char) :
    (extract_citations_directly text).Pairwise
      (fun a b => a.citation_number < b.citation_number) := by
  unfold extract_citations_directly
  refine pairwise_lt_of_le_nodup (sortCitations_pairwise_le _) ?_
  have hperm := (sortCitations_perm
    (gapState text (find_references_section text)).1).map
    (fun r => r.citation_number)
  exact hperm.nodup_iff.2 (gapState_nodup text (find_references_section text))

/-- C1 (amended): in the final output, category `N/A` implies origin `Web`;
for the primary parser's deduplicated records the equivalence holds in both
directions (gap-filled records are always classified `SQL` or `Vector`, even
when their origin is `Web`, so the converse fails in general). -/
theorem c1_na_iff_web_amended (text : List Char) :
    (∀ r ∈ extract_citations_directly text,
        r.vector_sql = lc "N/A" → r.web_internal = lc "Web") ∧
    (∀ kv ∈ primaryDict text (find_references_section text),
        (kv.2.vector_sql = lc "N/A" ↔ kv.2.web_internal = lc "Web")) := by
  constructor
  · refine extract_mem_P _ text ?_ ?_
    · intro m h
      exact (mkPrimaryData_cat_iff text m).1 h
    · intro n h
      rw [mkGapData_cat] at h
      exact absurd h (classify_ne_na _)
  · intro kv hkv
    exact primaryDict_values_P
      (fun c => (c.vector_sql = lc "N/A" ↔ c.web_internal = lc "Web")) text _
      (mkPrimaryData_cat_iff text) kv hkv

set_option maxRecDepth 100000 in
/-- C1 (counterexample): on this input the gap filler produces a record whose
origin is `Web` but whose category is `Vector`, so
`category = N/A ⇔ origin = Web` fails for the final output. -/
theorem c1_counterexample :
    ∃ r ∈ extract_citations_directly
        (lc "References\n[1] [Web] A: x [2] [Web] Hello: https://b.com"),
      r.web_internal = lc "Web" ∧ r.vector_sql ≠ lc "N/A" := by
  decide

/-- C7: every output record's occurrence count is the number of
non-overlapping occurrences of the literal token `[n]` in the whole input
text, computed by the single function `count_citation_occurrences` for
primary and gap-filled records alike. -/
theorem c7_occurrences (text : List Char) :
    ∀ r ∈ extract_citations_directly text,
      r.total_occurrences = count_citation_occurrences r.citation_number text := by
  refine extract_mem_P _ text ?_ ?_
  · intro m
    exact mkPrimaryData_occ text m
  · intro n
    exact mkGapData_occ text (find_references_section text) n

set_option maxRecDepth 100000 in
theorem c7_occurrences_witness :
    (⟨1, lc "A", lc "https://b.com", lc "Web", 1, lc "N/A"⟩ :
        Citation).total_occurrences =
      count_citation_occurrences 1
        (lc "References\n[1] [Web] A: x [2] [Web] Hello: https://b.com") :=
  c7_occurrences (lc "References\n[1] [Web] A: x [2] [Web] Hello: https://b.com")
    ⟨1, lc "A", lc "https://b.com", lc "Web", 1, lc "N/A"⟩ (by decide)

/-- C10: the consistency validation of `main` always passes: Internal-origin
records are always classified `SQL` or `Vector`, so the Internal counts and
occurrence sums partition exactly and the validation-error branch is
unreachable. -/
theorem c10_validation_passes (text : List Char) :
    validationPasses (extract_citations_directly text) = true := by
  have hP : ∀ r ∈ extract_citations_directly text,
      r.web_internal = lc "Internal" →
        r.vector_sql = lc "SQL" ∨ r.vector_sql = lc "Vector" := by
    refine extract_mem_P _ text ?_ ?_
    · intro m h
      rw [mkPrimaryData_internal_cat text m h]
      exact classify_sql_or_vector _
    · intro n _
      rw [mkGapData_cat]
      exact classify_sql_or_vector _
  obtain ⟨h1, h2⟩ := internal_partition _ hP
  unfold validationPasses
  rw [h1, h2]
  simp

/-! ## Claim C2: deduplication preference -/

theorem dictLookup_dictUpdate {n : Nat} {v cur : Citation}
    {d : List (Nat × Citation)} (h : dictLookup n d = some cur) :
    dictLookup n (dictUpdate n v d) = some v := by
  induction d with
  | nil => simp [dictLookup] at h
  | cons kv rest ih =>
    obtain ⟨k, w⟩ := kv
    by_cases hk : k = n
    · subst hk
      have he : dictUpdate k v ((k, w) :: rest) = (k, v) :: dictUpdate k v rest := by
        simp [dictUpdate]
      rw [he]
      simp [dictLookup]
    · have he : dictUpdate n v ((k, w) :: rest) = (k, w) :: dictUpdate n v rest := by
        simp [dictUpdate, hk]
      have h1 : dictLookup n rest = some cur := by
        simpa [dictLookup, hk] using h
      rw [he]
      simp only [dictLookup, if_neg hk]
      exact ih h1

/-- C2 (amended): when a new raw candidate collides with the kept candidate
for the same number, the kept entry becomes: the new one when it has a link
and the incumbent has none; otherwise the one with the strictly longer
headline (ties keep the incumbent).  In particular a candidate with an empty
link DOES replace an incumbent with a non-empty link whenever its headline is
strictly longer — the link is not protected outside the first rule. -/
theorem c2_dedup_amended (d : List (Nat × Citation)) (cur new : Citation)
    (h : dictLookup new.citation_number d = some cur) :
    ((new.citation_link ≠ [] ∧ cur.citation_link = []) →
      dictLookup new.citation_number (dictInsert d new) = some new) ∧
    (((new.citation_link = [] ∧ cur.citation_link = []) ∨
      (new.citation_link ≠ [] ∧ cur.citation_link ≠ [])) →
      dictLookup new.citation_number (dictInsert d new) =
        some (if cur.citation_headline.length < new.citation_headline.length
              then new else cur)) ∧
    ((new.citation_link = [] ∧ cur.citation_link ≠ [] ∧
      cur.citation_headline.length < new.citation_headline.length) →
      dictLookup new.citation_number (dictInsert d new) = some new) := by
  have hbase : dictLookup new.citation_number (dictInsert d new) =
      some (chooseCit cur new) := by
    unfold dictInsert
    rw [h]
    exact dictLookup_dictUpdate h
  refine ⟨?_, ?_, ?_⟩
  · intro hc
    rw [hbase]
    unfold chooseCit
    rw [if_pos hc]
  · intro hc
    rw [hbase]
    unfold chooseCit
    rcases hc with ⟨h1, _⟩ | ⟨_, h2⟩
    · rw [if_neg (fun hh => hh.1 h1)]
    · rw [if_neg (fun hh => h2 hh.2)]
  · intro hc
    obtain ⟨h1, _, h3⟩ := hc
    rw [hbase]
    unfold chooseCit
    rw [if_neg (fun hh => hh.1 h1), if_pos h3]

/-- A kept candidate, for the C2 witness. -/
def curEx : Citation := ⟨1, lc "AB", lc "https://x.com", lc "Internal", 0, lc "Vector"⟩

/-- A later colliding candidate with empty link and longer headline. -/
def newEx : Citation := ⟨1, lc "ABCDEFGH", [], lc "Internal", 0, lc "Vector"⟩

theorem c2_dedup_amended_witness :
    dictLookup newEx.citation_number (dictInsert [(1, curEx)] newEx) = some newEx :=
  (c2_dedup_amended [(1, curEx)] curEx newEx (by decide)).2.2 (by decide)

set_option maxRecDepth 100000 in
/-- C2 (counterexample): on this input the primary parser produces two raw
candidates for number 1, the first seen carrying a non-empty link; the final
output keeps the empty-link candidate because its headline is longer, so an
empty-link candidate does replace an already-kept candidate with a non-empty
link. -/
theorem c2_counterexample :
    (cleanedMatches (find_references_section
        (lc "References\n[1] [Internal] AB: https://x.com\n[1] [Internal] ABCDEFGH:"))).map
        (fun m => (digitsToNat m.1, !m.2.2.2.isEmpty)) = [(1, true), (1, false)] ∧
    extract_citations_directly
        (lc "References\n[1] [Internal] AB: https://x.com\n[1] [Internal] ABCDEFGH:") =
      [⟨1, lc "ABCDEFGH", [], lc "Internal", 2, lc "Vector"⟩] := by
  decide

/-! ## Claim C3: the reference-section fallback -/

theorem refFallback_eq (ls : List (List Char)) :
    refFallback ls =
      (ls.findIdx? (fun l =>
          containsSub (lc "References") l || containsSub (lc "REFERENCES") l)).map
        (fun i => pyStrip (joinLines (ls.drop (i + 1)))) := by
  induction ls with
  | nil => simp [refFallback]
  | cons l rest ih =>
    unfold refFallback
    by_cases hc : (containsSub (lc "References") l ||
        containsSub (lc "REFERENCES") l) = true
    · rw [if_pos hc, List.findIdx?_cons, if_pos hc]
      simp
    · rw [if_neg hc, List.findIdx?_cons, if_neg hc, List.findIdx?_succ, ih]
      cases hfi : List.findIdx? (fun l =>
          containsSub (lc "References") l || containsSub (lc "REFERENCES") l) rest with
      | none => rfl
      | some i => simp

/-- C3 (amended): when both heading regexes fail, the locator returns the
stripped join of everything after the FIRST line containing the substring
`References` or `REFERENCES` (not the last), and the whole input unchanged
when no line contains either substring. -/
theorem c3_fallback_amended (text : List Char)
    (h1 : msearch refPat1 text = none) (h2 : msearch refPat2 text = none) :
    find_references_section text =
      match (splitLines text).findIdx? (fun l =>
          containsSub (lc "References") l || containsSub (lc "REFERENCES") l) with
      | some i => pyStrip (joinLines ((splitLines text).drop (i + 1)))
      | none => text := by
  unfold find_references_section
  rw [h1, h2, refFallback_eq]
  rcases (splitLines text).findIdx? (fun l =>
      containsSub (lc "References") l || containsSub (lc "REFERENCES") l) with
    _ | i
  · rfl
  · rfl

set_option maxRecDepth 100000 in
theorem c3_fallback_amended_witness :
    find_references_section (lc "x References y\nA\nx References z\nB") =
      match (splitLines (lc "x References y\nA\nx References z\nB")).findIdx? (fun l =>
          containsSub (lc "References") l || containsSub (lc "REFERENCES") l) with
      | some i =>
        pyStrip (joinLines
          ((splitLines (lc "x References y\nA\nx References z\nB")).drop (i + 1)))
      | none => lc "x References y\nA\nx References z\nB" :=
  c3_fallback_amended (lc "x References y\nA\nx References z\nB")
    (by rfl) (by rfl)

set_option maxRecDepth 100000 in
/-- C3 (counterexample): both heading regexes fail on this input; its lines
are shown explicitly, the LAST line containing the substring is line 2 and
everything after it is just `B`, but the locator returns everything after the
FIRST such line (line 0), so the claim's "last line" description is false. -/
theorem c3_counterexample :
    msearch refPat1 (lc "x References y\nA\nx References z\nB") = none ∧
    msearch refPat2 (lc "x References y\nA\nx References z\nB") = none ∧
    splitLines (lc "x References y\nA\nx References z\nB") =
      [lc "x References y", lc "A", lc "x References z", lc "B"] ∧
    containsSub (lc "References") (lc "x References z") = true ∧
    pyStrip (joinLines
      ((splitLines (lc "x References y\nA\nx References z\nB")).drop (2 + 1))) =
      lc "B" ∧
    find_references_section (lc "x References y\nA\nx References z\nB") =
      lc "A\nx References z\nB" ∧
    lc "A\nx References z\nB" ≠ lc "B" := by
  refine ⟨by rfl, by rfl, by decide, by decide, by decide, by decide, by decide⟩

/-! ## Claim C4: the quality guard -/

theorem guardFails_iff (h : List Char) :
    guardFails h = true ↔
      ((pyStrip h).length < 3 ∨ pyIsdigit (pyStrip h) = true) := by
  unfold guardFails
  simp [Bool.or_eq_true, decide_eq_true_iff]

/-- C4 (amended): for a citation number `n` processed by the gap filler, the
record is discarded exactly when the STRIPPED candidate headline has Python
length less than 3 (interior whitespace counted, before the interior
whitespace collapse) or consists solely of digits; otherwise the record is
appended. -/
theorem c4_guard_amended (text rc : List Char) (st : List Citation × List Nat)
    (n : Nat) (h : n ∉ st.2) :
    (gapStep text rc st n).1 =
      if (pyStrip (gapContext rc n).1).length < 3 ∨
         pyIsdigit (pyStrip (gapContext rc n).1) = true
      then st.1
      else st.1 ++ [mkGapData text rc n] := by
  unfold gapStep
  rw [if_neg h]
  by_cases hg : guardFails (gapContext rc n).1 = true
  · rw [if_pos hg, if_pos (guardFails_iff _ |>.1 hg)]
  · rw [if_neg hg, if_neg (fun hp => hg ((guardFails_iff _).2 hp))]

set_option maxRecDepth 100000 in
theorem c4_guard_amended_witness :
    (gapStep (lc "References\n[1] [T] x: y [2] [T] a b: https://c.de")
        (find_references_section (lc "References\n[1] [T] x: y [2] [T] a b: https://c.de"))
        ([], []) 2).1 =
      if (pyStrip (gapContext
            (find_references_section (lc "References\n[1] [T] x: y [2] [T] a b: https://c.de"))
            2).1).length < 3 ∨
         pyIsdigit (pyStrip (gapContext
            (find_references_section (lc "References\n[1] [T] x: y [2] [T] a b: https://c.de"))
            2).1) = true
      then []
      else [] ++ [mkGapData (lc "References\n[1] [T] x: y [2] [T] a b: https://c.de")
        (find_references_section (lc "References\n[1] [T] x: y [2] [T] a b: https://c.de")) 2] :=
  c4_guard_amended (lc "References\n[1] [T] x: y [2] [T] a b: https://c.de")
    (find_references_section (lc "References\n[1] [T] x: y [2] [T] a b: https://c.de"))
    ([], []) 2 (by decide)

set_option maxRecDepth 100000 in
/-- C4 (counterexample): the gap filler's candidate headline for number 2 on
this input is `a b`, which has only 2 non-space characters; the claim says
such a number is silently discarded, yet the final output does contain a
record for number 2 with that headline (the code guard counts the interior
space: `len("a b") = 3`). -/
theorem c4_counterexample :
    (gapContext (find_references_section
        (lc "References\n[1] [T] x: y [2] [T] a b: https://c.de")) 2).1 = lc "a b" ∧
    ((lc "a b").filter (fun c => !pySpace c)).length < 3 ∧
    (∃ r ∈ extract_citations_directly
        (lc "References\n[1] [T] x: y [2] [T] a b: https://c.de"),
      r.citation_number = 2 ∧ r.citation_headline = lc "a b") := by
  decide

/-! ## Claim C5: gap coverage of `[1, maxNumber]` -/

theorem bracketNums_le_100 (rc : List Char) : ∀ x ∈ bracketNums rc, x ≤ 100 := by
  intro x hx
  unfold bracketNums at hx
  rcases List.mem_filterMap.1 hx with ⟨m, _, he⟩
  by_cases hc : pyIsdigit m = true ∧ digitsToNat m ≤ 100
  · rw [if_pos hc] at he
    cases he
    exact hc.2
  · rw [if_neg hc] at he
    cases he

theorem foldl_max_le {l : List Nat} {a b : Nat} (ha : a ≤ b)
    (hl : ∀ x ∈ l, x ≤ b) : l.foldl max a ≤ b := by
  induction l generalizing a with
  | nil => exact ha
  | cons x t ih =>
    exact ih (max_le ha (hl x (by simp)))
      (fun y hy => hl y (by simp [hy]))

theorem maxCitationNum_le_100 (rc : List Char) : maxCitationNum rc ≤ 100 := by
  unfold maxCitationNum
  exact foldl_max_le (Nat.zero_le 100) (bracketNums_le_100 rc)

theorem mem_gapIterList {rc : List Char} {seen : List Nat} {n : Nat}
    (h1 : 1 ≤ n) (h2 : n ≤ maxCitationNum rc) (h3 : n ∉ seen) :
    n ∈ gapIterList rc seen := by
  unfold gapIterList
  refine List.mem_filter.2 ⟨List.mem_range.2 ?_, ?_⟩
  · have := maxCitationNum_le_100 rc
    omega
  · simp only [decide_eq_true_iff]
    exact Or.inr ⟨h1, h2, h3⟩

/-- C5: every `n` in `[1, maxNumber]` either has a record in the final output
or its synthesized gap headline fails the quality guard, in which case `n` has
no record at all. -/
theorem c5_gap_coverage (text : List Char) (n : Nat) (h1 : 1 ≤ n)
    (h2 : n ≤ maxCitationNum (find_references_section text)) :
    (∃ r ∈ extract_citations_directly text, r.citation_number = n) ∨
    (guardFails (gapContext (find_references_section text) n).1 = true ∧
     ¬ ∃ r ∈ extract_citations_directly text, r.citation_number = n) := by
  by_cases hseen : n ∈ primaryKeys text (find_references_section text)
  · left
    rcases List.mem_map.1 hseen with ⟨kv, hkv, he⟩
    refine ⟨kv.2, ?_, ?_⟩
    · unfold extract_citations_directly
      rw [mem_sortCitations]
      unfold gapState
      exact gapFold_keep (List.mem_map_of_mem (fun kv => kv.2) hkv)
    · rw [primaryDict_keyinv text (find_references_section text) kv hkv, he]
  · by_cases hg : guardFails (gapContext (find_references_section text) n).1 = true
    · right
      refine ⟨hg, ?_⟩
      rintro ⟨r, hr, hn⟩
      rw [show extract_citations_directly text =
            sortCitations (gapState text (find_references_section text)).1 from rfl,
        mem_sortCitations] at hr
      have h0 : ∀ r0 ∈ primaryCitations text (find_references_section text),
          r0.citation_number ≠ n := by
        intro r0 hr0 he0
        exact hseen (he0 ▸ primaryCitations_num_mem text _ r0 hr0)
      exact gapFold_absent h0 hg r hr hn
    · left
      have hfalse : guardFails (gapContext (find_references_section text) n).1 = false :=
        Bool.not_eq_true (guardFails (gapContext (find_references_section text) n).1) ▸ hg
      refine ⟨mkGapData text (find_references_section text) n, ?_, mkGapData_num _ _ _⟩
      rw [show extract_citations_directly text =
            sortCitations (gapState text (find_references_section text)).1 from rfl,
        mem_sortCitations]
      exact gapFold_processed (mem_gapIterList h1 h2 hseen) hseen hfalse

set_option maxRecDepth 100000 in
theorem c5_gap_coverage_witness :
    (∃ r ∈ extract_citations_directly
        (lc "References\n[1] [Web] A: x [2] [Web] Hello: https://b.com"),
      r.citation_number = 2) ∨
    (guardFails (gapContext (find_references_section
        (lc "References\n[1] [Web] A: x [2] [Web] Hello: https://b.com")) 2).1 = true ∧
     ¬ ∃ r ∈ extract_citations_directly
        (lc "References\n[1] [Web] A: x [2] [Web] Hello: https://b.com"),
      r.citation_number = 2) :=
  c5_gap_coverage (lc "References\n[1] [Web] A: x [2] [Web] Hello: https://b.com") 2
    (by decide) (by decide)

/-! ## Claim C8: the targeted `[15]` recovery -/

/-- C8: when no raw match has number string `15`, the targeted single-number
grammar `test15Pat` is run and its first match (tag, headline, URL tail) is
appended to the raw match list, which then feeds cleaning and deduplication;
when a raw match with number `15` exists, the raw match list is unchanged. -/
theorem c8_targeted_15 (rc : List Char) :
    ((∀ m ∈ findAll4 citationPat rc, m.1 ≠ lc "15") →
      rawMatches rc = findAll4 citationPat rc ++
        (match findAll3 test15Pat rc with
         | [] => []
         | t :: _ => [(lc "15", t.1, t.2.1, t.2.2)])) ∧
    ((∃ m ∈ findAll4 citationPat rc, m.1 = lc "15") →
      rawMatches rc = findAll4 citationPat rc) := by
  have hre : rawMatches rc =
      if ((findAll4 citationPat rc).any fun m => decide (m.1 = lc "15")) = true
      then findAll4 citationPat rc
      else
        match findAll3 test15Pat rc with
        | [] => findAll4 citationPat rc
        | t :: _ => findAll4 citationPat rc ++ [(lc "15", t.1, t.2.1, t.2.2)] := rfl
  constructor
  · intro hnone
    have hany : ((findAll4 citationPat rc).any fun m => decide (m.1 = lc "15")) = false := by
      simp only [List.any_eq_false, decide_eq_true_iff]
      exact hnone
    rw [hre, hany]
    simp only [Bool.false_eq_true, if_false]
    cases findAll3 test15Pat rc with
    | nil => simp
    | cons t ts => rfl
  · rintro ⟨m, hm, he⟩
    have hany : ((findAll4 citationPat rc).any fun m => decide (m.1 = lc "15")) = true := by
      simp only [List.any_eq_true, decide_eq_true_iff]
      exact ⟨m, hm, he⟩
    rw [hre, hany]
    simp

set_option maxRecDepth 100000 in
theorem c8_targeted_15_witness :
    rawMatches (lc "[1] [T] a: b [15] [T] c: d") =
      findAll4 citationPat (lc "[1] [T] a: b [15] [T] c: d") ++
        (match findAll3 test15Pat (lc "[1] [T] a: b [15] [T] c: d") with
         | [] => []
         | t :: _ => [(lc "15", t.1, t.2.1, t.2.2)]) :=
  (c8_targeted_15 (lc "[1] [T] a: b [15] [T] c: d")).1 (by decide)

/-! ## Claim C9: generic engine lemmas

The idempotence proof for `clean_text` needs a recursion equation for
`subAll` that hides the fuel.  These lemmas bound the length of the suffix a
match hands to its continuation. -/

theorem mstarG_k_le {p : Char → Bool} {k : List Char → MRes} {s : List Char}
    {r : List Char × Caps} (h : mstarG p k s = some r) :
    ∃ s1, s1.length ≤ s.length ∧ k s1 = some r := by
  induction s with
  | nil => exact ⟨[], Nat.le_refl _, h⟩
  | cons c rest ih =>
    unfold mstarG at h
    split_ifs at h
    · cases hm : mstarG p k rest with
      | some r2 =>
        rw [hm] at h
        cases h
        rcases ih hm with ⟨s1, hle, hk⟩
        exact ⟨s1, Nat.le_trans hle (by simp), hk⟩
      | none =>
        rw [hm] at h
        exact ⟨c :: rest, Nat.le_refl _, h⟩
    · exact ⟨c :: rest, Nat.le_refl _, h⟩

theorem mstarL_k_le {p : Char → Bool} {k : List Char → MRes} {s : List Char}
    {r : List Char × Caps} (h : mstarL p k s = some r) :
    ∃ s1, s1.length ≤ s.length ∧ k s1 = some r := by
  induction s with
  | nil => exact ⟨[], Nat.le_refl _, h⟩
  | cons c rest ih =>
    unfold mstarL at h
    cases hk : k (c :: rest) with
    | some r2 =>
      rw [hk] at h
      cases h
      exact ⟨c :: rest, Nat.le_refl _, hk⟩
    | none =>
      rw [hk] at h
      split_ifs at h
      · rcases ih h with ⟨s1, hle, hk1⟩
        exact ⟨s1, Nat.le_trans hle (by simp), hk1⟩

theorem litMatch_le {cs : List Char} {ci : Bool} {s rest : List Char}
    (h : litMatch cs ci s = some rest) : rest.length ≤ s.length := by
  induction cs generalizing s with
  | nil =>
    unfold litMatch at h
    cases h
    exact Nat.le_refl _
  | cons c cr ih =>
    cases s with
    | nil => exact absurd h (by simp [litMatch])
    | cons d dr =>
      unfold litMatch at h
      split_ifs at h <;> exact Nat.le_trans (ih h) (by simp)

theorem mrun_k_le {re : RE} :
    ∀ {s : List Char} {k : List Char → Caps → MRes} {caps : Caps}
      {r : List Char × Caps}, mrun re s k caps = some r →
      ∃ s1 caps1, s1.length ≤ s.length ∧ k s1 caps1 = some r := by
  induction re with
  | chC p =>
    intro s k caps r h
    cases s with
    | nil => exact absurd h (by simp [mrun])
    | cons c rest =>
      simp only [mrun] at h
      split_ifs at h
      exact ⟨rest, caps, by simp, h⟩
  | litS cs ci =>
    intro s k caps r h
    unfold mrun at h
    cases hl : litMatch cs ci s with
    | none => rw [hl] at h; cases h
    | some rest =>
      rw [hl] at h
      exact ⟨rest, caps, litMatch_le hl, h⟩
  | seqR a b iha ihb =>
    intro s k caps r h
    unfold mrun at h
    rcases iha h with ⟨s1, c1, h1, hk1⟩
    rcases ihb hk1 with ⟨s2, c2, h2, hk2⟩
    exact ⟨s2, c2, Nat.le_trans h2 h1, hk2⟩
  | altR a b iha ihb =>
    intro s k caps r h
    unfold mrun at h
    cases ha : mrun a s k caps with
    | some r2 =>
      rw [ha] at h
      cases h
      exact iha ha
    | none =>
      rw [ha] at h
      exact ihb h
  | starC p lz =>
    intro s k caps r h
    unfold mrun at h
    split_ifs at h
    · rcases mstarL_k_le h with ⟨s1, hle, hk⟩
      exact ⟨s1, caps, hle, hk⟩
    · rcases mstarG_k_le h with ⟨s1, hle, hk⟩
      exact ⟨s1, caps, hle, hk⟩
  | plusC p lz =>
    intro s k caps r h
    cases s with
    | nil => exact absurd h (by simp [mrun])
    | cons c rest =>
      simp only [mrun] at h
      split_ifs at h
      · rcases mstarL_k_le h with ⟨s1, hle, hk⟩
        exact ⟨s1, caps, Nat.le_trans hle (by simp), hk⟩
      · rcases mstarG_k_le h with ⟨s1, hle, hk⟩
        exact ⟨s1, caps, Nat.le_trans hle (by simp), hk⟩
  | grpR i rr ih =>
    intro s k caps r h
    unfold mrun at h
    rcases ih h with ⟨s1, c1, h1, hk1⟩
    exact ⟨s1, _, h1, hk1⟩
  | lookR rr ih =>
    intro s k caps r h
    unfold mrun at h
    cases hl : mrun rr s (fun s1 caps1 => some (s1, caps1)) caps with
    | none => rw [hl] at h; cases h
    | some r2 =>
      rw [hl] at h
      exact ⟨s, caps, Nat.le_refl _, h⟩
  | optR rr ih =>
    intro s k caps r h
    unfold mrun at h
    cases ho : mrun rr s k caps with
    | some r2 =>
      rw [ho] at h
      cases h
      exact ih ho
    | none =>
      rw [ho] at h
      exact ⟨s, caps, Nat.le_refl _, h⟩
  | dollarR =>
    intro s k caps r h
    unfold mrun at h
    split_ifs at h
    exact ⟨s, caps, Nat.le_refl _, h⟩
  | endR =>
    intro s k caps r h
    unfold mrun at h
    split_ifs at h
    exact ⟨s, caps, Nat.le_refl _, h⟩

theorem msearch_le {re : RE} :
    ∀ {s s1 s2 : List Char} {caps : Caps},
      msearch re s = some (s1, s2, caps) →
      s1.length ≤ s.length ∧ s2.length ≤ s1.length := by
  intro s
  induction s with
  | nil =>
    intro s1 s2 caps h
    unfold msearch at h
    cases hm : mrun re [] (fun s1 caps => some (s1, caps)) [] with
    | none => rw [hm] at h; cases h
    | some r =>
      obtain ⟨rs, rcaps⟩ := r
      rw [hm] at h
      cases h
      rcases mrun_k_le hm with ⟨t, c1, hle, hk⟩
      cases hk
      exact ⟨Nat.le_refl _, hle⟩
  | cons c t ih =>
    intro s1 s2 caps h
    unfold msearch at h
    cases hm : mrun re (c :: t) (fun s1 caps => some (s1, caps)) [] with
    | none =>
      rw [hm] at h
      rcases ih h with ⟨h1, h2⟩
      exact ⟨Nat.le_trans h1 (by simp), h2⟩
    | some r =>
      obtain ⟨rs, rcaps⟩ := r
      rw [hm] at h
      cases h
      rcases mrun_k_le hm with ⟨u, c1, hle, hk⟩
      cases hk
      exact ⟨Nat.le_refl _, hle⟩

theorem msearch_cons_succ {re : RE} {c : Char} {t s2 : List Char} {caps : Caps}
    (h : mrun re (c :: t) (fun s1 caps => some (s1, caps)) [] = some (s2, caps)) :
    msearch re (c :: t) = some (c :: t, s2, caps) := by
  have he : msearch re (c :: t) =
      match mrun re (c :: t) (fun s1 caps => some (s1, caps)) [] with
      | some (s1, caps) => some (c :: t, s1, caps)
      | none => msearch re t := rfl
  rw [he, h]

theorem msearch_cons_fail {re : RE} {c : Char} {t : List Char}
    (h : mrun re (c :: t) (fun s1 caps => some (s1, caps)) [] = none) :
    msearch re (c :: t) = msearch re t := by
  have he : msearch re (c :: t) =
      match mrun re (c :: t) (fun s1 caps => some (s1, caps)) [] with
      | some (s1, caps) => some (c :: t, s1, caps)
      | none => msearch re t := rfl
  rw [he, h]

/-- Continuation of one `subAll` step when the match was empty: copy one
character and continue (Python advances one position past an empty match). -/
def stepTailAux (re : RE) (t : Tmpl) (f : Nat) : List Char → List Char
  | [] => []
  | c :: rest => c :: subAllAux re t f rest

/-- The same continuation expressed with `subAll`. -/
def subAllTail (re : RE) (t : Tmpl) : List Char → List Char
  | [] => []
  | c :: r => c :: subAll re t r

theorem subAllAux_succ_none {re : RE} {t : Tmpl} {f : Nat} {s : List Char}
    (hm : msearch re s = none) : subAllAux re t (f + 1) s = s :=
  congrArg (fun o : Option (List Char × List Char × Caps) =>
    match o with
    | none => s
    | some (s1, s2, caps) =>
      s.take (s.length - s1.length) ++ applyTmpl caps t ++
        (if s2.length < s1.length then subAllAux re t f s2
         else stepTailAux re t f s2)) hm

theorem subAllAux_succ_some {re : RE} {t : Tmpl} {f : Nat} {s s1 s2 : List Char}
    {caps : Caps} (hm : msearch re s = some (s1, s2, caps)) :
    subAllAux re t (f + 1) s =
      s.take (s.length - s1.length) ++ applyTmpl caps t ++
        (if s2.length < s1.length then subAllAux re t f s2
         else stepTailAux re t f s2) :=
  congrArg (fun o : Option (List Char × List Char × Caps) =>
    match o with
    | none => s
    | some (s1, s2, caps) =>
      s.take (s.length - s1.length) ++ applyTmpl caps t ++
        (if s2.length < s1.length then subAllAux re t f s2
         else stepTailAux re t f s2)) hm

theorem subAllAux_fuel (re : RE) (t : Tmpl) :
    ∀ n s f1 f2, s.length ≤ n → s.length < f1 → s.length < f2 →
      subAllAux re t f1 s = subAllAux re t f2 s := by
  intro n
  induction n with
  | zero =>
    intro s f1 f2 h0 h1 h2
    have hs : s = [] := List.eq_nil_of_length_eq_zero (Nat.le_zero.mp h0)
    subst hs
    obtain ⟨a, rfl⟩ : ∃ a, f1 = a + 1 := ⟨f1 - 1, by omega⟩
    obtain ⟨b, rfl⟩ : ∃ b, f2 = b + 1 := ⟨f2 - 1, by omega⟩
    cases hm : msearch re ([] : List Char) with
    | none => rw [subAllAux_succ_none hm, subAllAux_succ_none hm]
    | some r =>
      obtain ⟨s1, s2, caps⟩ := r
      obtain ⟨hs1, hs2⟩ := msearch_le hm
      have hn1 : s1 = [] := by
        refine List.eq_nil_of_length_eq_zero (Nat.le_zero.mp ?_)
        simpa using hs1
      have hn2 : s2 = [] := by
        refine List.eq_nil_of_length_eq_zero (Nat.le_zero.mp ?_)
        rw [hn1] at hs2
        simpa using hs2
      subst hn1
      subst hn2
      rw [subAllAux_succ_some hm, subAllAux_succ_some hm]
      simp [stepTailAux]
  | succ n ih =>
    intro s f1 f2 h0 h1 h2
    obtain ⟨a, rfl⟩ : ∃ a, f1 = a + 1 := ⟨f1 - 1, by omega⟩
    obtain ⟨b, rfl⟩ : ∃ b, f2 = b + 1 := ⟨f2 - 1, by omega⟩
    cases hm : msearch re s with
    | none => rw [subAllAux_succ_none hm, subAllAux_succ_none hm]
    | some r =>
      obtain ⟨s1, s2, caps⟩ := r
      obtain ⟨hs1, hs2⟩ := msearch_le hm
      rw [subAllAux_succ_some hm, subAllAux_succ_some hm]
      by_cases hlt : s2.length < s1.length
      · rw [if_pos hlt, if_pos hlt, ih s2 a b (by omega) (by omega) (by omega)]
      · rw [if_neg hlt, if_neg hlt]
        cases s2 with
        | nil => rfl
        | cons c rest =>
          have hrl : rest.length + 1 ≤ s1.length := by simpa using hs2
          simp only [stepTailAux]
          rw [ih rest a b (by omega) (by omega) (by omega)]

theorem subAll_eq_none {re : RE} {t : Tmpl} {s : List Char}
    (hm : msearch re s = none) : subAll re t s = s :=
  subAllAux_succ_none hm

theorem subAll_eq_some {re : RE} {t : Tmpl} {s s1 s2 : List Char} {caps : Caps}
    (hm : msearch re s = some (s1, s2, caps)) :
    subAll re t s =
      s.take (s.length - s1.length) ++ applyTmpl caps t ++
        (if s2.length < s1.length then subAll re t s2
         else subAllTail re t s2) := by
  obtain ⟨hs1, hs2⟩ := msearch_le hm
  rw [show subAll re t s = subAllAux re t (s.length + 1) s from rfl,
    subAllAux_succ_some hm]
  by_cases hlt : s2.length < s1.length
  · rw [if_pos hlt, if_pos hlt]
    unfold subAll
    rw [subAllAux_fuel re t s2.length s2 s.length (s2.length + 1) (Nat.le_refl _)
      (by omega) (by omega)]
  · rw [if_neg hlt, if_neg hlt]
    cases s2 with
    | nil => rfl
    | cons c rest =>
      have hrl : rest.length + 1 ≤ s1.length := by simpa using hs2
      simp only [stepTailAux, subAllTail]
      unfold subAll
      rw [subAllAux_fuel re t rest.length rest s.length (rest.length + 1)
        (Nat.le_refl _) (by omega) (by omega)]

theorem subAll_cons_of_head_fail {re : RE} {t : Tmpl} {c : Char} {s : List Char}
    (h : mrun re (c :: s) (fun s1 caps => some (s1, caps)) [] = none) :
    subAll re t (c :: s) = c :: subAll re t s := by
  cases hm : msearch re s with
  | none =>
    rw [subAll_eq_none ((msearch_cons_fail h).trans hm), subAll_eq_none hm]
  | some r =>
    obtain ⟨s1, s2, caps⟩ := r
    obtain ⟨hs1, hs2⟩ := msearch_le hm
    rw [subAll_eq_some ((msearch_cons_fail h).trans hm), subAll_eq_some hm]
    have htake : (c :: s).take ((c :: s).length - s1.length) =
        c :: s.take (s.length - s1.length) := by
      have he : (c :: s).length - s1.length = (s.length - s1.length) + 1 := by
        simp
        omega
      rw [he, List.take_succ_cons]
    rw [htake]
    simp

/-! ## Sequential decomposition of `seqL` patterns -/

/-- Run a list of regex elements in sequence, threading the continuation. -/
def mrunList : List RE → List Char → (List Char → Caps → MRes) → Caps → MRes
  | [], s, k, caps => k s caps
  | e :: es, s, k, caps => mrun e s (fun s1 c1 => mrunList es s1 k c1) caps

theorem mrun_foldl_seq (es : List RE) :
    ∀ (a : RE) (s : List Char) (k : List Char → Caps → MRes) (caps : Caps),
      mrun (es.foldl RE.seqR a) s k caps =
        mrun a s (fun s1 c1 => mrunList es s1 k c1) caps := by
  induction es with
  | nil => intro a s k caps; rfl
  | cons e rest ih =>
    intro a s k caps
    show mrun (rest.foldl RE.seqR (RE.seqR a e)) s k caps = _
    rw [ih (RE.seqR a e) s k caps]
    rfl

theorem mrun_seqL (e : RE) (es : List RE) (s : List Char)
    (k : List Char → Caps → MRes) (caps : Caps) :
    mrun (seqL (e :: es)) s k caps = mrunList (e :: es) s k caps := by
  show mrun (es.foldl RE.seqR e) s k caps = _
  rw [mrun_foldl_seq es e s k caps]
  rfl

/-! ## Deterministic collapse of backtracking -/

/-- When the continuation fails on every string headed by a `p`-character, the
greedy star deterministically skips the maximal `p`-run. -/
theorem mstarG_skip {p : Char → Bool} {k : List Char → MRes}
    (hfail : ∀ c t, p c = true → k (c :: t) = none) :
    ∀ s, mstarG p k s = k (s.dropWhile p)
  | [] => rfl
  | c :: rest => by
    have hrec := mstarG_skip hfail rest
    rw [List.dropWhile_cons]
    by_cases hc : p c = true
    · rw [if_pos hc]
      unfold mstarG
      rw [if_pos hc]
      cases hm : mstarG p k rest with
      | some r => exact (hrec.symm.trans hm).symm
      | none =>
        rw [hfail c rest hc]
        exact (hrec.symm.trans hm).symm
    · rw [if_neg hc]
      unfold mstarG
      rw [if_neg hc]

/-- A list's `takeWhile` is recovered by `take` of its length. -/
theorem take_len_takeWhile (p : Char → Bool) (s : List Char) :
    s.take (s.takeWhile p).length = s.takeWhile p :=
  (List.prefix_iff_eq_take.mp (List.takeWhile_prefix p)).symm

/-- The head of `dropWhile` does not satisfy the predicate. -/
theorem dropWhile_head_not (p : Char → Bool) :
    ∀ (s : List Char) (c : Char) (t : List Char),
      s.dropWhile p = c :: t → p c = false := by
  intro s
  induction s with
  | nil => intro c t h; cases h
  | cons a rest ih =>
    intro c t h
    rw [List.dropWhile_cons] at h
    by_cases ha : p a = true
    · rw [if_pos ha] at h
      exact ih c t h
    · rw [if_neg ha] at h
      cases h
      exact Bool.not_eq_true _ ▸ ha

theorem msearch_nil_fail {re : RE}
    (h : mrun re [] (fun s1 caps => some (s1, caps)) [] = none) :
    msearch re [] = none := by
  have he : msearch re [] =
      match mrun re [] (fun s1 caps => some (s1, caps)) [] with
      | some (s1, caps) => some ([], s1, caps)
      | none => none := rfl
  rw [he, h]

theorem drop_len_takeWhile (p : Char → Bool) (s : List Char) :
    s.drop (s.takeWhile p).length = s.dropWhile p := by
  have h := List.takeWhile_append_dropWhile (p := p) (l := s)
  calc s.drop (s.takeWhile p).length
      = (s.takeWhile p ++ s.dropWhile p).drop (s.takeWhile p).length := by rw [h]
    _ = s.dropWhile p := List.drop_left _ _

theorem len_takeWhile_add_dropWhile (p : Char → Bool) (s : List Char) :
    (s.takeWhile p).length + (s.dropWhile p).length = s.length := by
  conv_rhs => rw [← List.takeWhile_append_dropWhile (p := p) (l := s)]
  rw [List.length_append]

/-- A successful case-sensitive literal match splits the input. -/
theorem litMatch_eq_append :
    ∀ (cs s rest : List Char), litMatch cs false s = some rest → s = cs ++ rest := by
  intro cs
  induction cs with
  | nil =>
    intro s rest h
    simp only [litMatch] at h
    cases h
    rfl
  | cons c cr ih =>
    intro s rest h
    cases s with
    | nil => simp [litMatch] at h
    | cons d dr =>
      simp only [litMatch, Bool.false_eq_true, if_false] at h
      split_ifs at h with hc
      · subst hc
        rw [List.cons_append]
        exact congrArg _ (ih dr rest h)

/-- Greedy star with a continuation that succeeds at the maximal skip. -/
theorem mstarG_of_some {p : Char → Bool} {k : List Char → MRes}
    {r : List Char × Caps} :
    ∀ {s : List Char}, k (s.dropWhile p) = some r → mstarG p k s = some r := by
  intro s
  induction s with
  | nil => intro h; exact h
  | cons c rest ih =>
    intro h
    rw [List.dropWhile_cons] at h
    unfold mstarG
    by_cases hc : p c = true
    · rw [if_pos hc] at h
      rw [if_pos hc, ih h]
    · rw [if_neg hc] at h
      rw [if_neg hc]
      exact h

/-! ## Stage lemmas for sequential patterns -/

theorem mrunList_lit1_cons (c0 : Char) (es : List RE) (k : List Char → Caps → MRes)
    (caps : Caps) (c : Char) (t : List Char) :
    mrunList (RE.litS [c0] false :: es) (c :: t) k caps =
      if c0 = c then mrunList es t k caps else none := by
  by_cases h : c0 = c
  · simp [mrunList, mrun, litMatch, h]
  · simp [mrunList, mrun, litMatch, h]

theorem mrunList_lit1_nil (c0 : Char) (es : List RE) (k : List Char → Caps → MRes)
    (caps : Caps) :
    mrunList (RE.litS [c0] false :: es) [] k caps = none := rfl

theorem mrunList_lit (cs : List Char) (es : List RE) (k : List Char → Caps → MRes)
    (caps : Caps) (s : List Char) :
    mrunList (RE.litS cs false :: es) s k caps =
      match litMatch cs false s with
      | some rest => mrunList es rest k caps
      | none => none := by
  show mrun (RE.litS cs false) s _ caps = _
  cases h : litMatch cs false s with
  | some rest => simp [mrun, h]
  | none => simp [mrun, h]

theorem mrunList_star_skip (p : Char → Bool) (es : List RE)
    (k : List Char → Caps → MRes) (caps : Caps) (s : List Char)
    (hfail : ∀ c t c', p c = true → mrunList es (c :: t) k c' = none) :
    mrunList (RE.starC p false :: es) s k caps =
      mrunList es (s.dropWhile p) k caps := by
  show mrun (RE.starC p false) s _ caps = _
  show mstarG p (fun s1 => mrunList es s1 k caps) s = _
  exact mstarG_skip (fun c t hc => hfail c t caps hc) s

theorem mrunList_grp_plus (i : Nat) (p : Char → Bool) (es : List RE)
    (k : List Char → Caps → MRes) (caps : Caps) (s : List Char)
    (hfail : ∀ c t c', p c = true → mrunList es (c :: t) k c' = none) :
    mrunList (RE.grpR i (.plusC p false) :: es) s k caps =
      if s.takeWhile p = [] then none
      else mrunList es (s.dropWhile p) k ((i, s.takeWhile p) :: caps) := by
  cases s with
  | nil => rfl
  | cons c rest =>
    by_cases hc : p c = true
    · have h1 : mrunList (RE.grpR i (.plusC p false) :: es) (c :: rest) k caps =
          mstarG p (fun s1 => mrunList es s1 k
            ((i, (c :: rest).take ((c :: rest).length - s1.length)) :: caps)) rest := by
        simp [mrunList, mrun, hc]
      have hsum := len_takeWhile_add_dropWhile p rest
      have hdle : (rest.dropWhile p).length ≤ rest.length :=
        Nat.le.intro (Nat.add_comm _ _ ▸ hsum)
      have hlen : (c :: rest).length - (rest.dropWhile p).length =
          (rest.takeWhile p).length + 1 := by
        simp only [List.length_cons]
        omega
      rw [h1, mstarG_skip (fun d t hd => hfail d t _ hd) rest, hlen,
        List.take_succ_cons, take_len_takeWhile,
        List.takeWhile_cons_of_pos hc, List.dropWhile_cons_of_pos hc,
        if_neg (List.cons_ne_nil _ _)]
    · have h1 : mrunList (RE.grpR i (.plusC p false) :: es) (c :: rest) k caps =
          none := by
        simp [mrunList, mrun, hc]
      rw [h1, List.takeWhile_cons_of_neg hc, if_pos rfl]

/-! ## The colon stage of `citeSpacingPat` -/

theorem pySpace_notColon {c : Char} (h : pySpace c = true) : notColon c = true := by
  simp only [pySpace, Bool.or_eq_true, decide_eq_true_eq] at h
  rcases h with ((((h|h)|h)|h)|h)|h <;> subst h <;> decide

theorem takeWhile_append_of_all {p : Char → Bool} :
    ∀ {w A : List Char}, (∀ c ∈ w, p c = true) →
      (w ++ A).takeWhile p = w ++ A.takeWhile p := by
  intro w
  induction w with
  | nil => intro A _; rfl
  | cons c t ih =>
    intro A h
    rw [List.cons_append, List.takeWhile_cons_of_pos (h c (List.mem_cons_self c t)),
      List.cons_append, ih (fun d hd => h d (List.mem_cons_of_mem c hd))]

theorem dropWhile_append_of_all {p : Char → Bool} :
    ∀ {w A : List Char}, (∀ c ∈ w, p c = true) →
      (w ++ A).dropWhile p = A.dropWhile p := by
  intro w
  induction w with
  | nil => intro A _; rfl
  | cons c t ih =>
    intro A h
    rw [List.cons_append, List.dropWhile_cons_of_pos (h c (List.mem_cons_self c t)),
      ih (fun d hd => h d (List.mem_cons_of_mem c hd))]

theorem all_takeWhile (p : Char → Bool) (s : List Char) :
    ∀ c ∈ s.takeWhile p, p c = true := by
  intro c hc
  exact List.mem_takeWhile_imp hc

/-- Resolution of `\s*([^:]+):` under Python backtracking: skip the maximal
whitespace run; if the remainder starts with the colon itself, back off one
whitespace character so the group is that single character.  Returns the
group-3 text and the suffix after the colon. -/
def colonSplit (s : List Char) : Option (List Char × List Char) :=
  match (s.dropWhile pySpace).dropWhile notColon with
  | ':' :: s4 =>
    if (s.dropWhile pySpace).takeWhile notColon = [] then
      match (s.takeWhile pySpace).getLast? with
      | some c => some ([c], s4)
      | none => none
    else some ((s.dropWhile pySpace).takeWhile notColon, s4)
  | _ => none

theorem colonSplit_eq (s : List Char) :
    colonSplit s =
      match (s.dropWhile pySpace).dropWhile notColon with
      | ':' :: s4 =>
        if (s.dropWhile pySpace).takeWhile notColon = [] then
          match (s.takeWhile pySpace).getLast? with
          | some c => some ([c], s4)
          | none => none
        else some ((s.dropWhile pySpace).takeWhile notColon, s4)
      | _ => none := rfl

/-- The group-3-and-colon part of the colon stage, at a fixed start position. -/
theorem colon_body (es : List RE) (k : List Char → Caps → MRes) (caps : Caps)
    (x : List Char) :
    mrunList (RE.grpR 3 (.plusC notColon false) :: RE.litS [':'] false :: es)
        x k caps =
      if x.takeWhile notColon = [] then none
      else
        match x.dropWhile notColon with
        | ':' :: x4 => mrunList es x4 k ((3, x.takeWhile notColon) :: caps)
        | _ => none := by
  have hfl : ∀ (c : Char) (t : List Char) (c' : Caps), notColon c = true →
      mrunList (RE.litS [':'] false :: es) (c :: t) k c' = none := by
    intro c t c' hc
    rw [mrunList_lit1_cons]
    rw [if_neg]
    intro he
    simp only [notColon, bne_iff_ne, ne_eq] at hc
    exact hc he.symm
  rw [mrunList_grp_plus 3 notColon _ k caps x hfl]
  by_cases htw : x.takeWhile notColon = []
  · rw [if_pos htw, if_pos htw]
  · rw [if_neg htw, if_neg htw]
    cases hD : x.dropWhile notColon with
    | nil => rw [mrunList_lit1_nil]
    | cons dc x4 =>
      have hdc : dc = ':' := by
        have h2 := dropWhile_head_not notColon x dc x4 hD
        simpa only [notColon, bne_eq_false_iff_eq] using h2
      subst hdc
      rw [mrunList_lit1_cons, if_pos rfl]
      rfl

theorem dropWhile_notColon_cons {x x4 : List Char} {dc : Char}
    (h : x.dropWhile notColon = dc :: x4) : dc = ':' := by
  have h2 := dropWhile_head_not notColon x dc x4 h
  simpa only [notColon, bne_eq_false_iff_eq] using h2

theorem mrunList_star_pos (p : Char → Bool) (es : List RE)
    (k : List Char → Caps → MRes) (caps : Caps) (c : Char) (t : List Char)
    (hp : p c = true) :
    mrunList (RE.starC p false :: es) (c :: t) k caps =
      match mrunList (RE.starC p false :: es) t k caps with
      | some r => some r
      | none => mrunList es (c :: t) k caps := by
  have h : mrunList (RE.starC p false :: es) (c :: t) k caps =
      mstarG p (fun s1 => mrunList es s1 k caps) (c :: t) := rfl
  have h2 : mstarG p (fun s1 => mrunList es s1 k caps) t =
      mrunList (RE.starC p false :: es) t k caps := rfl
  rw [h]
  unfold mstarG
  rw [if_pos hp, h2]

theorem mrunList_star_neg (p : Char → Bool) (es : List RE)
    (k : List Char → Caps → MRes) (caps : Caps) (c : Char) (t : List Char)
    (hp : ¬p c = true) :
    mrunList (RE.starC p false :: es) (c :: t) k caps =
      mrunList es (c :: t) k caps := by
  have h : mrunList (RE.starC p false :: es) (c :: t) k caps =
      mstarG p (fun s1 => mrunList es s1 k caps) (c :: t) := rfl
  rw [h]
  unfold mstarG
  rw [if_neg hp]

/-- Python resolution of `\s*([^:]+):` followed by a sequel whose failure is
independent of the captures: the whole colon stage is `colonSplit`. -/
theorem mrunList_colon_stage (es : List RE) (k : List Char → Caps → MRes)
    (huni : ∀ x c1 c2, mrunList es x k c1 = none → mrunList es x k c2 = none) :
    ∀ (s : List Char) (caps : Caps),
      mrunList (RE.starC pySpace false :: RE.grpR 3 (.plusC notColon false) ::
          RE.litS [':'] false :: es) s k caps =
        match colonSplit s with
        | none => none
        | some (h, s4) => mrunList es s4 k ((3, h) :: caps) := by
  intro s
  induction s with
  | nil => intro caps; rfl
  | cons c rest ih =>
    intro caps
    by_cases hwc : pySpace c = true
    · -- whitespace head: the star consumes it, backtracking into the body
      have hnc : notColon c = true := pySpace_notColon hwc
      have hAD : (c :: rest).dropWhile pySpace = rest.dropWhile pySpace :=
        List.dropWhile_cons_of_pos hwc
      have hwall : ∀ d ∈ rest.takeWhile pySpace, notColon d = true :=
        fun d hd => pySpace_notColon (all_takeWhile pySpace rest d hd)
      have hdnc : rest.dropWhile notColon =
          (rest.dropWhile pySpace).dropWhile notColon := by
        conv_lhs => rw [← List.takeWhile_append_dropWhile (p := pySpace) (l := rest)]
        exact dropWhile_append_of_all hwall
      rw [mrunList_star_pos pySpace _ k caps c rest hwc]
      cases hD : (rest.dropWhile pySpace).dropWhile notColon with
      | nil =>
        have hcsr : colonSplit rest = none := by
          rw [colonSplit_eq, hD]
        have hcsc : colonSplit (c :: rest) = none := by
          rw [colonSplit_eq, hAD, hD]
        have hih : mrunList (RE.starC pySpace false ::
            RE.grpR 3 (.plusC notColon false) :: RE.litS [':'] false :: es)
            rest k caps = none := by
          rw [ih caps, hcsr]
        rw [hih, hcsc]
        show mrunList (RE.grpR 3 (.plusC notColon false) ::
            RE.litS [':'] false :: es) (c :: rest) k caps = none
        rw [colon_body, List.takeWhile_cons_of_pos hnc,
          if_neg (List.cons_ne_nil _ _), List.dropWhile_cons_of_pos hnc, hdnc, hD]
      | cons dc x4 =>
        have hdc := dropWhile_notColon_cons hD
        subst hdc
        have hB : mrunList (RE.grpR 3 (.plusC notColon false) ::
            RE.litS [':'] false :: es) (c :: rest) k caps =
            mrunList es x4 k ((3, c :: rest.takeWhile notColon) :: caps) := by
          rw [colon_body, List.takeWhile_cons_of_pos hnc,
            if_neg (List.cons_ne_nil _ _), List.dropWhile_cons_of_pos hnc, hdnc, hD]
          rfl
        by_cases he : (rest.dropWhile pySpace).takeWhile notColon = []
        · cases hw : rest.takeWhile pySpace with
          | nil =>
            have hcsr : colonSplit rest = none := by
              rw [colonSplit_eq, hD]
              show (if (rest.dropWhile pySpace).takeWhile notColon = [] then
                  match (rest.takeWhile pySpace).getLast? with
                  | some g => some ([g], x4)
                  | none => none
                else some ((rest.dropWhile pySpace).takeWhile notColon, x4)) = none
              rw [if_pos he, hw]
              rfl
            have hcsc : colonSplit (c :: rest) = some ([c], x4) := by
              rw [colonSplit_eq, hAD, hD]
              show (if (rest.dropWhile pySpace).takeWhile notColon = [] then
                  match ((c :: rest).takeWhile pySpace).getLast? with
                  | some g => some ([g], x4)
                  | none => none
                else some ((rest.dropWhile pySpace).takeWhile notColon, x4)) =
                some ([c], x4)
              rw [if_pos he, List.takeWhile_cons_of_pos hwc, hw]
              rfl
            have hih : mrunList (RE.starC pySpace false ::
                RE.grpR 3 (.plusC notColon false) :: RE.litS [':'] false :: es)
                rest k caps = none := by
              rw [ih caps, hcsr]
            rw [hih]
            have hR : (match colonSplit (c :: rest) with
                | none => none
                | some (h, s4) => mrunList es s4 k ((3, h) :: caps)) =
                mrunList es x4 k ((3, [c]) :: caps) := by
              rw [hcsc]
            rw [hR]
            have hrtw : rest.takeWhile notColon = [] := by
              have hrA : rest.takeWhile notColon =
                  rest.takeWhile pySpace ++ (rest.dropWhile pySpace).takeWhile notColon := by
                conv_lhs =>
                  rw [← List.takeWhile_append_dropWhile (p := pySpace) (l := rest)]
                exact takeWhile_append_of_all hwall
              rw [hrA, he, hw]
              rfl
            show mrunList (RE.grpR 3 (.plusC notColon false) ::
                RE.litS [':'] false :: es) (c :: rest) k caps =
              mrunList es x4 k ((3, [c]) :: caps)
            rw [hB, hrtw]
          | cons wc wr =>
            have hgl : (wc :: wr).getLast? =
                some ((wc :: wr).getLast (List.cons_ne_nil wc wr)) :=
              List.getLast?_eq_getLast _ _
            have hcsr : colonSplit rest =
                some ([(wc :: wr).getLast (List.cons_ne_nil wc wr)], x4) := by
              rw [colonSplit_eq, hD]
              show (if (rest.dropWhile pySpace).takeWhile notColon = [] then
                  match (rest.takeWhile pySpace).getLast? with
                  | some g => some ([g], x4)
                  | none => none
                else some ((rest.dropWhile pySpace).takeWhile notColon, x4)) = _
              rw [if_pos he, hw, hgl]
            have hcsc : colonSplit (c :: rest) =
                some ([(wc :: wr).getLast (List.cons_ne_nil wc wr)], x4) := by
              rw [colonSplit_eq, hAD, hD]
              show (if (rest.dropWhile pySpace).takeWhile notColon = [] then
                  match ((c :: rest).takeWhile pySpace).getLast? with
                  | some g => some ([g], x4)
                  | none => none
                else some ((rest.dropWhile pySpace).takeWhile notColon, x4)) = _
              rw [if_pos he, List.takeWhile_cons_of_pos hwc, hw,
                List.getLast?_cons_cons, hgl]
            have hih : mrunList (RE.starC pySpace false ::
                RE.grpR 3 (.plusC notColon false) :: RE.litS [':'] false :: es)
                rest k caps =
                mrunList es x4 k
                  ((3, [(wc :: wr).getLast (List.cons_ne_nil wc wr)]) :: caps) := by
              rw [ih caps, hcsr]
            have hR : (match colonSplit (c :: rest) with
                | none => none
                | some (h, s4) => mrunList es s4 k ((3, h) :: caps)) =
                mrunList es x4 k
                  ((3, [(wc :: wr).getLast (List.cons_ne_nil wc wr)]) :: caps) := by
              rw [hcsc]
            rw [hih, hR]
            cases hres : mrunList es x4 k
                ((3, [(wc :: wr).getLast (List.cons_ne_nil wc wr)]) :: caps) with
            | some r => rfl
            | none =>
              show mrunList (RE.grpR 3 (.plusC notColon false) ::
                  RE.litS [':'] false :: es) (c :: rest) k caps = none
              rw [hB]
              exact huni _ _ _ hres
        · have hcsr : colonSplit rest =
              some ((rest.dropWhile pySpace).takeWhile notColon, x4) := by
            rw [colonSplit_eq, hD]
            show (if (rest.dropWhile pySpace).takeWhile notColon = [] then
                match (rest.takeWhile pySpace).getLast? with
                | some g => some ([g], x4)
                | none => none
              else some ((rest.dropWhile pySpace).takeWhile notColon, x4)) = _
            rw [if_neg he]
          have hcsc : colonSplit (c :: rest) =
              some ((rest.dropWhile pySpace).takeWhile notColon, x4) := by
            rw [colonSplit_eq, hAD, hD]
            show (if (rest.dropWhile pySpace).takeWhile notColon = [] then
                match ((c :: rest).takeWhile pySpace).getLast? with
                | some g => some ([g], x4)
                | none => none
              else some ((rest.dropWhile pySpace).takeWhile notColon, x4)) = _
            rw [if_neg he]
          have hih : mrunList (RE.starC pySpace false ::
              RE.grpR 3 (.plusC notColon false) :: RE.litS [':'] false :: es)
              rest k caps =
              mrunList es x4 k
                ((3, (rest.dropWhile pySpace).takeWhile notColon) :: caps) := by
            rw [ih caps, hcsr]
          have hR : (match colonSplit (c :: rest) with
              | none => none
              | some (h, s4) => mrunList es s4 k ((3, h) :: caps)) =
              mrunList es x4 k
                ((3, (rest.dropWhile pySpace).takeWhile notColon) :: caps) := by
            rw [hcsc]
          rw [hih, hR]
          cases hres : mrunList es x4 k
              ((3, (rest.dropWhile pySpace).takeWhile notColon) :: caps) with
          | some r => rfl
          | none =>
            show mrunList (RE.grpR 3 (.plusC notColon false) ::
                RE.litS [':'] false :: es) (c :: rest) k caps = none
            rw [hB]
            exact huni _ _ _ hres
    · -- non-whitespace head: the star matches nothing here
      rw [mrunList_star_neg pySpace _ k caps c rest hwc, colon_body]
      by_cases hcol : c = ':'
      · subst hcol
        have hncol : ¬notColon ':' = true := by decide
        have hcsc : colonSplit (':' :: rest) = none := by
          rw [colonSplit_eq, List.dropWhile_cons_of_neg hwc,
            List.dropWhile_cons_of_neg hncol]
          rfl
        rw [hcsc, List.takeWhile_cons_of_neg hncol, if_pos rfl]
      · have hnc : notColon c = true := by
          simp only [notColon, bne_iff_ne, ne_eq]
          exact fun h => hcol h
        rw [List.takeWhile_cons_of_pos hnc, if_neg (List.cons_ne_nil _ _),
          List.dropWhile_cons_of_pos hnc]
        cases hD : rest.dropWhile notColon with
        | nil =>
          have hcsc : colonSplit (c :: rest) = none := by
            rw [colonSplit_eq, List.dropWhile_cons_of_neg hwc,
              List.dropWhile_cons_of_pos hnc, hD]
          rw [hcsc]
        | cons dc x4 =>
          have hdc := dropWhile_notColon_cons hD
          subst hdc
          have hcsc : colonSplit (c :: rest) =
              some (c :: rest.takeWhile notColon, x4) := by
            rw [colonSplit_eq, List.dropWhile_cons_of_neg hwc,
              List.dropWhile_cons_of_pos hnc, hD, List.takeWhile_cons_of_pos hnc]
            rfl
          rw [hcsc]
          rfl

/-! ## The URL stage of `citeSpacingPat` -/

theorem pySpace_cases {c : Char} (h : pySpace c = true) :
    c = ' ' ∨ c = '\t' ∨ c = '\n' ∨ c = '\x0d' ∨ c = '\x0b' ∨ c = '\x0c' := by
  simp only [pySpace, Bool.or_eq_true, decide_eq_true_eq] at h
  tauto

/-- Non-whitespace tail of a URL: `[^\s]+`. -/
def urlTailAt (y3 : List Char) : Option (List Char) :=
  if y3.takeWhile nonWs = [] then none else some (y3.dropWhile nonWs)

/-- The `://` and tail part after the optional `s`. -/
def urlRest (z : List Char) : Option (List Char) :=
  match litMatch (lc "://") false z with
  | none => none
  | some y3 => urlTailAt y3

/-- The suffix remaining after matching `https?://[^\s]+` at the head, if any. -/
def urlCore (y : List Char) : Option (List Char) :=
  match litMatch (lc "http") false y with
  | none => none
  | some y1 =>
    match y1 with
    | [] => urlRest []
    | c :: y2 =>
      if c = 's' then
        match urlRest y2 with
        | some r => some r
        | none => urlRest (c :: y2)
      else urlRest (c :: y2)

/-- `\s*(https?://[^\s]+)` at the head: group-4 text and remaining suffix. -/
def urlAt (x : List Char) : Option (List Char × List Char) :=
  match urlCore (x.dropWhile pySpace) with
  | none => none
  | some rest =>
    some ((x.dropWhile pySpace).take ((x.dropWhile pySpace).length - rest.length),
      rest)

theorem mrunList_plus_url (y : List Char) (caps : Caps) (c : Char) (r : List Char) :
    mrunList [RE.plusC nonWs false] (c :: r)
      (fun s1 c1 => some (s1, (4, y.take (y.length - s1.length)) :: c1)) caps =
      if nonWs c = true then
        some (r.dropWhile nonWs,
          (4, y.take (y.length - (r.dropWhile nonWs).length)) :: caps)
      else none := by
  by_cases hc : nonWs c = true
  · rw [if_pos hc]
    have h1 : mrunList [RE.plusC nonWs false] (c :: r)
        (fun s1 c1 => some (s1, (4, y.take (y.length - s1.length)) :: c1)) caps =
        mstarG nonWs
          (fun s1 => some (s1, (4, y.take (y.length - s1.length)) :: caps)) r := by
      show (if nonWs c = true then
          mstarG nonWs
            (fun s1 => some (s1, (4, y.take (y.length - s1.length)) :: caps)) r
        else none) =
        mstarG nonWs
          (fun s1 => some (s1, (4, y.take (y.length - s1.length)) :: caps)) r
      rw [if_pos hc]
    rw [h1]
    exact mstarG_of_some rfl
  · rw [if_neg hc]
    show (if nonWs c = true then
        mstarG nonWs
          (fun s1 => some (s1, (4, y.take (y.length - s1.length)) :: caps)) r
      else none) = none
    rw [if_neg hc]

theorem url_tail_run (y z : List Char) (caps : Caps) :
    mrunList [RE.litS (lc "://") false, RE.plusC nonWs false] z
      (fun s1 c1 => some (s1, (4, y.take (y.length - s1.length)) :: c1)) caps =
      match urlRest z with
      | none => none
      | some rest => some (rest, (4, y.take (y.length - rest.length)) :: caps) := by
  rw [mrunList_lit]
  unfold urlRest
  cases hl : litMatch (lc "://") false z with
  | none => rfl
  | some y3 =>
    dsimp only
    cases y3 with
    | nil => rfl
    | cons c r =>
      rw [mrunList_plus_url]
      by_cases hc : nonWs c = true
      · rw [if_pos hc]
        have hu : urlTailAt (c :: r) = some (r.dropWhile nonWs) := by
          unfold urlTailAt
          rw [List.takeWhile_cons_of_pos hc, List.dropWhile_cons_of_pos hc,
            if_neg (List.cons_ne_nil _ _)]
        rw [hu]
      · rw [if_neg hc]
        have hu : urlTailAt (c :: r) = none := by
          unfold urlTailAt
          rw [List.takeWhile_cons_of_neg hc, if_pos rfl]
        rw [hu]

theorem mrunList_opt_chC (q : Char → Bool) (es : List RE)
    (k : List Char → Caps → MRes) (caps : Caps) :
    ∀ z, mrunList (RE.optR (.chC q) :: es) z k caps =
      match z with
      | [] => mrunList es [] k caps
      | c :: y2 =>
        if q c = true then
          match mrunList es y2 k caps with
          | some res => some res
          | none => mrunList es (c :: y2) k caps
        else mrunList es (c :: y2) k caps := by
  intro z
  cases z with
  | nil => rfl
  | cons c y2 =>
    dsimp only
    have h0 : mrunList (RE.optR (.chC q) :: es) (c :: y2) k caps =
        match (if q c = true then mrunList es y2 k caps else none) with
        | some res => some res
        | none => mrunList es (c :: y2) k caps := rfl
    by_cases hq : q c = true
    · rw [h0, if_pos hq, if_pos hq]
    · rw [h0, if_neg hq, if_neg hq]

theorem url_grp_run (y : List Char) (caps : Caps) :
    mrunList [RE.grpR 4 (seqL [RE.litS (lc "http") false, RE.optR (.chC sChar),
        RE.litS (lc "://") false, RE.plusC nonWs false])] y
      (fun s1 c1 => some (s1, c1)) caps =
      match urlCore y with
      | none => none
      | some rest => some (rest, (4, y.take (y.length - rest.length)) :: caps) := by
  have h1 : mrunList [RE.grpR 4 (seqL [RE.litS (lc "http") false,
      RE.optR (.chC sChar), RE.litS (lc "://") false, RE.plusC nonWs false])] y
      (fun s1 c1 => some (s1, c1)) caps =
      mrunList [RE.litS (lc "http") false, RE.optR (.chC sChar),
        RE.litS (lc "://") false, RE.plusC nonWs false] y
        (fun s1 caps1 => some (s1, (4, y.take (y.length - s1.length)) :: caps1))
        caps := by
    show mrun (seqL [RE.litS (lc "http") false, RE.optR (.chC sChar),
        RE.litS (lc "://") false, RE.plusC nonWs false]) y
      (fun s1 caps1 => some (s1, (4, y.take (y.length - s1.length)) :: caps1))
      caps = _
    exact mrun_seqL _ _ _ _ _
  rw [h1, mrunList_lit]
  unfold urlCore
  cases hl : litMatch (lc "http") false y with
  | none => rfl
  | some y1 =>
    dsimp only
    rw [mrunList_opt_chC]
    cases y1 with
    | nil => rw [url_tail_run]
    | cons c y2 =>
      dsimp only
      by_cases hcs : c = 's'
      · subst hcs
        rw [if_pos (show sChar 's' = true from rfl), url_tail_run, url_tail_run]
        cases hr2 : urlRest y2 with
        | some r => rfl
        | none => rfl
      · have hq : ¬sChar c = true := by
          simp only [sChar, beq_iff_eq]
          exact hcs
        rw [if_neg hq, if_neg hcs, url_tail_run]

theorem litMatch_cons_cons (c0 : Char) (cr : List Char) (d : Char) (dr : List Char) :
    litMatch (c0 :: cr) false (d :: dr) =
      if c0 = d then litMatch cr false dr else none := rfl

theorem lit1_fail_of_ne {c0 c : Char} (hne : c0 ≠ c) (es : List RE)
    (k : List Char → Caps → MRes) (caps : Caps) (t : List Char) :
    mrunList (RE.litS [c0] false :: es) (c :: t) k caps = none := by
  rw [mrunList_lit1_cons, if_neg hne]

/-- The group-4 element of `citeSpacingPat`. -/
def urlGrp : RE := RE.grpR 4 (seqL [RE.litS (lc "http") false, RE.optR (.chC sChar),
  RE.litS (lc "://") false, RE.plusC nonWs false])

theorem mrunList_url_stage (x : List Char) (caps : Caps) :
    mrunList [RE.starC pySpace false, urlGrp] x (fun s1 c1 => some (s1, c1)) caps =
      match urlAt x with
      | none => none
      | some (u, rest) => some (rest, (4, u) :: caps) := by
  have hug : urlGrp = RE.grpR 4 (seqL [RE.litS (lc "http") false,
      RE.optR (.chC sChar), RE.litS (lc "://") false, RE.plusC nonWs false]) := rfl
  have hfail : ∀ (c : Char) (t : List Char) (c' : Caps), pySpace c = true →
      mrunList [urlGrp] (c :: t) (fun s1 c1 => some (s1, c1)) c' = none := by
    intro c t c' hw
    rw [hug, url_grp_run]
    have hne : ¬('h' = c) := by
      rcases pySpace_cases hw with rfl|rfl|rfl|rfl|rfl|rfl <;> decide
    have hlm : litMatch (lc "http") false (c :: t) = none := by
      rw [show lc "http" = 'h' :: 't' :: 't' :: 'p' :: ([] : List Char) from rfl,
        litMatch_cons_cons, if_neg hne]
    have hc0 : urlCore (c :: t) = none := by
      unfold urlCore
      rw [hlm]
    rw [hc0]
  rw [mrunList_star_skip pySpace [urlGrp] _ caps x hfail, hug, url_grp_run]
  unfold urlAt
  cases hc : urlCore (x.dropWhile pySpace) with
  | none => rfl
  | some rest => rfl

theorem url_stage_uniform : ∀ (x : List Char) (c1 c2 : Caps),
    mrunList [RE.starC pySpace false, urlGrp] x
      (fun s1 c1 => some (s1, c1)) c1 = none →
    mrunList [RE.starC pySpace false, urlGrp] x
      (fun s1 c1 => some (s1, c1)) c2 = none := by
  intro x c1 c2 h
  rw [mrunList_url_stage] at h ⊢
  cases hu : urlAt x with
  | none => rfl
  | some v =>
    obtain ⟨u, rest⟩ := v
    rw [hu] at h
    exact absurd h (by simp)

/-- Deterministic parse of `citeSpacingPat` at the head of the input:
digits, tag, headline, url, and the remaining suffix. -/
def p4At : List Char → Option (List Char × List Char × List Char × List Char × List Char)
  | [] => none
  | c :: s0 =>
    if c = '[' then
      if s0.takeWhile isDigitC = [] then none
      else
        match s0.dropWhile isDigitC with
        | c1 :: s1 =>
          if c1 = ']' then
            match s1.dropWhile pySpace with
            | c2 :: s2 =>
              if c2 = '[' then
                if s2.takeWhile notRBrk = [] then none
                else
                  match s2.dropWhile notRBrk with
                  | c3 :: s3 =>
                    if c3 = ']' then
                      match colonSplit s3 with
                      | some (h, s4) =>
                        match urlAt s4 with
                        | some (u, rest) =>
                          some (s0.takeWhile isDigitC, s2.takeWhile notRBrk,
                            h, u, rest)
                        | none => none
                      | none => none
                    else none
                  | [] => none
              else none
            | [] => none
          else none
        | [] => none
    else none

theorem p4At_cons (c : Char) (s0 : List Char) :
    p4At (c :: s0) =
      if c = '[' then
        if s0.takeWhile isDigitC = [] then none
        else
          match s0.dropWhile isDigitC with
          | c1 :: s1 =>
            if c1 = ']' then
              match s1.dropWhile pySpace with
              | c2 :: s2 =>
                if c2 = '[' then
                  if s2.takeWhile notRBrk = [] then none
                  else
                    match s2.dropWhile notRBrk with
                    | c3 :: s3 =>
                      if c3 = ']' then
                        match colonSplit s3 with
                        | some (h, s4) =>
                          match urlAt s4 with
                          | some (u, rest) =>
                            some (s0.takeWhile isDigitC, s2.takeWhile notRBrk,
                              h, u, rest)
                          | none => none
                        | none => none
                      else none
                    | [] => none
                else none
              | [] => none
            else none
          | [] => none
      else none := rfl

/-- Head-match characterization of `citeSpacingPat`: the backtracking run at a
fixed start position is exactly the deterministic parse `p4At`. -/
theorem mrun_cite_head (s : List Char) :
    mrun citeSpacingPat s (fun s1 caps => some (s1, caps)) [] =
      match p4At s with
      | none => none
      | some (d, tag, h, u, rest) =>
        some (rest, [(4, u), (3, h), (2, tag), (1, d)]) := by
  have e0 : mrun citeSpacingPat s (fun s1 caps => some (s1, caps)) [] =
      mrunList [RE.litS ['['] false, RE.grpR 1 (.plusC isDigitC false),
        RE.litS [']'] false, RE.starC pySpace false, RE.litS ['['] false,
        RE.grpR 2 (.plusC notRBrk false), RE.litS [']'] false,
        RE.starC pySpace false, RE.grpR 3 (.plusC notColon false),
        RE.litS [':'] false, RE.starC pySpace false, urlGrp] s
        (fun s1 caps => some (s1, caps)) [] :=
    mrun_seqL _ _ _ _ _
  rw [e0]
  cases s with
  | nil =>
    rw [mrunList_lit1_nil]
    rfl
  | cons c s0 =>
    rw [mrunList_lit1_cons]
    by_cases hc : '[' = c
    · subst hc
      rw [if_pos rfl]
      have hfailD : ∀ (cD : Char) (t : List Char) (c' : Caps), isDigitC cD = true →
          mrunList (RE.litS [']'] false :: RE.starC pySpace false ::
            RE.litS ['['] false :: RE.grpR 2 (.plusC notRBrk false) ::
            RE.litS [']'] false :: RE.starC pySpace false ::
            RE.grpR 3 (.plusC notColon false) :: RE.litS [':'] false ::
            RE.starC pySpace false :: urlGrp :: []) (cD :: t)
            (fun s1 caps => some (s1, caps)) c' = none := by
        intro cD t c' hdc
        refine lit1_fail_of_ne ?_ _ _ _ _
        intro he
        rw [← he] at hdc
        exact absurd hdc (by decide)
      rw [mrunList_grp_plus 1 isDigitC _ _ _ s0 hfailD]
      by_cases hd : s0.takeWhile isDigitC = []
      · rw [if_pos hd]
        have hp : p4At ('[' :: s0) = none := by
          rw [p4At_cons, if_pos rfl, if_pos hd]
        rw [hp]
      · rw [if_neg hd]
        cases hD1 : s0.dropWhile isDigitC with
        | nil =>
          rw [mrunList_lit1_nil]
          have hp : p4At ('[' :: s0) = none := by
            rw [p4At_cons, if_pos rfl, if_neg hd, hD1]
          rw [hp]
        | cons c1 s1 =>
          rw [mrunList_lit1_cons]
          by_cases hc1 : ']' = c1
          · subst hc1
            rw [if_pos rfl]
            have hfailW1 : ∀ (cW : Char) (t : List Char) (c' : Caps),
                pySpace cW = true →
                mrunList (RE.litS ['['] false :: RE.grpR 2 (.plusC notRBrk false) ::
                  RE.litS [']'] false :: RE.starC pySpace false ::
                  RE.grpR 3 (.plusC notColon false) :: RE.litS [':'] false ::
                  RE.starC pySpace false :: urlGrp :: []) (cW :: t)
                  (fun s1 caps => some (s1, caps)) c' = none := by
              intro cW t c' hw
              refine lit1_fail_of_ne ?_ _ _ _ _
              intro he
              rcases pySpace_cases hw with rfl|rfl|rfl|rfl|rfl|rfl <;>
                exact absurd he (by decide)
            rw [mrunList_star_skip pySpace _ _ _ s1 hfailW1]
            cases hD2 : s1.dropWhile pySpace with
            | nil =>
              rw [mrunList_lit1_nil]
              have hp : p4At ('[' :: s0) = none := by
                rw [p4At_cons, if_pos rfl, if_neg hd, hD1]
                dsimp only
                rw [if_pos rfl, hD2]
              rw [hp]
            | cons c2 s2 =>
              rw [mrunList_lit1_cons]
              by_cases hc2 : '[' = c2
              · subst hc2
                rw [if_pos rfl]
                have hfailT : ∀ (cT : Char) (t : List Char) (c' : Caps),
                    notRBrk cT = true →
                    mrunList (RE.litS [']'] false :: RE.starC pySpace false ::
                      RE.grpR 3 (.plusC notColon false) :: RE.litS [':'] false ::
                      RE.starC pySpace false :: urlGrp :: []) (cT :: t)
                      (fun s1 caps => some (s1, caps)) c' = none := by
                  intro cT t c' htg
                  refine lit1_fail_of_ne ?_ _ _ _ _
                  intro he
                  rw [← he] at htg
                  exact absurd htg (by decide)
                rw [mrunList_grp_plus 2 notRBrk _ _ _ s2 hfailT]
                by_cases ht : s2.takeWhile notRBrk = []
                · rw [if_pos ht]
                  have hp : p4At ('[' :: s0) = none := by
                    rw [p4At_cons, if_pos rfl, if_neg hd, hD1]
                    dsimp only
                    rw [if_pos rfl, hD2]
                    dsimp only
                    rw [if_pos rfl, if_pos ht]
                  rw [hp]
                · rw [if_neg ht]
                  cases hD3 : s2.dropWhile notRBrk with
                  | nil =>
                    rw [mrunList_lit1_nil]
                    have hp : p4At ('[' :: s0) = none := by
                      rw [p4At_cons, if_pos rfl, if_neg hd, hD1]
                      dsimp only
                      rw [if_pos rfl, hD2]
                      dsimp only
                      rw [if_pos rfl, if_neg ht, hD3]
                    rw [hp]
                  | cons c3 s3 =>
                    rw [mrunList_lit1_cons]
                    by_cases hc3 : ']' = c3
                    · subst hc3
                      rw [if_pos rfl]
                      rw [mrunList_colon_stage [RE.starC pySpace false, urlGrp]
                        (fun s1 caps => some (s1, caps)) url_stage_uniform s3]
                      have hp : p4At ('[' :: s0) =
                          match colonSplit s3 with
                          | some (h, s4) =>
                            (match urlAt s4 with
                             | some (u, rest) => some (s0.takeWhile isDigitC,
                                 s2.takeWhile notRBrk, h, u, rest)
                             | none => none)
                          | none => none := by
                        rw [p4At_cons, if_pos rfl, if_neg hd, hD1]
                        dsimp only
                        rw [if_pos rfl, hD2]
                        dsimp only
                        rw [if_pos rfl, if_neg ht, hD3]
                        dsimp only
                        rw [if_pos rfl]
                      rw [hp]
                      cases hcs : colonSplit s3 with
                      | none => rfl
                      | some hv =>
                        obtain ⟨hh, s4⟩ := hv
                        dsimp only
                        rw [mrunList_url_stage]
                        cases hu : urlAt s4 with
                        | none => rfl
                        | some uv =>
                          obtain ⟨u, rest⟩ := uv
                          rfl
                    · rw [if_neg hc3]
                      have hp : p4At ('[' :: s0) = none := by
                        rw [p4At_cons, if_pos rfl, if_neg hd, hD1]
                        dsimp only
                        rw [if_pos rfl, hD2]
                        dsimp only
                        rw [if_pos rfl, if_neg ht, hD3]
                        dsimp only
                        rw [if_neg (fun h => hc3 h.symm)]
                      rw [hp]
              · rw [if_neg hc2]
                have hp : p4At ('[' :: s0) = none := by
                  rw [p4At_cons, if_pos rfl, if_neg hd, hD1]
                  dsimp only
                  rw [if_pos rfl, hD2]
                  dsimp only
                  rw [if_neg (fun h => hc2 h.symm)]
                rw [hp]
          · rw [if_neg hc1]
            have hp : p4At ('[' :: s0) = none := by
              rw [p4At_cons, if_pos rfl, if_neg hd, hD1]
              dsimp only
              rw [if_neg (fun h => hc1 h.symm)]
            rw [hp]
    · rw [if_neg hc]
      have hp : p4At (c :: s0) = none := by
        rw [p4At_cons, if_neg (fun h => hc h.symm)]
      rw [hp]

/-! ## Head-match characterization of the two-character patterns -/

theorem mrunList_grp_chC (i : Nat) (p : Char → Bool) (es : List RE)
    (k : List Char → Caps → MRes) (caps : Caps) (c : Char) (t : List Char) :
    mrunList (RE.grpR i (.chC p) :: es) (c :: t) k caps =
      if p c = true then mrunList es t k ((i, [c]) :: caps) else none := by
  have h0 : mrunList (RE.grpR i (.chC p) :: es) (c :: t) k caps =
      if p c = true then
        mrunList es t k ((i, (c :: t).take ((c :: t).length - t.length)) :: caps)
      else none := rfl
  have hl : (c :: t).length - t.length = 1 := by simp
  rw [h0, hl]
  rfl

theorem mrunList_grp_chC_nil (i : Nat) (p : Char → Bool) (es : List RE)
    (k : List Char → Caps → MRes) (caps : Caps) :
    mrunList (RE.grpR i (.chC p) :: es) [] k caps = none := rfl

/-- Head match of `([p])([q])`-shaped patterns. -/
theorem mrun_pair_head (p q : Char → Bool) (s : List Char) :
    mrun (seqL [RE.grpR 1 (.chC p), RE.grpR 2 (.chC q)]) s
      (fun s1 caps => some (s1, caps)) [] =
      match s with
      | c1 :: c2 :: t =>
        if p c1 && q c2 then some (t, [(2, [c2]), (1, [c1])]) else none
      | _ => none := by
  have e0 : mrun (seqL [RE.grpR 1 (.chC p), RE.grpR 2 (.chC q)]) s
      (fun s1 caps => some (s1, caps)) [] =
      mrunList [RE.grpR 1 (.chC p), RE.grpR 2 (.chC q)] s
        (fun s1 caps => some (s1, caps)) [] := mrun_seqL _ _ _ _ _
  rw [e0]
  cases s with
  | nil => rfl
  | cons c1 rest =>
    rw [mrunList_grp_chC]
    by_cases h1 : p c1 = true
    · rw [if_pos h1]
      cases rest with
      | nil => rfl
      | cons c2 t =>
        dsimp only
        rw [mrunList_grp_chC]
        by_cases h2 : q c2 = true
        · rw [if_pos h2, h1, h2]
          rfl
        · have hq : q c2 = false := Bool.not_eq_true _ ▸ h2
          rw [if_neg h2, h1, hq]
          rfl
    · have hp : p c1 = false := Bool.not_eq_true _ ▸ h1
      rw [if_neg h1]
      cases rest with
      | nil => rfl
      | cons c2 t =>
        dsimp only
        rw [hp]
        rfl

/-! ## Head-match characterization of `nlRun3Pat` -/

theorem mrunList_chC (p : Char → Bool) (es : List RE)
    (k : List Char → Caps → MRes) (caps : Caps) (c : Char) (t : List Char) :
    mrunList (RE.chC p :: es) (c :: t) k caps =
      if p c = true then mrunList es t k caps else none := rfl

theorem nl_ws {c : Char} (h : nlChar c = true) : pySpace c = true := by
  have hc : c = '\n' := by simpa [nlChar] using h
  subst hc
  decide

/-- Scan the leading whitespace run; `acc` is the suffix right after the most
recent newline seen (initially the whole input). -/
def alnAux : List Char → List Char → List Char
  | acc, [] => acc
  | acc, c :: t =>
    if pySpace c = true then
      (if nlChar c = true then alnAux t t else alnAux acc t)
    else acc

/-- The suffix just after the last newline of the leading whitespace run. -/
def afterLastNl (z : List Char) : List Char := alnAux z z

theorem alnAux_cons (acc : List Char) (c : Char) (t : List Char) :
    alnAux acc (c :: t) =
      if pySpace c = true then
        (if nlChar c = true then alnAux t t else alnAux acc t)
      else acc := rfl

theorem alnAux_irrel : ∀ (z a1 a2 : List Char),
    1 ≤ (z.takeWhile pySpace).count '\n' → alnAux a1 z = alnAux a2 z := by
  intro z
  induction z with
  | nil =>
    intro a1 a2 h
    simp at h
  | cons c t ih =>
    intro a1 a2 h
    by_cases hws : pySpace c = true
    · rw [alnAux_cons, alnAux_cons, if_pos hws, if_pos hws]
      by_cases hnl : nlChar c = true
      · rw [if_pos hnl, if_pos hnl]
      · rw [if_neg hnl, if_neg hnl]
        refine ih a1 a2 ?_
        rw [List.takeWhile_cons_of_pos hws] at h
        have hc : ¬c = '\n' := fun he => hnl (by rw [he]; rfl)
        simpa [List.count_cons, hc] using h
    · exfalso
      rw [List.takeWhile_cons_of_neg hws] at h
      simp at h

theorem alnAux_no_nl : ∀ (z acc : List Char),
    (z.takeWhile pySpace).count '\n' = 0 → alnAux acc z = acc := by
  intro z
  induction z with
  | nil => intro acc _; rfl
  | cons c t ih =>
    intro acc h
    by_cases hws : pySpace c = true
    · rw [List.takeWhile_cons_of_pos hws] at h
      by_cases hnl : nlChar c = true
      · exfalso
        have hc : c = '\n' := by simpa [nlChar] using hnl
        simp [List.count_cons, hc] at h
      · have hc : ¬c = '\n' := fun he => hnl (by rw [he]; rfl)
        rw [alnAux_cons, if_pos hws, if_neg hnl]
        refine ih acc ?_
        simpa [List.count_cons, hc] using h
    · rw [alnAux_cons, if_neg hws]

theorem dropWhile_nl_of_no_nl (z : List Char)
    (h : (z.takeWhile pySpace).count '\n' = 0) : z.dropWhile nlChar = z := by
  cases z with
  | nil => rfl
  | cons c t =>
    by_cases hnl : nlChar c = true
    · exfalso
      rw [List.takeWhile_cons_of_pos (nl_ws hnl)] at h
      have hc : c = '\n' := by simpa [nlChar] using hnl
      simp [List.count_cons, hc] at h
    · rw [List.dropWhile_cons_of_neg hnl]

theorem mrunList_nl3_E (y : List Char) (caps : Caps) :
    mrunList [RE.plusC nlChar false] y (fun s1 c1 => some (s1, c1)) caps =
      match y with
      | c :: r => if nlChar c = true then some (r.dropWhile nlChar, caps) else none
      | [] => none := by
  cases y with
  | nil => rfl
  | cons c r =>
    dsimp only
    by_cases hc : nlChar c = true
    · rw [if_pos hc]
      have h1 : mrunList [RE.plusC nlChar false] (c :: r)
          (fun s1 c1 => some (s1, c1)) caps =
          mstarG nlChar (fun s1 => some (s1, caps)) r := by
        show (if nlChar c = true then
            mstarG nlChar (fun s1 => some (s1, caps)) r else none) = _
        rw [if_pos hc]
      rw [h1]
      exact mstarG_of_some rfl
    · rw [if_neg hc]
      show (if nlChar c = true then
          mstarG nlChar (fun s1 => some (s1, caps)) r else none) = none
      rw [if_neg hc]

theorem mrunList_nl3_D (z : List Char) (caps : Caps) :
    mrunList [RE.starC pySpace false, RE.plusC nlChar false] z
      (fun s1 c1 => some (s1, c1)) caps =
      if 1 ≤ (z.takeWhile pySpace).count '\n'
      then some (afterLastNl z, caps) else none := by
  induction z with
  | nil => rfl
  | cons c zr ih =>
    by_cases hws : pySpace c = true
    · rw [mrunList_star_pos pySpace _ _ _ c zr hws, ih]
      by_cases hnl : nlChar c = true
      · have hc : c = '\n' := by simpa [nlChar] using hnl
        have hcount : ((c :: zr).takeWhile pySpace).count '\n' =
            (zr.takeWhile pySpace).count '\n' + 1 := by
          rw [List.takeWhile_cons_of_pos hws, hc]
          simp [List.count_cons]
        have haln : afterLastNl (c :: zr) = afterLastNl zr := by
          show alnAux (c :: zr) (c :: zr) = _
          rw [alnAux_cons, if_pos hws, if_pos hnl]
          rfl
        by_cases h1 : 1 ≤ (zr.takeWhile pySpace).count '\n'
        · rw [if_pos h1]
          dsimp only
          rw [hcount, haln, if_pos (by omega)]
        · rw [if_neg h1]
          dsimp only
          rw [mrunList_nl3_E]
          dsimp only
          rw [if_pos hnl]
          have h0 : (zr.takeWhile pySpace).count '\n' = 0 := by omega
          rw [hcount, haln, if_pos (by omega), dropWhile_nl_of_no_nl zr h0,
            show afterLastNl zr = zr from alnAux_no_nl zr zr h0]
      · have hcne : ¬c = '\n' := fun he => hnl (by rw [he]; rfl)
        have hcount : ((c :: zr).takeWhile pySpace).count '\n' =
            (zr.takeWhile pySpace).count '\n' := by
          rw [List.takeWhile_cons_of_pos hws]
          simp [List.count_cons, hcne]
        by_cases h1 : 1 ≤ (zr.takeWhile pySpace).count '\n'
        · rw [if_pos h1]
          dsimp only
          have haln : afterLastNl (c :: zr) = afterLastNl zr := by
            show alnAux (c :: zr) (c :: zr) = _
            rw [alnAux_cons, if_pos hws, if_neg hnl]
            exact alnAux_irrel zr (c :: zr) zr h1
          rw [hcount, haln, if_pos h1]
        · rw [if_neg h1]
          dsimp only
          rw [mrunList_nl3_E]
          dsimp only
          rw [if_neg hnl, hcount, if_neg h1]
    · rw [mrunList_star_neg pySpace _ _ _ c zr hws, mrunList_nl3_E]
      dsimp only
      have hnl : ¬nlChar c = true := fun h => hws (nl_ws h)
      rw [if_neg hnl, List.takeWhile_cons_of_neg hws]
      simp

theorem mrunList_nl3_B (t0 : List Char) (caps : Caps) :
    mrunList [RE.starC pySpace false, RE.chC nlChar, RE.starC pySpace false,
      RE.plusC nlChar false] t0 (fun s1 c1 => some (s1, c1)) caps =
      if 2 ≤ (t0.takeWhile pySpace).count '\n'
      then some (afterLastNl t0, caps) else none := by
  induction t0 with
  | nil => rfl
  | cons c tr ih =>
    by_cases hws : pySpace c = true
    · rw [mrunList_star_pos pySpace _ _ _ c tr hws, ih]
      by_cases hnl : nlChar c = true
      · have hc : c = '\n' := by simpa [nlChar] using hnl
        have hcount : ((c :: tr).takeWhile pySpace).count '\n' =
            (tr.takeWhile pySpace).count '\n' + 1 := by
          rw [List.takeWhile_cons_of_pos hws, hc]
          simp [List.count_cons]
        have haln : afterLastNl (c :: tr) = afterLastNl tr := by
          show alnAux (c :: tr) (c :: tr) = _
          rw [alnAux_cons, if_pos hws, if_pos hnl]
          rfl
        by_cases h2 : 2 ≤ (tr.takeWhile pySpace).count '\n'
        · rw [if_pos h2]
          dsimp only
          rw [hcount, haln, if_pos (by omega)]
        · rw [if_neg h2]
          dsimp only
          rw [mrunList_chC, if_pos hnl, mrunList_nl3_D]
          by_cases h1 : 1 ≤ (tr.takeWhile pySpace).count '\n'
          · rw [if_pos h1, hcount, haln, if_pos (by omega)]
          · rw [if_neg h1, hcount, if_neg (by omega)]
      · have hcne : ¬c = '\n' := fun he => hnl (by rw [he]; rfl)
        have hcount : ((c :: tr).takeWhile pySpace).count '\n' =
            (tr.takeWhile pySpace).count '\n' := by
          rw [List.takeWhile_cons_of_pos hws]
          simp [List.count_cons, hcne]
        by_cases h2 : 2 ≤ (tr.takeWhile pySpace).count '\n'
        · rw [if_pos h2]
          dsimp only
          have haln : afterLastNl (c :: tr) = afterLastNl tr := by
            show alnAux (c :: tr) (c :: tr) = _
            rw [alnAux_cons, if_pos hws, if_neg hnl]
            exact alnAux_irrel tr (c :: tr) tr (by omega)
          rw [hcount, haln, if_pos h2]
        · rw [if_neg h2]
          dsimp only
          rw [mrunList_chC, if_neg hnl, hcount, if_neg h2]
    · rw [mrunList_star_neg pySpace _ _ _ c tr hws, mrunList_chC]
      have hnl : ¬nlChar c = true := fun h => hws (nl_ws h)
      rw [if_neg hnl, List.takeWhile_cons_of_neg hws]
      simp

/-- Head-match characterization of `nlRun3Pat` (`\n\s*\n\s*\n+`): a match at a
newline whose following whitespace window holds at least two more newlines,
ending right after the last newline of the window. -/
theorem mrun_nl3_head (s : List Char) :
    mrun nlRun3Pat s (fun s1 caps => some (s1, caps)) [] =
      match s with
      | c :: t =>
        if nlChar c = true then
          (if 2 ≤ (t.takeWhile pySpace).count '\n'
           then some (afterLastNl t, ([] : Caps)) else none)
        else none
      | [] => none := by
  have e0 : mrun nlRun3Pat s (fun s1 caps => some (s1, caps)) [] =
      mrunList [RE.chC nlChar, RE.starC pySpace false, RE.chC nlChar,
        RE.starC pySpace false, RE.plusC nlChar false] s
        (fun s1 caps => some (s1, caps)) [] := mrun_seqL _ _ _ _ _
  rw [e0]
  cases s with
  | nil => rfl
  | cons c t =>
    rw [mrunList_chC]
    dsimp only
    by_cases hc : nlChar c = true
    · rw [if_pos hc, if_pos hc, mrunList_nl3_B]
    · rw [if_neg hc, if_neg hc]

/-! ## Search decomposition and fixed points -/

theorem msearch_cons_none_inv {re : RE} {c : Char} {t : List Char}
    (h : msearch re (c :: t) = none) :
    mrun re (c :: t) (fun u cp => some (u, cp)) [] = none ∧ msearch re t = none := by
  cases hm : mrun re (c :: t) (fun u cp => some (u, cp)) [] with
  | some r =>
    obtain ⟨u, cp⟩ := r
    rw [msearch_cons_succ hm] at h
    cases h
  | none => exact ⟨rfl, (msearch_cons_fail hm).symm.trans h⟩

theorem msearch_eq_none {re : RE} :
    ∀ s : List Char,
      (∀ u, u <:+ s → mrun re u (fun v cp => some (v, cp)) [] = none) →
      msearch re s = none := by
  intro s
  induction s with
  | nil => intro h; exact msearch_nil_fail (h [] (List.suffix_refl _))
  | cons c t ih =>
    intro h
    rw [msearch_cons_fail (h _ (List.suffix_refl _))]
    exact ih (fun u hu => h u (hu.trans (List.suffix_cons c t)))

theorem msearch_decomp {re : RE} :
    ∀ {s s1 s2 : List Char} {caps : Caps},
      msearch re s = some (s1, s2, caps) →
      s1 <:+ s ∧ mrun re s1 (fun u cp => some (u, cp)) [] = some (s2, caps) ∧
      ∀ u, u <:+ s → s1.length < u.length →
        mrun re u (fun v cp => some (v, cp)) [] = none := by
  intro s
  induction s with
  | nil =>
    intro s1 s2 caps h
    have he : msearch re ([] : List Char) =
        match mrun re [] (fun u cp => some (u, cp)) [] with
        | some (u, cp) => some ([], u, cp)
        | none => none := rfl
    cases hm : mrun re [] (fun u cp => some (u, cp)) [] with
    | none =>
      rw [he, hm] at h
      cases h
    | some r =>
      obtain ⟨u, cp⟩ := r
      rw [he, hm] at h
      cases h
      refine ⟨List.suffix_refl _, hm, ?_⟩
      intro v hv hlen
      have hv0 : v = [] := List.suffix_nil.mp hv
      subst hv0
      simp at hlen
  | cons c t ih =>
    intro s1 s2 caps h
    have he : msearch re (c :: t) =
        match mrun re (c :: t) (fun u cp => some (u, cp)) [] with
        | some (u, cp) => some (c :: t, u, cp)
        | none => msearch re t := rfl
    cases hm : mrun re (c :: t) (fun u cp => some (u, cp)) [] with
    | some r =>
      obtain ⟨u, cp⟩ := r
      rw [he, hm] at h
      cases h
      refine ⟨List.suffix_refl _, hm, ?_⟩
      intro v hv hlen
      have := hv.length_le
      simp at this hlen
      omega
    | none =>
      rw [he, hm] at h
      obtain ⟨hsuf, hrun, hfail⟩ := ih h
      refine ⟨hsuf.trans (List.suffix_cons c t), hrun, ?_⟩
      intro v hv hlen
      rcases List.suffix_cons_iff.mp hv with rfl | hv'
      · exact hm
      · exact hfail v hv' hlen

theorem take_pre_of_append (pre s1 : List Char) :
    (pre ++ s1).take ((pre ++ s1).length - s1.length) = pre := by
  have h : (pre ++ s1).length - s1.length = pre.length := by simp
  rw [h]
  exact List.take_left _ _

theorem subAll_decomp {re : RE} {t : Tmpl} {s s1 s2 pre : List Char} {caps : Caps}
    (hm : msearch re s = some (s1, s2, caps)) (hpre : s = pre ++ s1)
    (hne : s2.length < s1.length) :
    subAll re t s = pre ++ applyTmpl caps t ++ subAll re t s2 := by
  rw [subAll_eq_some hm, if_pos hne, hpre, take_pre_of_append]

/-! ## Normal forms for the `clean_text` passes -/

/-- No adjacent pair satisfying `p` then `q`. -/
def noAdj (p q : Char → Bool) (s : List Char) : Prop :=
  List.Chain' (fun a b => ¬(p a = true ∧ q b = true)) s

/-- Every newline's following whitespace window holds at most one further
newline (so `\n\s*\n\s*\n+` cannot match anywhere). -/
def nf1 : List Char → Prop
  | [] => True
  | c :: t => (c = '\n' → (t.takeWhile pySpace).count '\n' ≤ 1) ∧ nf1 t

/-- The two-character group patterns of lines 58-59, generically. -/
def pairPat (p q : Char → Bool) : RE :=
  seqL [RE.grpR 1 (.chC p), RE.grpR 2 (.chC q)]

/-- The replacement `\1 \2`. -/
def pairTmpl : Tmpl := [Sum.inr 1, Sum.inl [' '], Sum.inr 2]

theorem takeWhile_append_stop {p : Char → Bool} :
    ∀ {xs : List Char} (ys : List Char), (∃ c ∈ xs, p c = false) →
      (xs ++ ys).takeWhile p = xs.takeWhile p := by
  intro xs
  induction xs with
  | nil =>
    intro ys h
    obtain ⟨c, hc, _⟩ := h
    cases hc
  | cons a t ih =>
    intro ys h
    by_cases ha : p a = true
    · rw [List.cons_append, List.takeWhile_cons_of_pos ha,
        List.takeWhile_cons_of_pos ha]
      obtain ⟨c, hc, hcp⟩ := h
      rcases List.mem_cons.mp hc with rfl | hct
      · rw [ha] at hcp
        cases hcp
      · rw [ih ys ⟨c, hct, hcp⟩]
    · rw [List.cons_append, List.takeWhile_cons_of_neg ha,
        List.takeWhile_cons_of_neg ha]

/-- A segment at whose positions the head-match fails is copied verbatim. -/
theorem subAll_copy_seg {re : RE} {tm : Tmpl} :
    ∀ (seg z : List Char),
      (∀ u, u <:+ seg ++ z → z.length < u.length →
        mrun re u (fun v cp => some (v, cp)) [] = none) →
      subAll re tm (seg ++ z) = seg ++ subAll re tm z := by
  intro seg
  induction seg with
  | nil => intro z _; rfl
  | cons a t ih =>
    intro z h
    have h1 : mrun re (a :: (t ++ z)) (fun v cp => some (v, cp)) [] = none := by
      refine h _ ?_ ?_
      · exact List.suffix_refl _
      · rw [List.length_cons, List.length_append]
        omega
    rw [List.cons_append, subAll_cons_of_head_fail h1,
      ih z (fun u hu hlen => h u (hu.trans
        (show (t ++ z) <:+ ((a :: t) ++ z) from List.suffix_cons a (t ++ z))) hlen)]
    rfl

/-! ### Pair patterns: fixed points and outputs -/

theorem mrun_pairPat_head (p q : Char → Bool) (s : List Char) :
    mrun (pairPat p q) s (fun s1 caps => some (s1, caps)) [] =
      match s with
      | c1 :: c2 :: t =>
        if p c1 && q c2 then some (t, [(2, [c2]), (1, [c1])]) else none
      | _ => none := mrun_pair_head p q s

theorem msearch_pair_none (p q : Char → Bool) :
    ∀ s, noAdj p q s → msearch (pairPat p q) s = none := by
  intro s
  induction s with
  | nil =>
    intro _
    exact msearch_nil_fail ((mrun_pairPat_head p q []).trans rfl)
  | cons c t ih =>
    intro hadj
    have hfail : mrun (pairPat p q) (c :: t) (fun u cp => some (u, cp)) [] = none := by
      rw [mrun_pairPat_head]
      cases t with
      | nil => rfl
      | cons d r =>
        dsimp only
        have hR := (List.chain'_cons.mp hadj).1
        have hcond : ¬((p c && q d) = true) := by
          intro hb
          exact hR (by simpa using hb)
        rw [if_neg hcond]
    rw [msearch_cons_fail hfail]
    refine ih ?_
    cases t with
    | nil => exact List.chain'_nil
    | cons d r => exact (List.chain'_cons.mp hadj).2

theorem noAdj_of_msearch_pair_none (p q : Char → Bool) :
    ∀ s, msearch (pairPat p q) s = none → noAdj p q s := by
  intro s
  induction s with
  | nil => intro _; exact List.chain'_nil
  | cons c t ih =>
    intro h
    obtain ⟨hm, hrest⟩ := msearch_cons_none_inv h
    cases t with
    | nil => exact List.chain'_singleton _
    | cons d r =>
      refine List.chain'_cons.mpr ⟨?_, ih hrest⟩
      intro hpq
      rw [mrun_pairPat_head] at hm
      dsimp only at hm
      rw [hpq.1, hpq.2] at hm
      simp at hm

theorem msearch_nl3_none : ∀ s, nf1 s → msearch nlRun3Pat s = none := by
  intro s
  induction s with
  | nil =>
    intro _
    exact msearch_nil_fail ((mrun_nl3_head []).trans rfl)
  | cons c t ih =>
    intro hn
    have hfail : mrun nlRun3Pat (c :: t) (fun u cp => some (u, cp)) [] = none := by
      rw [mrun_nl3_head]
      dsimp only
      by_cases hc : nlChar c = true
      · rw [if_pos hc]
        have hle := hn.1 (by simpa [nlChar] using hc)
        rw [if_neg (by omega)]
      · rw [if_neg hc]
    rw [msearch_cons_fail hfail]
    exact ih hn.2

theorem nf1_of_msearch_nl3_none : ∀ s, msearch nlRun3Pat s = none → nf1 s := by
  intro s
  induction s with
  | nil => intro _; trivial
  | cons c t ih =>
    intro h
    obtain ⟨hm, hrest⟩ := msearch_cons_none_inv h
    refine ⟨fun hceq => ?_, ih hrest⟩
    subst hceq
    rw [mrun_nl3_head] at hm
    dsimp only at hm
    rw [if_pos (show nlChar '\n' = true from rfl)] at hm
    by_contra h2
    rw [if_pos (by omega)] at hm
    exact absurd hm (by simp)

/-- Decomposition of one pair-substitution step. -/
theorem subAll_pair_step (p q : Char → Bool) {s s1 s2 : List Char} {caps : Caps}
    (hm : msearch (pairPat p q) s = some (s1, s2, caps)) :
    ∃ pre c1 c2, s = pre ++ c1 :: c2 :: s2 ∧ s1 = c1 :: c2 :: s2 ∧
      p c1 = true ∧ q c2 = true ∧
      subAll (pairPat p q) pairTmpl s =
        pre ++ c1 :: ' ' :: c2 :: subAll (pairPat p q) pairTmpl s2 ∧
      (∀ u, u <:+ s → s1.length < u.length →
        mrun (pairPat p q) u (fun v cp => some (v, cp)) [] = none) := by
  obtain ⟨hsuf, hrun, hfail⟩ := msearch_decomp hm
  rw [mrun_pairPat_head] at hrun
  cases s1 with
  | nil => exact absurd hrun (by simp)
  | cons c1 s1' =>
    cases s1' with
    | nil => exact absurd hrun (by simp)
    | cons c2 t =>
      dsimp only at hrun
      by_cases hcond : (p c1 && q c2) = true
      · rw [if_pos hcond] at hrun
        have ht : t = s2 ∧ [(2, [c2]), (1, [c1])] = caps := by
          have h1 := Option.some.inj hrun
          exact ⟨congrArg Prod.fst h1, congrArg Prod.snd h1⟩
        obtain ⟨rfl, hcaps⟩ := ht
        obtain ⟨pre, hpre⟩ := hsuf
        refine ⟨pre, c1, c2, hpre.symm, rfl,
          (Bool.and_elim_left hcond), (Bool.and_elim_right hcond), ?_, hfail⟩
        have happ : applyTmpl caps pairTmpl = c1 :: ' ' :: c2 :: [] := by
          rw [← hcaps]
          rfl
        rw [subAll_decomp hm hpre.symm (by simp only [List.length_cons]; omega),
          happ, List.append_assoc]
        rfl
      · rw [if_neg hcond] at hrun
        cases hrun

/-- Failure of the pair pattern at every position covering `pre` gives the
chain property on `pre` and at its boundary with the tail. -/
theorem chain_of_fail (p q : Char → Bool) :
    ∀ (pre tail : List Char),
      (∀ u, u <:+ (pre ++ tail) → tail.length < u.length →
        mrun (pairPat p q) u (fun v cp => some (v, cp)) [] = none) →
      List.Chain' (fun a b => ¬(p a = true ∧ q b = true)) pre ∧
      (∀ a b, pre.getLast? = some a → tail.head? = some b →
        ¬(p a = true ∧ q b = true)) := by
  intro pre
  induction pre with
  | nil =>
    intro tail _
    exact ⟨List.chain'_nil, by intro a b ha _; cases ha⟩
  | cons x pre' ih =>
    intro tail h
    have hx : mrun (pairPat p q) (x :: (pre' ++ tail))
        (fun v cp => some (v, cp)) [] = none := by
      refine h _ (List.suffix_refl _) ?_
      rw [List.length_cons, List.length_append]
      omega
    obtain ⟨hch', hbnd'⟩ := ih tail (fun u hu hlen =>
      h u (hu.trans (show (pre' ++ tail) <:+ ((x :: pre') ++ tail) from
        List.suffix_cons x (pre' ++ tail))) hlen)
    have hR : ∀ b, (pre' ++ tail).head? = some b → ¬(p x = true ∧ q b = true) := by
      intro b hb hpq2
      rw [mrun_pairPat_head] at hx
      obtain ⟨rest, hbr⟩ : ∃ rest, pre' ++ tail = b :: rest := by
        cases hpt : pre' ++ tail with
        | nil => rw [hpt] at hb; cases hb
        | cons e r =>
          rw [hpt] at hb
          exact ⟨r, by rw [Option.some.inj hb]⟩
      rw [hbr] at hx
      dsimp only at hx
      rw [hpq2.1, hpq2.2] at hx
      simp at hx
    constructor
    · cases pre' with
      | nil => exact List.chain'_singleton _
      | cons y pre'' =>
        exact List.chain'_cons.mpr ⟨hR y rfl, hch'⟩
    · intro a b ha hb
      cases pre' with
      | nil =>
        obtain rfl : x = a := by simpa using ha
        exact hR b (by simpa using hb)
      | cons y pre'' =>
        refine hbnd' a b ?_ hb
        simpa [List.getLast?_cons_cons] using ha

/-- The pair substitutions preserve the head character. -/
theorem subAll_pair_headq (p q : Char → Bool) (s : List Char) :
    (subAll (pairPat p q) pairTmpl s).head? = s.head? := by
  cases hms : msearch (pairPat p q) s with
  | none => rw [subAll_eq_none hms]
  | some r =>
    obtain ⟨s1, s2, caps⟩ := r
    obtain ⟨pre, c1, c2, hs, _, _, _, heq, _⟩ := subAll_pair_step p q hms
    rw [heq, hs]
    cases pre with
    | nil => rfl
    | cons a t => rfl

/-- Output of a pair substitution has no adjacent `p`-`q` pair, provided the
classes are disjoint and a space is in neither class. -/
theorem subAll_pair_out_noAdj (p q : Char → Bool)
    (hpq : ∀ c, q c = true → p c = false)
    (hps : p ' ' = false) (hqs : q ' ' = false) :
    ∀ n s, s.length ≤ n → noAdj p q (subAll (pairPat p q) pairTmpl s) := by
  intro n
  induction n with
  | zero =>
    intro s hlen
    have hs : s = [] := List.eq_nil_of_length_eq_zero (Nat.le_zero.mp hlen)
    subst hs
    rw [subAll_eq_none (msearch_pair_none p q [] List.chain'_nil)]
    exact List.chain'_nil
  | succ m ih =>
    intro s hlen
    cases hms : msearch (pairPat p q) s with
    | none =>
      rw [subAll_eq_none hms]
      exact noAdj_of_msearch_pair_none p q s hms
    | some r =>
      obtain ⟨s1, s2, caps⟩ := r
      obtain ⟨pre, c1, c2, hs, hs1, hp1, hq2, heq, hfail⟩ := subAll_pair_step p q hms
      rw [heq]
      have hfail2 : ∀ u, u <:+ (pre ++ c1 :: c2 :: s2) →
          (c1 :: c2 :: s2).length < u.length →
          mrun (pairPat p q) u (fun v cp => some (v, cp)) [] = none := by
        intro u hu hul
        exact hfail u (hs ▸ hu) (hs1 ▸ hul)
      obtain ⟨hchpre, hbnd⟩ := chain_of_fail p q pre (c1 :: c2 :: s2) hfail2
      refine List.chain'_append.mpr ⟨hchpre, ?_, ?_⟩
      · refine List.chain'_cons.mpr ⟨?_, List.chain'_cons.mpr ⟨?_, ?_⟩⟩
        · intro h2
          rw [hqs] at h2
          cases h2.2
        · intro h2
          rw [hps] at h2
          cases h2.1
        · refine List.chain'_cons'.mpr ⟨?_, ?_⟩
          · intro b _ h2
            rw [hpq c2 hq2] at h2
            cases h2.1
          · refine ih s2 ?_
            have : s.length = pre.length + s2.length + 2 := by
              rw [hs]
              simp only [List.length_append, List.length_cons]
              omega
            omega
      · intro a ha b hb
        refine hbnd a b ha ?_
        simpa using hb

/-- The pair substitutions preserve any `noAdj` normal form whose classes
exclude the space character. -/
theorem subAll_pair_pres_noAdj (p q pp qq : Char → Bool)
    (hpsp : pp ' ' = false) (hqsp : qq ' ' = false) :
    ∀ n s, s.length ≤ n → noAdj pp qq s →
      noAdj pp qq (subAll (pairPat p q) pairTmpl s) := by
  intro n
  induction n with
  | zero =>
    intro s hlen hna
    have hs : s = [] := List.eq_nil_of_length_eq_zero (Nat.le_zero.mp hlen)
    subst hs
    rw [subAll_eq_none (msearch_pair_none p q [] List.chain'_nil)]
    exact List.chain'_nil
  | succ m ih =>
    intro s hlen hna
    cases hms : msearch (pairPat p q) s with
    | none =>
      rw [subAll_eq_none hms]
      exact hna
    | some r =>
      obtain ⟨s1, s2, caps⟩ := r
      obtain ⟨pre, c1, c2, hs, hs1, hp1, hq2, heq, hfail⟩ := subAll_pair_step p q hms
      rw [heq]
      rw [hs] at hna
      obtain ⟨hchpre, hchtail, hbnd⟩ := List.chain'_append.mp hna
      have hR12 := (List.chain'_cons.mp hchtail).1
      have hchtail2 := (List.chain'_cons.mp hchtail).2
      have hR2n := (List.chain'_cons'.mp hchtail2).1
      have hchs2 := (List.chain'_cons'.mp hchtail2).2
      refine List.chain'_append.mpr ⟨hchpre, ?_, ?_⟩
      · refine List.chain'_cons.mpr ⟨?_, List.chain'_cons.mpr ⟨?_, ?_⟩⟩
        · intro h2
          rw [hqsp] at h2
          cases h2.2
        · intro h2
          rw [hpsp] at h2
          cases h2.1
        · refine List.chain'_cons'.mpr ⟨?_, ?_⟩
          · intro b hb
            rw [subAll_pair_headq] at hb
            exact hR2n b hb
          · refine ih s2 ?_ hchs2
            have : s.length = pre.length + s2.length + 2 := by
              rw [hs]
              simp only [List.length_append, List.length_cons]
              omega
            omega
      · intro a ha b hb
        refine hbnd a ha b ?_
        simpa using hb

/-! ### Window machinery for `nf1` -/

/-- `nf1` for a prefix whose whitespace windows may extend into a fixed
continuation `b`. -/
def nf1F : List Char → List Char → Prop
  | [], _ => True
  | c :: t, b =>
    (c = '\n' → (((t ++ b).takeWhile pySpace).count '\n' ≤ 1)) ∧ nf1F t b

theorem nf1_append : ∀ (a b : List Char), nf1 (a ++ b) ↔ nf1F a b ∧ nf1 b := by
  intro a
  induction a with
  | nil =>
    intro b
    show nf1 b ↔ True ∧ nf1 b
    tauto
  | cons c t ih =>
    intro b
    show ((c = '\n' → (((t ++ b).takeWhile pySpace).count '\n' ≤ 1)) ∧
        nf1 (t ++ b)) ↔ _
    rw [ih b]
    show _ ↔ ((c = '\n' → _) ∧ nf1F t b) ∧ nf1 b
    tauto

theorem nf1F_congr (a : List Char) {b b' : List Char}
    (hbh : b.head? = b'.head?)
    (hnw : ∀ d, b.head? = some d → pySpace d = false) :
    nf1F a b → nf1F a b' := by
  induction a with
  | nil => intro _; trivial
  | cons c t ih =>
    intro h
    refine ⟨fun hc => ?_, ih h.2⟩
    have h1 := h.1 hc
    by_cases hall : ∀ x ∈ t, pySpace x = true
    · rw [takeWhile_append_of_all hall] at h1 ⊢
      have hb0 : b.takeWhile pySpace = [] := by
        cases b with
        | nil => rfl
        | cons d r =>
          rw [List.takeWhile_cons_of_neg]
          rw [show pySpace d = false from hnw d rfl]
          simp
      have hb'0 : b'.takeWhile pySpace = [] := by
        cases hb' : b' with
        | nil => rfl
        | cons d r =>
          rw [List.takeWhile_cons_of_neg]
          have hd : b.head? = some d := by rw [hbh, hb']; rfl
          rw [hnw d hd]
          simp
      rw [hb'0]
      rw [hb0] at h1
      exact h1
    · have hex : ∃ x ∈ t, pySpace x = false := by
        push_neg at hall
        obtain ⟨x, hx, hxp⟩ := hall
        exact ⟨x, hx, Bool.not_eq_true _ ▸ hxp⟩
      rw [takeWhile_append_stop b hex] at h1
      rw [takeWhile_append_stop b' hex]
      exact h1

/-- The pair substitutions preserve `nf1` when both classes exclude
whitespace. -/
theorem subAll_pair_pres_nf1 (p q : Char → Bool)
    (hpw : ∀ c, p c = true → pySpace c = false)
    (hqw : ∀ c, q c = true → pySpace c = false) :
    ∀ n s, s.length ≤ n → nf1 s → nf1 (subAll (pairPat p q) pairTmpl s) := by
  intro n
  induction n with
  | zero =>
    intro s hlen hn
    have hs : s = [] := List.eq_nil_of_length_eq_zero (Nat.le_zero.mp hlen)
    subst hs
    rw [subAll_eq_none (msearch_pair_none p q [] List.chain'_nil)]
    trivial
  | succ m ih =>
    intro s hlen hn
    cases hms : msearch (pairPat p q) s with
    | none =>
      rw [subAll_eq_none hms]
      exact hn
    | some r =>
      obtain ⟨s1, s2, caps⟩ := r
      obtain ⟨pre, c1, c2, hs, hs1, hp1, hq2, heq, hfail⟩ := subAll_pair_step p q hms
      rw [heq]
      rw [hs] at hn
      obtain ⟨hF, htail⟩ := (nf1_append pre (c1 :: c2 :: s2)).mp hn
      refine (nf1_append pre (c1 :: ' ' :: c2 ::
        subAll (pairPat p q) pairTmpl s2)).mpr ⟨?_, ?_⟩
      · refine nf1F_congr pre ?_ ?_ hF
        · rfl
        · intro d hd
          rw [show d = c1 from (Option.some.inj hd).symm]
          exact hpw c1 hp1
      · have hc1 : pySpace c1 = false := hpw c1 hp1
        refine ⟨fun hc => ?_, fun hc => ?_, fun hc => ?_, ?_⟩
        · rw [hc] at hc1
          exact absurd hc1 (by decide)
        · exact absurd hc (by decide)
        · have hc2 : pySpace c2 = false := hqw c2 hq2
          rw [hc] at hc2
          exact absurd hc2 (by decide)
        · refine ih s2 ?_ htail.2.2
          have : s.length = pre.length + s2.length + 2 := by
            rw [hs]
            simp only [List.length_append, List.length_cons]
            omega
          omega

/-! ### The first pass produces `nf1` -/

/-- Replacement template of line 55: the literal `\n\n`. -/
def nlTmpl : Tmpl := [Sum.inl ['\n', '\n']]

theorem alnAux_length : ∀ (z acc : List Char),
    (alnAux acc z).length ≤ max acc.length z.length := by
  intro z
  induction z with
  | nil => intro acc; simp [alnAux]
  | cons c t ih =>
    intro acc
    rw [alnAux_cons]
    by_cases hws : pySpace c = true
    · rw [if_pos hws]
      by_cases hnl : nlChar c = true
      · rw [if_pos hnl]
        have := ih t
        simp only [List.length_cons]
        omega
      · rw [if_neg hnl]
        have := ih acc
        simp only [List.length_cons]
        omega
    · rw [if_neg hws]
      simp only [List.length_cons]
      omega

/-- Decomposition of one triple-newline substitution step. -/
theorem subAll_nl3_step {s s1x s2x : List Char} {caps : Caps}
    (hm : msearch nlRun3Pat s = some (s1x, s2x, caps)) :
    ∃ pre t1, s = pre ++ '\n' :: t1 ∧ s1x = '\n' :: t1 ∧
      2 ≤ ((t1.takeWhile pySpace).count '\n') ∧ s2x = afterLastNl t1 ∧
      subAll nlRun3Pat nlTmpl s =
        pre ++ '\n' :: '\n' :: subAll nlRun3Pat nlTmpl s2x ∧
      (∀ u, u <:+ s → s1x.length < u.length →
        mrun nlRun3Pat u (fun v cp => some (v, cp)) [] = none) := by
  obtain ⟨hsuf, hrun, hfail⟩ := msearch_decomp hm
  rw [mrun_nl3_head] at hrun
  cases s1x with
  | nil => exact absurd hrun (by simp)
  | cons c t1 =>
    dsimp only at hrun
    by_cases hc : nlChar c = true
    · rw [if_pos hc] at hrun
      by_cases h2 : 2 ≤ ((t1.takeWhile pySpace).count '\n')
      · rw [if_pos h2] at hrun
        have hinj := Option.some.inj hrun
        have hs2 : s2x = afterLastNl t1 := (congrArg Prod.fst hinj).symm
        have hceq : c = '\n' := by simpa [nlChar] using hc
        subst hceq
        obtain ⟨pre, hpre⟩ := hsuf
        have hlen2 : s2x.length < ('\n' :: t1).length := by
          have := alnAux_length t1 t1
          rw [hs2]
          show (alnAux t1 t1).length < _
          simp only [List.length_cons]
          omega
        refine ⟨pre, t1, hpre.symm, rfl, h2, hs2, ?_, hfail⟩
        have happ : applyTmpl caps nlTmpl = ['\n', '\n'] := rfl
        rw [subAll_decomp hm hpre.symm hlen2, happ, List.append_assoc]
        rfl
      · rw [if_neg h2] at hrun
        cases hrun
    · rw [if_neg hc] at hrun
      cases hrun

theorem subAll_nl3_headq (s : List Char) :
    (subAll nlRun3Pat nlTmpl s).head? = s.head? := by
  cases hms : msearch nlRun3Pat s with
  | none => rw [subAll_eq_none hms]
  | some r =>
    obtain ⟨s1x, s2x, caps⟩ := r
    obtain ⟨pre, t1, hs, _, _, _, heq, _⟩ := subAll_nl3_step hms
    rw [heq, hs]
    cases pre with
    | nil => rfl
    | cons a t => rfl

theorem win_count_zero_aln : ∀ z : List Char,
    1 ≤ ((z.takeWhile pySpace).count '\n') →
    (((afterLastNl z).takeWhile pySpace).count '\n') = 0 := by
  intro z
  induction z with
  | nil => intro h; simp at h
  | cons c t ih =>
    intro h
    by_cases hws : pySpace c = true
    · by_cases hnl : nlChar c = true
      · have he : afterLastNl (c :: t) = alnAux t t := by
          show alnAux (c :: t) (c :: t) = _
          rw [alnAux_cons, if_pos hws, if_pos hnl]
        rw [he]
        by_cases h1 : 1 ≤ ((t.takeWhile pySpace).count '\n')
        · exact ih h1
        · have h0 : ((t.takeWhile pySpace).count '\n') = 0 := by omega
          rw [alnAux_no_nl t t h0]
          exact h0
      · have hcount : ((t.takeWhile pySpace).count '\n') =
            (((c :: t).takeWhile pySpace).count '\n') := by
          rw [List.takeWhile_cons_of_pos hws]
          have hcne : ¬c = '\n' := fun he => hnl (by rw [he]; rfl)
          simp [List.count_cons, hcne]
        have h1 : 1 ≤ ((t.takeWhile pySpace).count '\n') := by omega
        have he : afterLastNl (c :: t) = afterLastNl t := by
          show alnAux (c :: t) (c :: t) = _
          rw [alnAux_cons, if_pos hws, if_neg hnl]
          exact alnAux_irrel t (c :: t) t h1
        rw [he]
        exact ih h1
    · exfalso
      rw [List.takeWhile_cons_of_neg hws] at h
      simp at h

theorem subAll_nl3_win (z : List Char)
    (hz : ((z.takeWhile pySpace).count '\n') = 0) :
    (subAll nlRun3Pat nlTmpl z).takeWhile pySpace = z.takeWhile pySpace := by
  have hnomem : ('\n') ∉ z.takeWhile pySpace := List.count_eq_zero.mp hz
  have hcopy : subAll nlRun3Pat nlTmpl z =
      z.takeWhile pySpace ++ subAll nlRun3Pat nlTmpl (z.dropWhile pySpace) := by
    conv_lhs => rw [← List.takeWhile_append_dropWhile (p := pySpace) (l := z)]
    refine subAll_copy_seg _ _ ?_
    intro u hu hlen
    obtain ⟨w, hw⟩ := hu
    have hu2 : u = (z.takeWhile pySpace).drop w.length ++ z.dropWhile pySpace := by
      have hdrop : (w ++ u).drop w.length = u := List.drop_left _ _
      rw [hw] at hdrop
      rw [← hdrop, List.drop_append_eq_append_drop]
      have hwlen : w.length ≤ (z.takeWhile pySpace).length := by
        have h1 : w.length + u.length =
            (z.takeWhile pySpace).length + (z.dropWhile pySpace).length := by
          rw [← List.length_append, ← List.length_append, hw]
        omega
      rw [Nat.sub_eq_zero_of_le hwlen, List.drop_zero]
    cases hru : (z.takeWhile pySpace).drop w.length with
    | nil =>
      exfalso
      rw [hru, List.nil_append] at hu2
      rw [hu2] at hlen
      omega
    | cons d r =>
      have hd : d ∈ z.takeWhile pySpace := by
        have : d ∈ (z.takeWhile pySpace).drop w.length := by
          rw [hru]
          exact List.mem_cons_self d r
        exact List.mem_of_mem_drop this
      have hdws : pySpace d = true := List.mem_takeWhile_imp hd
      have hdnl : nlChar d = false := by
        by_cases hb : nlChar d = true
        · exact absurd (by simpa [nlChar] using hb : d = '\n') (fun he => hnomem (he ▸ hd))
        · exact Bool.not_eq_true _ ▸ hb
      rw [hu2, hru, List.cons_append, mrun_nl3_head]
      dsimp only
      rw [if_neg (by rw [hdnl]; simp)]
  rw [hcopy, takeWhile_append_of_all (all_takeWhile pySpace z)]
  have hzh : (subAll nlRun3Pat nlTmpl (z.dropWhile pySpace)).takeWhile pySpace
      = [] := by
    have hh := subAll_nl3_headq (z.dropWhile pySpace)
    cases hX : subAll nlRun3Pat nlTmpl (z.dropWhile pySpace) with
    | nil => rfl
    | cons d r =>
      rw [hX] at hh
      cases hd : z.dropWhile pySpace with
      | nil => rw [hd] at hh; cases hh
      | cons e t' =>
        rw [hd] at hh
        have hde : d = e := Option.some.inj hh
        have hens := dropWhile_head_not pySpace z e t' hd
        rw [List.takeWhile_cons_of_neg]
        rw [hde, hens]
        simp
  rw [hzh, List.append_nil]

theorem nf1F_of_fail_nl3 :
    ∀ (pre t1 X : List Char),
      2 ≤ ((t1.takeWhile pySpace).count '\n') →
      (∀ u, u <:+ pre ++ '\n' :: t1 → ('\n' :: t1).length < u.length →
        mrun nlRun3Pat u (fun v cp => some (v, cp)) [] = none) →
      nf1F pre ('\n' :: '\n' :: X) := by
  intro pre
  induction pre with
  | nil => intro t1 X _ _; trivial
  | cons a pre' ih =>
    intro t1 X h2 hfail
    refine ⟨fun ha => ?_, ih t1 X h2 (fun u hu hlen => hfail u (hu.trans
      (show (pre' ++ '\n' :: t1) <:+ ((a :: pre') ++ '\n' :: t1) from
        List.suffix_cons a _)) hlen)⟩
    subst ha
    have hx : mrun nlRun3Pat ('\n' :: (pre' ++ '\n' :: t1))
        (fun v cp => some (v, cp)) [] = none := by
      refine hfail _ (List.suffix_refl _) ?_
      simp only [List.length_cons, List.length_append]
      omega
    rw [mrun_nl3_head] at hx
    dsimp only at hx
    rw [if_pos (show nlChar '\n' = true from rfl)] at hx
    have hle : (((pre' ++ '\n' :: t1).takeWhile pySpace).count '\n') ≤ 1 := by
      by_contra hgt
      rw [if_pos (by omega)] at hx
      exact absurd hx (by simp)
    have hex : ∃ x ∈ pre', pySpace x = false := by
      by_contra hall
      push_neg at hall
      have hall2 : ∀ x ∈ pre', pySpace x = true := by
        intro x hx2
        have := hall x hx2
        cases hpx : pySpace x with
        | false => exact absurd hpx this
        | true => rfl
      rw [takeWhile_append_of_all hall2, List.count_append,
        List.takeWhile_cons_of_pos (by decide : pySpace '\n' = true)] at hle
      simp [List.count_cons] at hle
      omega
    rw [takeWhile_append_stop _ hex] at hle
    rw [takeWhile_append_stop _ hex]
    exact hle

/-- The first pass of `clean_text` establishes `nf1`. -/
theorem subAll_nl3_out_nf1 : ∀ n s, s.length ≤ n →
    nf1 (subAll nlRun3Pat nlTmpl s) := by
  intro n
  induction n with
  | zero =>
    intro s hlen
    have hs : s = [] := List.eq_nil_of_length_eq_zero (Nat.le_zero.mp hlen)
    subst hs
    rw [subAll_eq_none (msearch_nil_fail ((mrun_nl3_head []).trans rfl))]
    trivial
  | succ m ih =>
    intro s hlen
    cases hms : msearch nlRun3Pat s with
    | none =>
      rw [subAll_eq_none hms]
      exact nf1_of_msearch_nl3_none s hms
    | some r =>
      obtain ⟨s1x, s2x, caps⟩ := r
      obtain ⟨pre, t1, hs, hs1, h2, hs2, heq, hfail⟩ := subAll_nl3_step hms
      rw [heq]
      refine (nf1_append _ _).mpr ⟨?_, ?_⟩
      · refine nf1F_of_fail_nl3 pre t1 _ h2 ?_
        intro u hu hlen2
        exact hfail u (hs ▸ hu) (hs1 ▸ hlen2)
      · have h1 : 1 ≤ ((t1.takeWhile pySpace).count '\n') := by omega
        have hz : ((s2x.takeWhile pySpace).count '\n') = 0 := by
          rw [hs2]
          exact win_count_zero_aln t1 h1
        have hwinX := subAll_nl3_win s2x hz
        refine ⟨fun _ => ?_, fun _ => ?_, ?_⟩
        · rw [List.takeWhile_cons_of_pos (by decide : pySpace '\n' = true)]
          simp only [List.count_cons, hwinX]
          simp [hz]
        · rw [hwinX, hz]
          omega
        · refine ih s2x ?_
          have hl1 : s.length = pre.length + t1.length + 1 := by
            rw [hs]
            simp only [List.length_append, List.length_cons]
            omega
          have hl2 : s2x.length ≤ t1.length := by
            rw [hs2]
            have := alnAux_length t1 t1
            show (alnAux t1 t1).length ≤ _
            omega
          omega

/-! ### A whitespace view for the citation-spacing pass -/

theorem bool_neg {b : Bool} (h : b = false) : ¬b = true := by
  rw [h]
  exact Bool.false_ne_true

theorem length_dropWhile_le (p : Char → Bool) (l : List Char) :
    (l.dropWhile p).length ≤ l.length := by
  have := len_takeWhile_add_dropWhile p l
  omega

/-- Does the pass's replacement insert a space between adjacent `c` and `d`?
Exactly after `]` (unless a colon follows) and after the headline colon
(before the `h` of the URL). -/
def insFlag (c d : Char) : Bool :=
  !pySpace d && ((c == ']' && d != ':') || (c == ':' && d == 'h'))

/-- Whitespace view: collapse every whitespace run to one space and insert a
virtual space at every insertion site, leaving all other characters. -/
def nview : List Char → List Char
  | [] => []
  | c :: t =>
    if pySpace c then ' ' :: nview (t.dropWhile pySpace)
    else
      match t with
      | [] => [c]
      | d :: t' =>
        if insFlag c d then c :: ' ' :: nview (d :: t')
        else c :: nview (d :: t')
termination_by s => s.length
decreasing_by
  all_goals simp only [List.length_cons]
  all_goals first
    | omega
    | exact Nat.lt_succ_of_le (length_dropWhile_le _ _)

/-- `nview` of a prefix, with one character of lookahead for the boundary. -/
def nviewF (nx : Option Char) : List Char → List Char
  | [] => []
  | c :: t =>
    if pySpace c then ' ' :: nviewF nx (t.dropWhile pySpace)
    else
      match t with
      | [] =>
        match nx with
        | some d => if insFlag c d then [c, ' '] else [c]
        | none => [c]
      | d :: t' =>
        if insFlag c d then c :: ' ' :: nviewF nx (d :: t')
        else c :: nviewF nx (d :: t')
termination_by s => s.length
decreasing_by
  all_goals simp only [List.length_cons]
  all_goals first
    | omega
    | exact Nat.lt_succ_of_le (length_dropWhile_le _ _)

theorem nview_nil : nview [] = [] := by
  unfold nview
  rfl

theorem nview_ws {c : Char} {t : List Char} (h : pySpace c = true) :
    nview (c :: t) = ' ' :: nview (t.dropWhile pySpace) := by
  conv_lhs => unfold nview
  rw [if_pos h]

theorem nview_nonws_nil {c : Char} (h : pySpace c = false) : nview [c] = [c] := by
  conv_lhs => unfold nview
  rw [if_neg (bool_neg h)]

theorem nview_nonws_cons {c d : Char} {t : List Char} (h : pySpace c = false) :
    nview (c :: d :: t) =
      if insFlag c d then c :: ' ' :: nview (d :: t)
      else c :: nview (d :: t) := by
  conv_lhs => unfold nview
  rw [if_neg (bool_neg h)]

theorem nviewF_nil (nx : Option Char) : nviewF nx [] = [] := by
  unfold nviewF
  rfl

theorem nviewF_ws (nx : Option Char) {c : Char} {t : List Char}
    (h : pySpace c = true) :
    nviewF nx (c :: t) = ' ' :: nviewF nx (t.dropWhile pySpace) := by
  conv_lhs => unfold nviewF
  rw [if_pos h]

theorem nviewF_nonws_nil (nx : Option Char) {c : Char} (h : pySpace c = false) :
    nviewF nx [c] =
      match nx with
      | some d => if insFlag c d then [c, ' '] else [c]
      | none => [c] := by
  conv_lhs => unfold nviewF
  rw [if_neg (bool_neg h)]

theorem nviewF_nonws_cons (nx : Option Char) {c d : Char} {t : List Char}
    (h : pySpace c = false) :
    nviewF nx (c :: d :: t) =
      if insFlag c d then c :: ' ' :: nviewF nx (d :: t)
      else c :: nviewF nx (d :: t) := by
  conv_lhs => unfold nviewF
  rw [if_neg (bool_neg h)]

theorem dropWhile_append_nonws_head {p : Char → Bool} :
    ∀ (t b : List Char), (∀ d, b.head? = some d → p d = false) →
      (t ++ b).dropWhile p = t.dropWhile p ++ b := by
  intro t
  induction t with
  | nil =>
    intro b hb
    cases b with
    | nil => rfl
    | cons d br =>
      show (d :: br).dropWhile p = d :: br
      rw [List.dropWhile_cons_of_neg (bool_neg (hb d rfl))]
  | cons c t' ih =>
    intro b hb
    by_cases hc : p c = true
    · rw [List.cons_append, List.dropWhile_cons_of_pos hc,
        List.dropWhile_cons_of_pos hc]
      exact ih b hb
    · rw [List.cons_append, List.dropWhile_cons_of_neg hc,
        List.dropWhile_cons_of_neg hc, List.cons_append]

/-- Split `nview` at a boundary whose right side starts with a
non-whitespace character. -/
theorem nview_append_split :
    ∀ (n : Nat) (a b : List Char), a.length ≤ n →
      (∀ d, b.head? = some d → pySpace d = false) →
      nview (a ++ b) = nviewF b.head? a ++ nview b := by
  intro n
  induction n with
  | zero =>
    intro a b hlen _
    have ha : a = [] := List.eq_nil_of_length_eq_zero (Nat.le_zero.mp hlen)
    subst ha
    rw [nviewF_nil, List.nil_append, List.nil_append]
  | succ m ih =>
    intro a b hlen hb
    cases a with
    | nil => rw [nviewF_nil, List.nil_append, List.nil_append]
    | cons c t =>
      by_cases hc : pySpace c = true
      · rw [List.cons_append, nview_ws hc, nviewF_ws _ hc,
          dropWhile_append_nonws_head t b hb, List.cons_append]
        have hlt : (t.dropWhile pySpace).length ≤ m := by
          have := length_dropWhile_le pySpace t
          simp only [List.length_cons] at hlen
          omega
        rw [ih (t.dropWhile pySpace) b hlt hb]
      · have hcf : pySpace c = false := Bool.not_eq_true _ ▸ hc
        cases t with
        | nil =>
          cases b with
          | nil =>
            rw [List.append_nil, nview_nonws_nil hcf, nviewF_nonws_nil _ hcf,
              nview_nil]
            rfl
          | cons d br =>
            rw [List.cons_append, List.nil_append, nview_nonws_cons hcf,
              nviewF_nonws_nil _ hcf, List.head?_cons]
            dsimp only
            by_cases hins : insFlag c d = true
            · rw [if_pos hins, if_pos hins]
              rfl
            · rw [if_neg hins, if_neg hins]
              rfl
        | cons e t' =>
          rw [List.cons_append, List.cons_append, nview_nonws_cons hcf,
            nviewF_nonws_cons _ hcf]
          have hlt : (e :: t').length ≤ m := by
            simp only [List.length_cons] at hlen ⊢
            omega
          have hrec := ih (e :: t') b hlt hb
          rw [List.cons_append] at hrec
          by_cases hins : insFlag c e = true
          · rw [if_pos hins, if_pos hins, hrec]
            rfl
          · rw [if_neg hins, if_neg hins, hrec]
            rfl

/-- Split `nview` at a boundary whose left side is all non-whitespace. -/
theorem nview_append_nonws :
    ∀ (a b : List Char), (∀ c ∈ a, pySpace c = false) →
      nview (a ++ b) = nviewF b.head? a ++ nview b := by
  intro a
  induction a with
  | nil => intro b _; rw [nviewF_nil, List.nil_append, List.nil_append]
  | cons c t ih =>
    intro b ha
    have hcf : pySpace c = false := ha c (List.mem_cons_self c t)
    cases t with
    | nil =>
      cases b with
      | nil =>
        rw [List.append_nil, nview_nonws_nil hcf, nviewF_nonws_nil _ hcf,
          nview_nil]
        rfl
      | cons d br =>
        rw [List.cons_append, List.nil_append, nview_nonws_cons hcf,
          nviewF_nonws_nil _ hcf, List.head?_cons]
        dsimp only
        by_cases hins : insFlag c d = true
        · rw [if_pos hins, if_pos hins]
          rfl
        · rw [if_neg hins, if_neg hins]
          rfl
    | cons e t' =>
      rw [List.cons_append, List.cons_append, nview_nonws_cons hcf,
        nviewF_nonws_cons _ hcf]
      have hrec := ih b (fun x hx => ha x (List.mem_cons_of_mem c hx))
      rw [List.cons_append] at hrec
      by_cases hins : insFlag c e = true
      · rw [if_pos hins, if_pos hins, hrec]
        rfl
      · rw [if_neg hins, if_neg hins, hrec]
        rfl

theorem nview_headq : ∀ u : List Char,
    (nview u).head? = Option.map (fun c => if pySpace c then ' ' else c) u.head? := by
  intro u
  cases u with
  | nil => rw [nview_nil]; rfl
  | cons c t =>
    by_cases hc : pySpace c = true
    · rw [nview_ws hc]
      simp [hc]
    · have hcf : pySpace c = false := Bool.not_eq_true _ ▸ hc
      cases t with
      | nil =>
        rw [nview_nonws_nil hcf]
        simp [hcf]
      | cons d t' =>
        rw [nview_nonws_cons hcf]
        by_cases hins : insFlag c d = true
        · rw [if_pos hins]
          simp [hcf]
        · rw [if_neg hins]
          simp [hcf]

theorem dropWhile_id_of_head {p : Char → Bool} {u : List Char}
    (h : ∀ c, u.head? = some c → p c = false) : u.dropWhile p = u := by
  cases u with
  | nil => rfl
  | cons c t => exact List.dropWhile_cons_of_neg (bool_neg (h c rfl))

theorem takeWhile_nil_of_head {p : Char → Bool} {u : List Char}
    (h : ∀ c, u.head? = some c → p c = false) : u.takeWhile p = [] := by
  cases u with
  | nil => rfl
  | cons c t => exact List.takeWhile_cons_of_neg (bool_neg (h c rfl))

theorem mem_of_mem_dropWhile {p : Char → Bool} :
    ∀ {l : List Char} {x : Char}, x ∈ l.dropWhile p → x ∈ l := by
  intro l
  induction l with
  | nil => intro x h; exact h
  | cons c t ih =>
    intro x h
    rw [List.dropWhile_cons] at h
    split_ifs at h
    · exact List.mem_cons_of_mem c (ih h)
    · exact h

theorem dropWhile_ws_head_not {u : List Char} :
    ∀ c, (u.dropWhile pySpace).head? = some c → pySpace c = false := by
  intro c hc
  cases hd : u.dropWhile pySpace with
  | nil => rw [hd] at hc; cases hc
  | cons x r =>
    rw [hd] at hc
    rw [← Option.some.inj hc]
    exact dropWhile_head_not pySpace u x r hd

/-- `nview` commutes with dropping leading whitespace. -/
theorem nview_dropWhile_ws : ∀ u : List Char,
    (nview u).dropWhile pySpace = nview (u.dropWhile pySpace) := by
  intro u
  cases u with
  | nil => simp [nview_nil]
  | cons c t =>
    by_cases hc : pySpace c = true
    · rw [nview_ws hc, List.dropWhile_cons_of_pos hc,
        List.dropWhile_cons_of_pos (show pySpace ' ' = true by decide)]
      refine dropWhile_id_of_head ?_
      intro e he
      rw [nview_headq] at he
      cases hh : (t.dropWhile pySpace).head? with
      | none => rw [hh] at he; cases he
      | some e0 =>
        rw [hh] at he
        have he0 : pySpace e0 = false := dropWhile_ws_head_not e0 hh
        have hee : e0 = e := by simpa [he0] using he
        rw [← hee]
        exact he0
    · have hcf : pySpace c = false := Bool.not_eq_true _ ▸ hc
      rw [List.dropWhile_cons_of_neg hc]
      refine dropWhile_id_of_head ?_
      intro e he
      rw [nview_headq, List.head?_cons] at he
      have hec : c = e := by simpa [hcf] using he
      rw [← hec]
      exact hcf

/-- A cons with a non-whitespace head keeps that head in the view. -/
theorem nview_cons_nonws {c : Char} (t : List Char) (h : pySpace c = false) :
    ∃ W, nview (c :: t) = c :: W := by
  cases t with
  | nil => exact ⟨[], nview_nonws_nil h⟩
  | cons d t' =>
    rw [nview_nonws_cons h]
    by_cases hins : insFlag c d = true
    · exact ⟨' ' :: nview (d :: t'), if_pos hins⟩
    · exact ⟨nview (d :: t'), if_neg hins⟩

/-- A character that is neither `]` nor `:` never triggers an insertion. -/
theorem insFlag_plain {c : Char} (h1 : (c == ']') = false)
    (h2 : (c == ':') = false) (d : Char) : insFlag c d = false := by
  unfold insFlag
  rw [h1, h2]
  simp

/-- `nview` on a cons with a plain head. -/
theorem nview_cons_plain {c : Char} {t : List Char} (hws : pySpace c = false)
    (h1 : (c == ']') = false) (h2 : (c == ':') = false) :
    nview (c :: t) = c :: nview t := by
  cases t with
  | nil => rw [nview_nonws_nil hws, nview_nil]
  | cons d t' =>
    rw [nview_nonws_cons hws, if_neg (bool_neg (insFlag_plain h1 h2 d))]

/-- `nview` over a plain segment. -/
theorem nview_plain_seg :
    ∀ (seg r : List Char),
      (∀ c ∈ seg, pySpace c = false ∧ (c == ']') = false ∧ (c == ':') = false) →
      nview (seg ++ r) = seg ++ nview r := by
  intro seg
  induction seg with
  | nil => intro r _; rfl
  | cons c t ih =>
    intro r h
    obtain ⟨hws, h1, h2⟩ := h c (List.mem_cons_self c t)
    rw [List.cons_append, nview_cons_plain hws h1 h2,
      ih r (fun x hx => h x (List.mem_cons_of_mem c hx)), List.cons_append]

/-- Characters of the view come from the input or are spaces. -/
theorem nview_chars_aux : ∀ (n : Nat) (u : List Char), u.length ≤ n →
    ∀ x ∈ nview u, x ∈ u ∨ x = ' ' := by
  intro n
  induction n with
  | zero =>
    intro u hlen x hx
    have hu : u = [] := List.eq_nil_of_length_eq_zero (Nat.le_zero.mp hlen)
    subst hu
    rw [nview_nil] at hx
    cases hx
  | succ m ih =>
    intro u hlen x hx
    cases u with
    | nil => rw [nview_nil] at hx; cases hx
    | cons c t =>
      by_cases hc : pySpace c = true
      · rw [nview_ws hc] at hx
        rcases List.mem_cons.mp hx with rfl | hx2
        · right; rfl
        · have hlt : (t.dropWhile pySpace).length ≤ m := by
            have := length_dropWhile_le pySpace t
            simp only [List.length_cons] at hlen
            omega
          rcases ih (t.dropWhile pySpace) hlt x hx2 with hm | hs
          · left
            exact List.mem_cons_of_mem c (mem_of_mem_dropWhile hm)
          · right; exact hs
      · have hcf : pySpace c = false := Bool.not_eq_true _ ▸ hc
        cases t with
        | nil =>
          rw [nview_nonws_nil hcf] at hx
          left
          exact hx
        | cons d t' =>
          rw [nview_nonws_cons hcf] at hx
          have hstep : ∀ y, y ∈ nview (d :: t') → y ∈ (c :: d :: t') ∨ y = ' ' := by
            intro y hy
            have hlt : (d :: t').length ≤ m := by
              simp only [List.length_cons] at hlen ⊢
              omega
            rcases ih (d :: t') hlt y hy with hm | hs
            · left
              exact List.mem_cons_of_mem c hm
            · right
              exact hs
          by_cases hins : insFlag c d = true
          · rw [if_pos hins] at hx
            rcases List.mem_cons.mp hx with rfl | hx2
            · left
              exact List.mem_cons_self _ _
            · rcases List.mem_cons.mp hx2 with rfl | hx3
              · right; rfl
              · exact hstep x hx3
          · rw [if_neg hins] at hx
            rcases List.mem_cons.mp hx with rfl | hx2
            · left
              exact List.mem_cons_self _ _
            · exact hstep x hx2

theorem nview_chars {u : List Char} {x : Char} (hx : x ∈ nview u) :
    x ∈ u ∨ x = ' ' :=
  nview_chars_aux u.length u (Nat.le_refl _) x hx

theorem dropWhile_nil_of_all {p : Char → Bool} {w : List Char}
    (h : ∀ c ∈ w, p c = true) : w.dropWhile p = [] := by
  induction w with
  | nil => rfl
  | cons c t ih =>
    rw [List.dropWhile_cons_of_pos (h c (List.mem_cons_self c t))]
    exact ih (fun x hx => h x (List.mem_cons_of_mem c hx))

/-- The view after `]`, a whitespace run, and a non-colon non-whitespace
character: a single inserted or collapsed space. -/
theorem nview_seg_bracket (w : List Char) {x0 : Char} (W' : List Char)
    (hw : ∀ c ∈ w, pySpace c = true)
    (hx0 : pySpace x0 = false) (hxc : (x0 == ':') = false) :
    nview (']' :: (w ++ x0 :: W')) = ']' :: ' ' :: nview (x0 :: W') := by
  cases w with
  | nil =>
    rw [List.nil_append, nview_nonws_cons (by decide : pySpace ']' = false)]
    have hins : insFlag ']' x0 = true := by
      unfold insFlag
      rw [hx0]
      simp only [bne]
      rw [hxc]
      simp
    rw [if_pos hins]
  | cons wc w' =>
    have hwc := hw wc (List.mem_cons_self wc w')
    rw [List.cons_append, nview_nonws_cons (by decide : pySpace ']' = false)]
    have hins : insFlag ']' wc = false := by
      unfold insFlag
      rw [hwc]
      simp
    rw [if_neg (bool_neg hins), nview_ws hwc,
      dropWhile_append_nonws_head w' (x0 :: W')
        (fun d hd => by rw [← Option.some.inj hd]; exact hx0),
      dropWhile_nil_of_all (fun x hx => hw x (List.mem_cons_of_mem wc hx)),
      List.nil_append]

/-- The view after `]`, a nonempty whitespace run, and a colon: no insertion,
one collapsed space. -/
theorem nview_seg_bracket_colon (wc : Char) (w : List Char) (X : List Char)
    (hwc : pySpace wc = true) (hw : ∀ c ∈ w, pySpace c = true) :
    nview (']' :: ((wc :: w) ++ ':' :: X)) = ']' :: ' ' :: nview (':' :: X) := by
  rw [List.cons_append, nview_nonws_cons (by decide : pySpace ']' = false)]
  have hins : insFlag ']' wc = false := by
    unfold insFlag
    rw [hwc]
    simp
  rw [if_neg (bool_neg hins), nview_ws hwc,
    dropWhile_append_nonws_head w (':' :: X)
      (fun d hd => by rw [← Option.some.inj hd]; decide),
    dropWhile_nil_of_all hw, List.nil_append]

/-- The view after the headline colon, a whitespace run, and the `h` of the
URL: a single inserted or collapsed space. -/
theorem nview_seg_colon (w : List Char) (X : List Char)
    (hw : ∀ c ∈ w, pySpace c = true) (hX : X.head? = some 'h') :
    nview (':' :: (w ++ X)) = ':' :: ' ' :: nview X := by
  obtain ⟨X', rfl⟩ : ∃ X', X = 'h' :: X' := by
    cases X with
    | nil => cases hX
    | cons a r => exact ⟨r, by rw [Option.some.inj hX.symm]⟩
  cases w with
  | nil =>
    rw [List.nil_append, nview_nonws_cons (by decide : pySpace ':' = false)]
    have hins : insFlag ':' 'h' = true := by decide
    rw [if_pos hins]
  | cons wc w' =>
    have hwc := hw wc (List.mem_cons_self wc w')
    rw [List.cons_append, nview_nonws_cons (by decide : pySpace ':' = false)]
    have hins : insFlag ':' wc = false := by
      unfold insFlag
      rw [hwc]
      simp
    rw [if_neg (bool_neg hins), nview_ws hwc,
      dropWhile_append_nonws_head w' ('h' :: X')
        (fun d hd => by rw [← Option.some.inj hd]; decide),
      dropWhile_nil_of_all (fun x hx => hw x (List.mem_cons_of_mem wc hx)),
      List.nil_append]

theorem digit_plain {c : Char} (h : isDigitC c = true) :
    pySpace c = false ∧ (c == ']') = false ∧ (c == ':') = false := by
  simp only [isDigitC, Char.isDigit] at h
  rw [Bool.and_eq_true, decide_eq_true_eq, decide_eq_true_eq] at h
  refine ⟨?_, ?_, ?_⟩
  · cases hws : pySpace c with
    | false => rfl
    | true =>
      exfalso
      rcases pySpace_cases hws with rfl|rfl|rfl|rfl|rfl|rfl <;>
        exact absurd h (by decide)
  · cases hb : c == ']' with
    | false => rfl
    | true =>
      exfalso
      have : c = ']' := beq_iff_eq.mp hb
      subst this
      exact absurd h (by decide)
  · cases hb : c == ':' with
    | false => rfl
    | true =>
      exfalso
      have : c = ':' := beq_iff_eq.mp hb
      subst this
      exact absurd h (by decide)

theorem getLast?_split : ∀ {l : List Char} {a : Char},
    l.getLast? = some a → ∃ l', l = l' ++ [a] := by
  intro l
  induction l with
  | nil => intro a h; cases h
  | cons c t ih =>
    intro a h
    cases t with
    | nil =>
      refine ⟨[], ?_⟩
      have : c = a := by simpa using h
      rw [this]
      rfl
    | cons e r =>
      rw [List.getLast?_cons_cons] at h
      obtain ⟨l', hl⟩ := ih h
      exact ⟨c :: l', by rw [List.cons_append, hl]⟩

/-- Inversion of a successful `colonSplit`. -/
theorem colonSplit_inv {s3 h s4v : List Char} (hc : colonSplit s3 = some (h, s4v)) :
    ((∃ w2, (∀ c ∈ w2, pySpace c = true) ∧
      s3 = w2 ++ (h ++ ':' :: s4v) ∧ h ≠ [] ∧
      (∀ c, h.head? = some c → pySpace c = false ∧ (c == ':') = false) ∧
      (∀ c ∈ h, notColon c = true)))
    ∨
    (∃ w2' wc, (∀ c ∈ w2', pySpace c = true) ∧ pySpace wc = true ∧
      s3 = w2' ++ wc :: ':' :: s4v ∧ h = [wc]) := by
  rw [colonSplit_eq] at hc
  cases hD : (s3.dropWhile pySpace).dropWhile notColon with
  | nil =>
    rw [hD] at hc
    cases hc
  | cons dc x4 =>
    have hdc := dropWhile_notColon_cons hD
    subst hdc
    rw [hD] at hc
    replace hc : (if (s3.dropWhile pySpace).takeWhile notColon = [] then
        (match (s3.takeWhile pySpace).getLast? with
          | some c => some ([c], x4)
          | none => none)
      else some ((s3.dropWhile pySpace).takeWhile notColon, x4)) = some (h, s4v) := hc
    by_cases he : (s3.dropWhile pySpace).takeWhile notColon = []
    · rw [if_pos he] at hc
      cases hgl : (s3.takeWhile pySpace).getLast? with
      | none =>
        rw [hgl] at hc
        cases hc
      | some wc =>
        rw [hgl] at hc
        dsimp only at hc
        have hinj := Option.some.inj hc
        have hh : h = [wc] := (congrArg Prod.fst hinj).symm
        have hs4 : s4v = x4 := (congrArg Prod.snd hinj).symm
        subst hs4
        obtain ⟨w2', hw2⟩ := getLast?_split hgl
        right
        refine ⟨w2', wc, ?_, ?_, ?_, hh⟩
        · intro c hcm
          exact all_takeWhile pySpace s3 c (hw2 ▸ List.mem_append_left [wc] hcm)
        · exact all_takeWhile pySpace s3 wc
            (hw2 ▸ List.mem_append_right w2' (List.mem_cons_self wc []))
        · have hA : s3.dropWhile pySpace = ':' :: s4v := by
            have h1 := List.takeWhile_append_dropWhile (p := notColon)
              (l := s3.dropWhile pySpace)
            rw [he, List.nil_append] at h1
            rw [← h1, hD]
          have h2 := List.takeWhile_append_dropWhile (p := pySpace) (l := s3)
          rw [hw2] at h2
          rw [← h2, hA, List.append_assoc]
          rfl
    · rw [if_neg he] at hc
      have hinj := Option.some.inj hc
      have hh : h = (s3.dropWhile pySpace).takeWhile notColon :=
        (congrArg Prod.fst hinj).symm
      have hs4 : s4v = x4 := (congrArg Prod.snd hinj).symm
      subst hs4
      left
      refine ⟨s3.takeWhile pySpace, all_takeWhile pySpace s3, ?_, ?_, ?_, ?_⟩
      · have h2 := List.takeWhile_append_dropWhile (p := pySpace) (l := s3)
        have h1 := List.takeWhile_append_dropWhile (p := notColon)
          (l := s3.dropWhile pySpace)
        rw [hD, ← hh] at h1
        rw [h1]
        exact h2.symm
      · rw [hh]
        exact he
      · intro c hch
        have hcm : c ∈ h := by
          cases hcase : h with
          | nil =>
            rw [hcase] at hch
            cases hch
          | cons a r =>
            rw [hcase] at hch
            obtain rfl : a = c := by simpa using hch
            exact List.mem_cons_self a r
        constructor
        · obtain ⟨hrest, hhd⟩ : ∃ hrest, h = c :: hrest := by
            cases hcase : h with
            | nil =>
              rw [hcase] at hch
              cases hch
            | cons a r =>
              rw [hcase] at hch
              obtain rfl : a = c := by simpa using hch
              exact ⟨r, rfl⟩
          have : (s3.dropWhile pySpace).head? = some c := by
            rw [← List.takeWhile_append_dropWhile (p := notColon)
              (l := s3.dropWhile pySpace), ← hh, hhd]
            rfl
          exact dropWhile_ws_head_not c this
        · have := List.mem_takeWhile_imp (hh ▸ hcm)
          simpa [notColon, bne] using this
      · intro c hcm
        exact List.mem_takeWhile_imp (hh ▸ hcm)

theorem urlTailAt_inv {y3 rest : List Char} (h : urlTailAt y3 = some rest) :
    y3 = y3.takeWhile nonWs ++ rest ∧ y3.takeWhile nonWs ≠ [] ∧
    rest = y3.dropWhile nonWs := by
  unfold urlTailAt at h
  by_cases he : y3.takeWhile nonWs = []
  · rw [if_pos he] at h
    cases h
  · rw [if_neg he] at h
    have hr : rest = y3.dropWhile nonWs := (Option.some.inj h).symm
    refine ⟨?_, he, hr⟩
    rw [hr, List.takeWhile_append_dropWhile]

theorem urlRest_inv {z rest : List Char} (h : urlRest z = some rest) :
    ∃ y3, z = lc "://" ++ y3 ∧ y3 = y3.takeWhile nonWs ++ rest ∧
      y3.takeWhile nonWs ≠ [] ∧ rest = y3.dropWhile nonWs := by
  unfold urlRest at h
  cases hl : litMatch (lc "://") false z with
  | none =>
    rw [hl] at h
    cases h
  | some y3 =>
    rw [hl] at h
    exact ⟨y3, litMatch_eq_append _ _ _ hl, urlTailAt_inv h⟩

theorem urlCore_inv {y rest : List Char} (h : urlCore y = some rest) :
    ∃ sOpt y3, (sOpt = [] ∨ sOpt = ['s']) ∧
      y = lc "http" ++ (sOpt ++ (lc "://" ++ y3)) ∧
      y3 = y3.takeWhile nonWs ++ rest ∧ y3.takeWhile nonWs ≠ [] ∧
      rest = y3.dropWhile nonWs := by
  unfold urlCore at h
  cases hl : litMatch (lc "http") false y with
  | none =>
    rw [hl] at h
    cases h
  | some y1 =>
    rw [hl] at h
    have hy : y = lc "http" ++ y1 := litMatch_eq_append _ _ _ hl
    cases y1 with
    | nil =>
      replace h : (none : Option (List Char)) = some rest := h
      cases h
    | cons c y2 =>
      dsimp only at h
      by_cases hc : c = 's'
      · subst hc
        rw [if_pos rfl] at h
        cases hr : urlRest y2 with
        | some r =>
          rw [hr] at h
          replace h : some r = some rest := h
          obtain rfl : r = rest := Option.some.inj h
          obtain ⟨y3, hz, hsplit, hne, hrest⟩ := urlRest_inv hr
          refine ⟨['s'], y3, Or.inr rfl, ?_, hsplit, hne, hrest⟩
          rw [hy, hz]
          rfl
        | none =>
          rw [hr] at h
          replace h : urlRest ('s' :: y2) = some rest := h
          obtain ⟨y3, hz, _, _, _⟩ := urlRest_inv h
          have hhd := congrArg List.head? hz
          simp [lc] at hhd
      · rw [if_neg hc] at h
        obtain ⟨y3, hz, hsplit, hne, hrest⟩ := urlRest_inv h
        refine ⟨[], y3, Or.inl rfl, ?_, hsplit, hne, hrest⟩
        rw [hy, hz]
        rfl

/-- Inversion of a successful `urlAt`. -/
theorem urlAt_inv {x u rest : List Char} (h : urlAt x = some (u, rest)) :
    ∃ sOpt utail,
      x = x.takeWhile pySpace ++ (u ++ rest) ∧
      u = lc "http" ++ (sOpt ++ (lc "://" ++ utail)) ∧
      (sOpt = [] ∨ sOpt = ['s']) ∧
      utail ≠ [] ∧ (∀ c ∈ utail, nonWs c = true) ∧
      (∀ c ∈ u, pySpace c = false) ∧
      (∀ c, rest.head? = some c → pySpace c = true) ∧
      u.head? = some 'h' := by
  unfold urlAt at h
  cases hc : urlCore (x.dropWhile pySpace) with
  | none =>
    rw [hc] at h
    cases h
  | some r =>
    rw [hc] at h
    have hinj := Option.some.inj h
    have hu : u = (x.dropWhile pySpace).take
        ((x.dropWhile pySpace).length - r.length) := (congrArg Prod.fst hinj).symm
    have hr : rest = r := (congrArg Prod.snd hinj).symm
    subst hr
    obtain ⟨sOpt, y3, hsopt, hy, hsplit, hne, hrest⟩ := urlCore_inv hc
    have hyfull : x.dropWhile pySpace =
        (lc "http" ++ (sOpt ++ (lc "://" ++ y3.takeWhile nonWs))) ++ rest := by
      rw [hy]
      conv_lhs => rw [hsplit]
      simp [List.append_assoc]
    have hu2 : u = lc "http" ++ (sOpt ++ (lc "://" ++ y3.takeWhile nonWs)) := by
      rw [hu, hyfull]
      exact take_pre_of_append _ _
    refine ⟨sOpt, y3.takeWhile nonWs, ?_, hu2, hsopt, hne, ?_, ?_, ?_, ?_⟩
    · conv_lhs => rw [← List.takeWhile_append_dropWhile (p := pySpace) (l := x)]
      rw [hyfull, ← hu2]
    · intro c hcm
      exact List.mem_takeWhile_imp hcm
    · intro c hcm
      rw [hu2] at hcm
      have hpre : ∀ d ∈ lc "http" ++ (sOpt ++ lc "://"), pySpace d = false := by
        rcases hsopt with hs | hs
        · rw [hs]
          intro d hd
          fin_cases hd <;> rfl
        · rw [hs]
          intro d hd
          fin_cases hd <;> rfl
      rcases List.mem_append.mp hcm with h1 | h1
      · exact hpre c (List.mem_append_left _ h1)
      · rcases List.mem_append.mp h1 with h2 | h2
        · exact hpre c (List.mem_append_right _ (List.mem_append_left _ h2))
        · rcases List.mem_append.mp h2 with h3 | h3
          · exact hpre c (List.mem_append_right _ (List.mem_append_right _ h3))
          · have := List.mem_takeWhile_imp h3
            simpa [nonWs] using this
    · intro c hch
      cases hcase : rest with
      | nil =>
        rw [hcase] at hch
        cases hch
      | cons a t =>
        rw [hcase] at hch
        obtain rfl : a = c := by simpa using hch
        have : rest = a :: t := hcase
        rw [hrest] at this
        have := dropWhile_head_not nonWs y3 a t this
        simpa [nonWs] using this
    · rw [hu2]
      rfl

/-- Structural inversion of a successful `p4At` parse. -/
theorem p4At_inv {x d tag h u rest : List Char}
    (hp : p4At x = some (d, tag, h, u, rest)) :
    ∃ w1 s3 s4v,
      x = '[' :: (d ++ ']' :: (w1 ++ '[' :: (tag ++ ']' :: s3))) ∧
      d ≠ [] ∧ (∀ c ∈ d, isDigitC c = true) ∧
      (∀ c ∈ w1, pySpace c = true) ∧
      tag ≠ [] ∧ (∀ c ∈ tag, notRBrk c = true) ∧
      colonSplit s3 = some (h, s4v) ∧ urlAt s4v = some (u, rest) := by
  cases x with
  | nil => cases hp
  | cons c s0 =>
    rw [p4At_cons] at hp
    by_cases hc : c = '['
    case neg =>
      rw [if_neg hc] at hp
      cases hp
    subst hc
    rw [if_pos rfl] at hp
    by_cases hd0 : s0.takeWhile isDigitC = []
    · rw [if_pos hd0] at hp
      cases hp
    rw [if_neg hd0] at hp
    cases hD1 : s0.dropWhile isDigitC with
    | nil =>
      rw [hD1] at hp
      cases hp
    | cons c1 s1 =>
      rw [hD1] at hp
      dsimp only at hp
      by_cases hc1 : c1 = ']'
      case neg =>
        rw [if_neg hc1] at hp
        cases hp
      subst hc1
      rw [if_pos rfl] at hp
      cases hD2 : s1.dropWhile pySpace with
      | nil =>
        rw [hD2] at hp
        cases hp
      | cons c2 s2 =>
        rw [hD2] at hp
        dsimp only at hp
        by_cases hc2 : c2 = '['
        case neg =>
          rw [if_neg hc2] at hp
          cases hp
        subst hc2
        rw [if_pos rfl] at hp
        by_cases ht0 : s2.takeWhile notRBrk = []
        · rw [if_pos ht0] at hp
          cases hp
        rw [if_neg ht0] at hp
        cases hD3 : s2.dropWhile notRBrk with
        | nil =>
          rw [hD3] at hp
          cases hp
        | cons c3 s3 =>
          rw [hD3] at hp
          dsimp only at hp
          by_cases hc3 : c3 = ']'
          case neg =>
            rw [if_neg hc3] at hp
            cases hp
          subst hc3
          rw [if_pos rfl] at hp
          cases hcs : colonSplit s3 with
          | none =>
            rw [hcs] at hp
            cases hp
          | some pr =>
            obtain ⟨h0, s4v⟩ := pr
            rw [hcs] at hp
            dsimp only at hp
            cases hua : urlAt s4v with
            | none =>
              rw [hua] at hp
              cases hp
            | some pr2 =>
              obtain ⟨u0, rest0⟩ := pr2
              rw [hua] at hp
              dsimp only at hp
              have hinj := Option.some.inj hp
              obtain ⟨hd, htag, hh, hu, hrest⟩ :
                  s0.takeWhile isDigitC = d ∧ s2.takeWhile notRBrk = tag ∧
                  h0 = h ∧ u0 = u ∧ rest0 = rest := by
                refine ⟨congrArg (fun q => q.1) hinj,
                  congrArg (fun q => q.2.1) hinj,
                  congrArg (fun q => q.2.2.1) hinj,
                  congrArg (fun q => q.2.2.2.1) hinj,
                  congrArg (fun q => q.2.2.2.2) hinj⟩
              subst hh hu hrest
              refine ⟨s1.takeWhile pySpace, s3, s4v, ?_, ?_, ?_, ?_, ?_, ?_,
                hcs, hua⟩
              · have e0 : s0 = d ++ ']' :: s1 := by
                  rw [← hd]
                  have := List.takeWhile_append_dropWhile (p := isDigitC) (l := s0)
                  rw [hD1] at this
                  exact this.symm
                have e1 : s1 = s1.takeWhile pySpace ++ '[' :: s2 := by
                  have := List.takeWhile_append_dropWhile (p := pySpace) (l := s1)
                  rw [hD2] at this
                  exact this.symm
                have e2 : s2 = tag ++ ']' :: s3 := by
                  rw [← htag]
                  have := List.takeWhile_append_dropWhile (p := notRBrk) (l := s2)
                  rw [hD3] at this
                  exact this.symm
                rw [e0]
                conv_lhs => rw [e1, e2]
              · rw [← hd]
                exact hd0
              · intro cc hcc
                exact List.mem_takeWhile_imp (hd ▸ hcc)
              · exact all_takeWhile pySpace s1
              · rw [← htag]
                exact ht0
              · intro cc hcc
                exact List.mem_takeWhile_imp (htag ▸ hcc)

theorem insFlag_sp (c : Char) : insFlag c ' ' = false := by
  unfold insFlag
  rw [show pySpace ' ' = true from rfl]
  rfl

/-- A non-space character followed by an explicit space and then a
non-space-headed suffix: the explicit space survives and separates. -/
theorem nview_sp {c : Char} (hc : pySpace c = false) {X : List Char} {x0 : Char}
    (hX : X.head? = some x0) (hx0 : pySpace x0 = false) :
    nview (c :: ' ' :: X) = c :: ' ' :: nview X := by
  rw [nview_nonws_cons hc, if_neg (bool_neg (insFlag_sp c)),
    nview_ws (show pySpace ' ' = true from rfl),
    dropWhile_id_of_head (fun e he => by
      rw [hX] at he
      rw [← Option.some.inj he]
      exact hx0)]

/-- `]` followed by a nonempty whitespace run and a colon collapses to
`] ` before the colon. -/
theorem nview_seg_bracket_run {run : List Char} (hne : run ≠ [])
    (hw : ∀ c ∈ run, pySpace c = true) (X : List Char) :
    nview (']' :: (run ++ ':' :: X)) = ']' :: ' ' :: nview (':' :: X) := by
  cases run with
  | nil => exact absurd rfl hne
  | cons wc w =>
    exact nview_seg_bracket_colon wc w X (hw wc (List.mem_cons_self wc w))
      (fun c hc => hw c (List.mem_cons_of_mem wc hc))

/-- `] `, one whitespace character, then a non-space-headed suffix: the run
collapses into the single explicit space. -/
theorem nview_sp_ws {wc : Char} (hwc : pySpace wc = true) {R : List Char}
    {x1 : Char} (hR : R.head? = some x1) (hx1 : pySpace x1 = false) :
    nview (']' :: ' ' :: wc :: R) = ']' :: ' ' :: nview R := by
  rw [nview_nonws_cons (show pySpace ']' = false by decide),
    if_neg (bool_neg (insFlag_sp ']')),
    nview_ws (show pySpace ' ' = true from rfl),
    List.dropWhile_cons_of_pos hwc,
    dropWhile_id_of_head (fun e he => by
      rw [hR] at he
      rw [← Option.some.inj he]
      exact hx1)]

/-- Core whitespace-view identity, normal-headline case: the matched text of
the spacing pattern and its replacement have the same whitespace view, given
views and heads of the tails agree. -/
theorem core_nview_normal
    (d tag h' w1 w2 w3 u T T' : List Char) (x0 : Char)
    (hd : ∀ c ∈ d, isDigitC c = true)
    (hw1 : ∀ c ∈ w1, pySpace c = true)
    (hw2 : ∀ c ∈ w2, pySpace c = true)
    (hw3 : ∀ c ∈ w3, pySpace c = true)
    (hx0 : pySpace x0 = false) (hx0c : (x0 == ':') = false)
    (hu : ∀ c ∈ u, pySpace c = false) (huh : u.head? = some 'h')
    (hT : nview T = nview T') (hTh : T.head? = T'.head?) :
    nview ('[' :: (d ++ ']' :: (w1 ++ '[' :: (tag ++ ']' ::
        (w2 ++ x0 :: (h' ++ ':' :: (w3 ++ (u ++ T)))))))) =
    nview ('[' :: (d ++ ']' :: ' ' :: '[' :: (tag ++ ']' :: ' ' ::
        x0 :: (h' ++ ':' :: ' ' :: (u ++ T'))))) := by
  obtain ⟨u', rfl⟩ : ∃ u', u = 'h' :: u' := by
    cases u with
    | nil => cases huh
    | cons a r => exact ⟨r, by rw [Option.some.inj huh.symm]⟩
  have hbrk : pySpace '[' = false := by decide
  have hbrk1 : ('[' == ']') = false := by decide
  have hbrk2 : ('[' == ':') = false := by decide
  have hdp : ∀ c ∈ d, pySpace c = false ∧ (c == ']') = false ∧
      (c == ':') = false := fun c hc => digit_plain (hd c hc)
  -- left side
  rw [nview_cons_plain hbrk hbrk1 hbrk2, nview_plain_seg d _ hdp,
    nview_seg_bracket w1 _ hw1 hbrk hbrk2,
    nview_cons_plain hbrk hbrk1 hbrk2,
    nview_append_split tag.length tag _ (Nat.le_refl _)
      (fun e he => by
        rw [List.head?_cons] at he
        rw [← Option.some.inj he]
        decide),
    nview_seg_bracket w2 _ hw2 hx0 hx0c,
    show x0 :: (h' ++ ':' :: (w3 ++ ('h' :: u' ++ T))) =
      (x0 :: h') ++ ':' :: (w3 ++ ('h' :: u' ++ T)) from rfl,
    nview_append_split (x0 :: h').length (x0 :: h') _ (Nat.le_refl _)
      (fun e he => by
        rw [List.head?_cons] at he
        rw [← Option.some.inj he]
        decide),
    nview_seg_colon w3 _ hw3 (by rw [List.cons_append]; rfl),
    nview_append_nonws ('h' :: u') T hu]
  -- right side
  rw [nview_cons_plain hbrk hbrk1 hbrk2, nview_plain_seg d _ hdp,
    nview_sp (show pySpace ']' = false by decide)
      (show ('[' :: (tag ++ ']' :: ' ' :: x0 ::
        (h' ++ ':' :: ' ' :: ('h' :: u' ++ T')))).head? = some '[' from rfl)
      hbrk,
    nview_cons_plain hbrk hbrk1 hbrk2,
    nview_append_split tag.length tag _ (Nat.le_refl _)
      (fun e he => by
        rw [List.head?_cons] at he
        rw [← Option.some.inj he]
        decide),
    nview_sp (show pySpace ']' = false by decide)
      (show (x0 :: (h' ++ ':' :: ' ' :: ('h' :: u' ++ T'))).head? = some x0
        from rfl) hx0,
    show x0 :: (h' ++ ':' :: ' ' :: ('h' :: u' ++ T')) =
      (x0 :: h') ++ ':' :: ' ' :: ('h' :: u' ++ T') from rfl,
    nview_append_split (x0 :: h').length (x0 :: h') _ (Nat.le_refl _)
      (fun e he => by
        rw [List.head?_cons] at he
        rw [← Option.some.inj he]
        decide),
    nview_sp (show pySpace ':' = false by decide)
      (show ('h' :: u' ++ T').head? = some 'h' from rfl)
      (show pySpace 'h' = false by decide),
    nview_append_nonws ('h' :: u') T' hu]
  rw [hT, hTh]
  simp only [List.head?_cons]

/-- Core whitespace-view identity, backed-off-headline case (group 3 is the
last whitespace character before the colon). -/
theorem core_nview_backoff
    (d tag w1 w2' w3 u T T' : List Char) (wc : Char)
    (hd : ∀ c ∈ d, isDigitC c = true)
    (hw1 : ∀ c ∈ w1, pySpace c = true)
    (hw2 : ∀ c ∈ w2', pySpace c = true)
    (hwc : pySpace wc = true)
    (hw3 : ∀ c ∈ w3, pySpace c = true)
    (hu : ∀ c ∈ u, pySpace c = false) (huh : u.head? = some 'h')
    (hT : nview T = nview T') (hTh : T.head? = T'.head?) :
    nview ('[' :: (d ++ ']' :: (w1 ++ '[' :: (tag ++ ']' ::
        (w2' ++ wc :: ':' :: (w3 ++ (u ++ T))))))) =
    nview ('[' :: (d ++ ']' :: ' ' :: '[' :: (tag ++ ']' :: ' ' ::
        wc :: ':' :: ' ' :: (u ++ T')))) := by
  obtain ⟨u', rfl⟩ : ∃ u', u = 'h' :: u' := by
    cases u with
    | nil => cases huh
    | cons a r => exact ⟨r, by rw [Option.some.inj huh.symm]⟩
  have hbrk : pySpace '[' = false := by decide
  have hbrk1 : ('[' == ']') = false := by decide
  have hbrk2 : ('[' == ':') = false := by decide
  have hdp : ∀ c ∈ d, pySpace c = false ∧ (c == ']') = false ∧
      (c == ':') = false := fun c hc => digit_plain (hd c hc)
  rw [nview_cons_plain hbrk hbrk1 hbrk2, nview_plain_seg d _ hdp,
    nview_seg_bracket w1 _ hw1 hbrk hbrk2,
    nview_cons_plain hbrk hbrk1 hbrk2,
    nview_append_split tag.length tag _ (Nat.le_refl _)
      (fun e he => by
        rw [List.head?_cons] at he
        rw [← Option.some.inj he]
        decide),
    show w2' ++ wc :: ':' :: (w3 ++ ('h' :: u' ++ T)) =
      (w2' ++ [wc]) ++ ':' :: (w3 ++ ('h' :: u' ++ T)) from by
        rw [List.append_assoc]
        rfl,
    nview_seg_bracket_run (by simp) (fun c hc => by
      rcases List.mem_append.mp hc with h1 | h1
      · exact hw2 c h1
      · rw [List.mem_singleton.mp h1]
        exact hwc) _,
    nview_seg_colon w3 _ hw3 (by rw [List.cons_append]; rfl),
    nview_append_nonws ('h' :: u') T hu]
  rw [nview_cons_plain hbrk hbrk1 hbrk2, nview_plain_seg d _ hdp,
    nview_sp (show pySpace ']' = false by decide)
      (show ('[' :: (tag ++ ']' :: ' ' :: wc :: ':' :: ' ' ::
        ('h' :: u' ++ T'))).head? = some '[' from rfl) hbrk,
    nview_cons_plain hbrk hbrk1 hbrk2,
    nview_append_split tag.length tag _ (Nat.le_refl _)
      (fun e he => by
        rw [List.head?_cons] at he
        rw [← Option.some.inj he]
        decide),
    nview_sp_ws hwc
      (show (':' :: ' ' :: ('h' :: u' ++ T')).head? = some ':' from rfl)
      (show pySpace ':' = false by decide),
    nview_sp (show pySpace ':' = false by decide)
      (show ('h' :: u' ++ T').head? = some 'h' from rfl)
      (show pySpace 'h' = false by decide),
    nview_append_nonws ('h' :: u') T' hu]
  rw [hT, hTh]
  simp only [List.head?_cons]

theorem mem_dropWhile_of_neg {p : Char → Bool} :
    ∀ {l : List Char} {c : Char}, c ∈ l → p c = false → c ∈ l.dropWhile p := by
  intro l
  induction l with
  | nil =>
    intro c hc _
    cases hc
  | cons a t ih =>
    intro c hc hp
    cases hpa : p a with
    | true =>
      rw [List.dropWhile_cons_of_pos hpa]
      rcases List.mem_cons.mp hc with rfl | hct
      · rw [hpa] at hp
        cases hp
      · exact ih hct hp
    | false =>
      rw [List.dropWhile_cons_of_neg (bool_neg hpa)]
      exact hc

theorem nview_mem_nonws_aux : ∀ (n : Nat) (u : List Char), u.length ≤ n →
    ∀ {x : Char}, pySpace x = false → x ∈ u → x ∈ nview u := by
  intro n
  induction n with
  | zero =>
    intro u hlen x _ hx
    have hu : u = [] := List.eq_nil_of_length_eq_zero (Nat.le_zero.mp hlen)
    subst hu
    cases hx
  | succ m ih =>
    intro u hlen x hxw hx
    cases u with
    | nil => cases hx
    | cons c t =>
      by_cases hc : pySpace c = true
      · rw [nview_ws hc]
        rcases List.mem_cons.mp hx with rfl | hx2
        · rw [hc] at hxw
          cases hxw
        · have hlt : (t.dropWhile pySpace).length ≤ m := by
            have := length_dropWhile_le pySpace t
            simp only [List.length_cons] at hlen
            omega
          exact List.mem_cons_of_mem ' '
            (ih (t.dropWhile pySpace) hlt hxw (mem_dropWhile_of_neg hx2 hxw))
      · have hcf : pySpace c = false := Bool.not_eq_true _ ▸ hc
        cases t with
        | nil =>
          rw [nview_nonws_nil hcf]
          rcases List.mem_cons.mp hx with rfl | hx2
          · exact List.mem_cons_self x []
          · cases hx2
        | cons d t' =>
          rw [nview_nonws_cons hcf]
          have hlt : (d :: t').length ≤ m := by
            simp only [List.length_cons] at hlen ⊢
            omega
          rcases List.mem_cons.mp hx with rfl | hx2
          · by_cases hins : insFlag x d = true
            · rw [if_pos hins]
              exact List.mem_cons_self x _
            · rw [if_neg hins]
              exact List.mem_cons_self x _
          · have hrec := ih (d :: t') hlt hxw hx2
            by_cases hins : insFlag c d = true
            · rw [if_pos hins]
              exact List.mem_cons_of_mem c (List.mem_cons_of_mem ' ' hrec)
            · rw [if_neg hins]
              exact List.mem_cons_of_mem c hrec

theorem nview_mem_nonws {u : List Char} {x : Char} (hxw : pySpace x = false)
    (hx : x ∈ u) : x ∈ nview u :=
  nview_mem_nonws_aux u.length u (Nat.le_refl _) hxw hx

theorem nviewF_chars_aux : ∀ (n : Nat) (nx : Option Char) (u : List Char),
    u.length ≤ n → ∀ x ∈ nviewF nx u, x ∈ u ∨ x = ' ' := by
  intro n
  induction n with
  | zero =>
    intro nx u hlen x hx
    have hu : u = [] := List.eq_nil_of_length_eq_zero (Nat.le_zero.mp hlen)
    subst hu
    rw [nviewF_nil] at hx
    cases hx
  | succ m ih =>
    intro nx u hlen x hx
    cases u with
    | nil =>
      rw [nviewF_nil] at hx
      cases hx
    | cons c t =>
      by_cases hc : pySpace c = true
      · rw [nviewF_ws nx hc] at hx
        rcases List.mem_cons.mp hx with rfl | hx2
        · right; rfl
        · have hlt : (t.dropWhile pySpace).length ≤ m := by
            have := length_dropWhile_le pySpace t
            simp only [List.length_cons] at hlen
            omega
          rcases ih nx (t.dropWhile pySpace) hlt x hx2 with hm | hs
          · left
            exact List.mem_cons_of_mem c (mem_of_mem_dropWhile hm)
          · right; exact hs
      · have hcf : pySpace c = false := Bool.not_eq_true _ ▸ hc
        cases t with
        | nil =>
          rw [nviewF_nonws_nil nx hcf] at hx
          cases nx with
          | none =>
            left
            exact hx
          | some d =>
            dsimp only at hx
            by_cases hins : insFlag c d = true
            · rw [if_pos hins] at hx
              rcases List.mem_cons.mp hx with rfl | hx2
              · left
                exact List.mem_cons_self x []
              · right
                exact List.mem_singleton.mp hx2
            · rw [if_neg hins] at hx
              left
              exact hx
        | cons d t' =>
          rw [nviewF_nonws_cons nx hcf] at hx
          have hlt : (d :: t').length ≤ m := by
            simp only [List.length_cons] at hlen ⊢
            omega
          have hstep : ∀ y, y ∈ nviewF nx (d :: t') →
              y ∈ (c :: d :: t') ∨ y = ' ' := by
            intro y hy
            rcases ih nx (d :: t') hlt y hy with hm | hs
            · left
              exact List.mem_cons_of_mem c hm
            · right
              exact hs
          by_cases hins : insFlag c d = true
          · rw [if_pos hins] at hx
            rcases List.mem_cons.mp hx with rfl | hx2
            · left
              exact List.mem_cons_self x _
            · rcases List.mem_cons.mp hx2 with rfl | hx3
              · right; rfl
              · exact hstep x hx3
          · rw [if_neg hins] at hx
            rcases List.mem_cons.mp hx with rfl | hx2
            · left
              exact List.mem_cons_self x _
            · exact hstep x hx2

theorem nviewF_chars {nx : Option Char} {u : List Char} {x : Char}
    (hx : x ∈ nviewF nx u) : x ∈ u ∨ x = ' ' :=
  nviewF_chars_aux u.length nx u (Nat.le_refl _) x hx

theorem nviewF_ne_nil (nx : Option Char) {u : List Char} (h : u ≠ []) :
    nviewF nx u ≠ [] := by
  cases u with
  | nil => exact absurd rfl h
  | cons c t =>
    by_cases hc : pySpace c = true
    · rw [nviewF_ws nx hc]
      exact List.cons_ne_nil _ _
    · have hcf : pySpace c = false := Bool.not_eq_true _ ▸ hc
      cases t with
      | nil =>
        rw [nviewF_nonws_nil nx hcf]
        cases nx with
        | none => exact List.cons_ne_nil _ _
        | some d =>
          dsimp only
          by_cases hins : insFlag c d = true
          · rw [if_pos hins]
            exact List.cons_ne_nil _ _
          · rw [if_neg hins]
            exact List.cons_ne_nil _ _
      | cons d t' =>
        rw [nviewF_nonws_cons nx hcf]
        by_cases hins : insFlag c d = true
        · rw [if_pos hins]
          exact List.cons_ne_nil _ _
        · rw [if_neg hins]
          exact List.cons_ne_nil _ _

theorem nview_eq_nil_iff {u : List Char} : nview u = [] ↔ u = [] := by
  constructor
  · intro h
    cases u with
    | nil => rfl
    | cons c t =>
      exfalso
      by_cases hc : pySpace c = true
      · rw [nview_ws hc] at h
        cases h
      · have hcf : pySpace c = false := Bool.not_eq_true _ ▸ hc
        obtain ⟨W, hW⟩ := nview_cons_nonws t hcf
        rw [hW] at h
        cases h
  · intro h
    rw [h, nview_nil]

theorem nview_head_nonws {c : Char} (hc : pySpace c = false) {u : List Char}
    (h : u.head? = some c) : (nview u).head? = some c := by
  rw [nview_headq, h, Option.map_some']
  rw [if_neg (bool_neg hc)]

theorem nview_head_back {c : Char} (hc : c ≠ ' ') {u : List Char}
    (h : (nview u).head? = some c) : u.head? = some c ∧ pySpace c = false := by
  rw [nview_headq] at h
  cases hu : u.head? with
  | none =>
    rw [hu] at h
    cases h
  | some a =>
    rw [hu, Option.map_some'] at h
    have ha := Option.some.inj h
    by_cases haw : pySpace a = true
    · rw [if_pos haw] at ha
      exact absurd ha.symm hc
    · have haf : pySpace a = false := Bool.not_eq_true _ ▸ haw
      rw [if_neg (bool_neg haf)] at ha
      subst ha
      exact ⟨rfl, haf⟩

theorem nview_wsrun {w : List Char} (hne : w ≠ [])
    (hw : ∀ c ∈ w, pySpace c = true) {X : List Char}
    (hX : ∀ c, X.head? = some c → pySpace c = false) :
    nview (w ++ X) = ' ' :: nview X := by
  cases w with
  | nil => exact absurd rfl hne
  | cons wc w' =>
    rw [List.cons_append, nview_ws (hw wc (List.mem_cons_self wc w')),
      dropWhile_append_of_all (fun c hc => hw c (List.mem_cons_of_mem wc hc)),
      dropWhile_id_of_head hX]

theorem litMatch_append_self : ∀ (cs r : List Char),
    litMatch cs false (cs ++ r) = some r := by
  intro cs
  induction cs with
  | nil => intro r; rfl
  | cons c cr ih =>
    intro r
    show litMatch (c :: cr) false (c :: (cr ++ r)) = some r
    have h : litMatch (c :: cr) false (c :: (cr ++ r)) =
        if c = c then litMatch cr false (cr ++ r) else none := rfl
    rw [h, if_pos rfl]
    exact ih r

theorem dropWhile_eq_nil_all {p : Char → Bool} {l : List Char}
    (h : l.dropWhile p = []) : ∀ c ∈ l, p c = true := by
  intro c hc
  have hl : l = l.takeWhile p := by
    conv_lhs => rw [← List.takeWhile_append_dropWhile (p := p) (l := l)]
    rw [h, List.append_nil]
  exact List.mem_takeWhile_imp (hl ▸ hc)

theorem nview_brk_cases (t : List Char) :
    nview (']' :: t) = ']' :: nview t ∨
    (nview (']' :: t) = ']' :: ' ' :: nview t ∧
      ∃ d, t.head? = some d ∧ pySpace d = false ∧ (d == ':') = false) := by
  cases t with
  | nil =>
    left
    rw [nview_nonws_nil (by decide), nview_nil]
  | cons d t' =>
    rw [nview_nonws_cons (by decide : pySpace ']' = false)]
    by_cases hins : insFlag ']' d = true
    · right
      refine ⟨if_pos hins, d, rfl, ?_, ?_⟩
      · simp only [insFlag, show (']' == ']') = true from rfl,
          show (']' == ':') = false from rfl, Bool.true_and, Bool.false_and,
          Bool.or_false, Bool.and_eq_true] at hins
        have h1 := hins.1
        rw [Bool.not_eq_true'] at h1
        exact h1
      · simp only [insFlag, show (']' == ']') = true from rfl,
          show (']' == ':') = false from rfl, Bool.true_and, Bool.false_and,
          Bool.or_false, Bool.and_eq_true, bne] at hins
        have h2 := hins.2
        rw [Bool.not_eq_true'] at h2
        exact h2
    · left
      exact if_neg hins

theorem nview_colon_cases (t : List Char) :
    nview (':' :: t) = ':' :: nview t ∨
    (nview (':' :: t) = ':' :: ' ' :: nview t ∧ t.head? = some 'h') := by
  cases t with
  | nil =>
    left
    rw [nview_nonws_nil (by decide), nview_nil]
  | cons d t' =>
    rw [nview_nonws_cons (by decide : pySpace ':' = false)]
    by_cases hins : insFlag ':' d = true
    · right
      refine ⟨if_pos hins, ?_⟩
      simp only [insFlag, show (':' == ']') = false from rfl,
        show (':' == ':') = true from rfl, Bool.true_and, Bool.false_and,
        Bool.false_or, Bool.and_eq_true, beq_iff_eq] at hins
      rw [hins.2]
      rfl
    · left
      exact if_neg hins

theorem nview_digits (s0 : List Char) :
    (nview s0).takeWhile isDigitC = s0.takeWhile isDigitC ∧
    (nview s0).dropWhile isDigitC = nview (s0.dropWhile isDigitC) := by
  have hplain : ∀ c ∈ s0.takeWhile isDigitC,
      pySpace c = false ∧ (c == ']') = false ∧ (c == ':') = false :=
    fun c hc => digit_plain (List.mem_takeWhile_imp hc)
  have h1 : nview s0 = s0.takeWhile isDigitC ++ nview (s0.dropWhile isDigitC) := by
    conv_lhs => rw [← List.takeWhile_append_dropWhile (p := isDigitC) (l := s0)]
    exact nview_plain_seg _ _ hplain
  have hhead : ∀ c, (nview (s0.dropWhile isDigitC)).head? = some c →
      isDigitC c = false := by
    intro c hc
    rw [nview_headq] at hc
    cases hr : (s0.dropWhile isDigitC).head? with
    | none =>
      rw [hr] at hc
      cases hc
    | some a =>
      rw [hr, Option.map_some'] at hc
      have ha := Option.some.inj hc
      have haD : isDigitC a = false := by
        cases hdw : s0.dropWhile isDigitC with
        | nil =>
          rw [hdw] at hr
          cases hr
        | cons b t =>
          rw [hdw] at hr
          obtain rfl : b = a := Option.some.inj hr
          exact dropWhile_head_not isDigitC s0 b t hdw
      by_cases haw : pySpace a = true
      · rw [if_pos haw] at ha
        rw [← ha]
        decide
      · rw [if_neg haw] at ha
        rw [← ha]
        exact haD
  constructor
  · rw [h1, takeWhile_append_of_all (all_takeWhile isDigitC s0),
      takeWhile_nil_of_head hhead, List.append_nil]
  · rw [h1, dropWhile_append_of_all (all_takeWhile isDigitC s0),
      dropWhile_id_of_head hhead]

theorem getLast?_cons_ne_none : ∀ (t : List Char) (a : Char),
    (a :: t).getLast? ≠ none := by
  intro t
  induction t with
  | nil =>
    intro a h
    cases h
  | cons b r ih =>
    intro a h
    rw [List.getLast?_cons_cons] at h
    exact ih b h

theorem nviewF_head_nonws (nx : Option Char) {c : Char} (t : List Char)
    (hc : pySpace c = false) :
    ∃ W, nviewF nx (c :: t) = c :: W := by
  cases t with
  | nil =>
    rw [nviewF_nonws_nil nx hc]
    cases nx with
    | none => exact ⟨[], rfl⟩
    | some d =>
      dsimp only
      by_cases hins : insFlag c d = true
      · rw [if_pos hins]
        exact ⟨[' '], rfl⟩
      · rw [if_neg hins]
        exact ⟨[], rfl⟩
  | cons d t' =>
    rw [nviewF_nonws_cons nx hc]
    by_cases hins : insFlag c d = true
    · rw [if_pos hins]
      exact ⟨' ' :: nviewF nx (d :: t'), rfl⟩
    · rw [if_neg hins]
      exact ⟨nviewF nx (d :: t'), rfl⟩

/-- `colonSplit` fails exactly on colon-free strings and strings that begin
with a colon. -/
theorem colonSplit_none_iff {z : List Char} :
    colonSplit z = none ↔
      (∀ c ∈ z, notColon c = true) ∨ z.head? = some ':' := by
  constructor
  · intro hc
    rw [colonSplit_eq] at hc
    cases hD : (z.dropWhile pySpace).dropWhile notColon with
    | nil =>
      left
      intro c hcz
      have hz : z = z.takeWhile pySpace ++ z.dropWhile pySpace :=
        (List.takeWhile_append_dropWhile (p := pySpace) (l := z)).symm
      rcases List.mem_append.mp (hz ▸ hcz) with h1 | h1
      · exact pySpace_notColon (List.mem_takeWhile_imp h1)
      · exact dropWhile_eq_nil_all hD c h1
    | cons dc x4 =>
      have hdc := dropWhile_notColon_cons hD
      subst hdc
      rw [hD] at hc
      replace hc : (if (z.dropWhile pySpace).takeWhile notColon = [] then
          (match (z.takeWhile pySpace).getLast? with
            | some c => some ([c], x4)
            | none => none)
        else some ((z.dropWhile pySpace).takeWhile notColon, x4)) = none := hc
      by_cases he : (z.dropWhile pySpace).takeWhile notColon = []
      · rw [if_pos he] at hc
        cases hgl : (z.takeWhile pySpace).getLast? with
        | some wc =>
          rw [hgl] at hc
          cases hc
        | none =>
          have htw : z.takeWhile pySpace = [] := by
            cases htww : z.takeWhile pySpace with
            | nil => rfl
            | cons a t =>
              rw [htww] at hgl
              exact absurd hgl (getLast?_cons_ne_none t a)
          right
          cases hz : z with
          | nil =>
            rw [hz] at hD
            cases hD
          | cons a t =>
            rw [hz] at htw he
            by_cases haw : pySpace a = true
            · rw [List.takeWhile_cons_of_pos haw] at htw
              cases htw
            · have haf : pySpace a = false := Bool.not_eq_true _ ▸ haw
              rw [List.dropWhile_cons_of_neg (bool_neg haf)] at he
              by_cases hanc : notColon a = true
              · rw [List.takeWhile_cons_of_pos hanc] at he
                cases he
              · have : (a == ':') = true := by
                  have := Bool.not_eq_true _ ▸ hanc
                  simp only [notColon, bne_eq_false_iff_eq] at this
                  rw [this]
                  rfl
                rw [List.head?_cons, Option.some.injEq]
                exact beq_iff_eq.mp this
      · rw [if_neg he] at hc
        cases hc
  · intro hd
    rcases hd with hall | hhd
    · rw [colonSplit_eq]
      have hD : (z.dropWhile pySpace).dropWhile notColon = [] :=
        dropWhile_nil_of_all (fun c hc =>
          hall c (mem_of_mem_dropWhile hc))
      rw [hD]
    · obtain ⟨t, rfl⟩ : ∃ t, z = ':' :: t := by
        cases z with
        | nil => cases hhd
        | cons a t => exact ⟨t, by rw [Option.some.inj hhd.symm]⟩
      rw [colonSplit_eq]
      have hA : (':' :: t).dropWhile pySpace = ':' :: t :=
        List.dropWhile_cons_of_neg (by decide)
      have hnc : notColon ':' = false := by decide
      rw [hA, List.dropWhile_cons_of_neg (bool_neg hnc)]
      have htwnc : (':' :: t).takeWhile notColon = [] :=
        List.takeWhile_cons_of_neg (bool_neg hnc)
      have htwws : (':' :: t).takeWhile pySpace = [] :=
        List.takeWhile_cons_of_neg (by decide)
      show (if (':' :: t).takeWhile notColon = [] then
          (match ((':' :: t).takeWhile pySpace).getLast? with
            | some c => some ([c], t)
            | none => none)
        else some ((':' :: t).takeWhile notColon, t)) = none
      rw [if_pos htwnc, htwws]
      rfl

/-- The optional inserted space in front of a view never changes `colonSplit`
failure: transfer of failure from a string to its view. -/
theorem colonSplit_nview_none {s3 V3 : List Char}
    (hc : colonSplit s3 = none)
    (hV : V3 = nview s3 ∨ (V3 = ' ' :: nview s3 ∧
      ∃ d, s3.head? = some d ∧ pySpace d = false ∧ (d == ':') = false)) :
    colonSplit V3 = none := by
  rw [colonSplit_none_iff] at hc ⊢
  rcases hc with hall | hhd
  · left
    have hbase : ∀ c ∈ nview s3, notColon c = true := by
      intro c hcV
      rcases nview_chars hcV with hm | rfl
      · exact hall c hm
      · decide
    rcases hV with rfl | ⟨rfl, _⟩
    · exact hbase
    · intro c hcV
      rcases List.mem_cons.mp hcV with rfl | hc2
      · decide
      · exact hbase c hc2
  · rcases hV with rfl | ⟨rfl, d, hd, hdw, hdc⟩
    · right
      exact nview_head_nonws (by decide) hhd
    · exfalso
      rw [hd] at hhd
      have : d = ':' := Option.some.inj hhd
      rw [this] at hdc
      exact absurd hdc (by decide)

/-- Failure of `colonSplit` transfers back from the view to the string. -/
theorem colonSplit_nview_none_rev {s3 V3 : List Char}
    (hc : colonSplit V3 = none)
    (hV : V3 = nview s3 ∨ (V3 = ' ' :: nview s3 ∧
      ∃ d, s3.head? = some d ∧ pySpace d = false ∧ (d == ':') = false)) :
    colonSplit s3 = none := by
  rw [colonSplit_none_iff] at hc ⊢
  rcases hc with hall | hhd
  · left
    intro c hcz
    by_cases hnc : notColon c = true
    · exact hnc
    · exfalso
      have hcc : c = ':' := by
        have := Bool.not_eq_true _ ▸ hnc
        simpa only [notColon, bne_eq_false_iff_eq] using this
      subst hcc
      have hmem : ':' ∈ nview s3 := nview_mem_nonws (by decide) hcz
      have hmemV : ':' ∈ V3 := by
        rcases hV with rfl | ⟨rfl, _⟩
        · exact hmem
        · exact List.mem_cons_of_mem ' ' hmem
      have := hall ':' hmemV
      exact absurd this (by decide)
  · rcases hV with rfl | ⟨rfl, _⟩
    · right
      exact (nview_head_back (by decide) hhd).1
    · exfalso
      rw [List.head?_cons] at hhd
      have : ' ' = ':' := Option.some.inj hhd
      exact absurd this (by decide)

theorem colonSplit_compute_normal {pre A V4 : List Char}
    (hpre : ∀ c ∈ pre, pySpace c = true)
    (hAne : A ≠ [])
    (hAh : ∀ c, A.head? = some c → pySpace c = false)
    (hAnc : ∀ c ∈ A, notColon c = true) :
    colonSplit (pre ++ (A ++ ':' :: V4)) = some (A, V4) := by
  obtain ⟨a, A', rfl⟩ : ∃ a A', A = a :: A' := by
    cases A with
    | nil => exact absurd rfl hAne
    | cons a r => exact ⟨a, r, rfl⟩
  have h1 : (pre ++ ((a :: A') ++ ':' :: V4)).dropWhile pySpace =
      (a :: A') ++ ':' :: V4 := by
    rw [dropWhile_append_of_all hpre, List.cons_append,
      List.dropWhile_cons_of_neg (bool_neg (hAh a rfl))]
  have h2 : ((a :: A') ++ ':' :: V4).takeWhile notColon = a :: A' := by
    rw [takeWhile_append_of_all hAnc,
      List.takeWhile_cons_of_neg (by decide : ¬(notColon ':' = true)),
      List.append_nil]
  have h3 : ((a :: A') ++ ':' :: V4).dropWhile notColon = ':' :: V4 := by
    rw [dropWhile_append_of_all hAnc,
      List.dropWhile_cons_of_neg (by decide : ¬(notColon ':' = true))]
  rw [colonSplit_eq, h1, h3]
  show (if ((a :: A') ++ ':' :: V4).takeWhile notColon = [] then
      (match (((pre ++ ((a :: A') ++ ':' :: V4))).takeWhile pySpace).getLast?
        with
        | some c => some ([c], V4)
        | none => none)
    else some (((a :: A') ++ ':' :: V4).takeWhile notColon, V4)) =
    some (a :: A', V4)
  rw [h2]
  rw [if_neg (List.cons_ne_nil a A')]

theorem colonSplit_compute_backoff (V4 : List Char) :
    colonSplit (' ' :: ':' :: V4) = some ([' '], V4) := rfl

/-- Success of `colonSplit` transfers to the view, with the tail again a view
up to one optional leading inserted space. -/
theorem colonSplit_nview_some {s3 h s4 : List Char}
    (hc : colonSplit s3 = some (h, s4)) (V3 : List Char)
    (hV : V3 = nview s3 ∨ (V3 = ' ' :: nview s3 ∧
      ∃ d, s3.head? = some d ∧ pySpace d = false ∧ (d == ':') = false)) :
    ∃ h2 V4, colonSplit V3 = some (h2, V4) ∧
      (V4 = nview s4 ∨ V4 = ' ' :: nview s4) := by
  obtain ⟨V4, hV4, hV4rel⟩ : ∃ V4, nview (':' :: s4) = ':' :: V4 ∧
      (V4 = nview s4 ∨ V4 = ' ' :: nview s4) := by
    rcases nview_colon_cases s4 with hcv | ⟨hcv, _⟩
    · exact ⟨nview s4, hcv, Or.inl rfl⟩
    · exact ⟨' ' :: nview s4, hcv, Or.inr rfl⟩
  rcases colonSplit_inv hc with ⟨w2, hw2, hs3, hne, hhead, hcol⟩ |
    ⟨w2', wc, hw2', hwc, hs3, hh⟩
  · obtain ⟨x0, h'', rfl⟩ : ∃ x0 h'', h = x0 :: h'' := by
      cases h with
      | nil => exact absurd rfl hne
      | cons a r => exact ⟨a, r, rfl⟩
    have hx0 : pySpace x0 = false := (hhead x0 rfl).1
    have hB : nview ((x0 :: h'') ++ ':' :: s4) =
        nviewF (some ':') (x0 :: h'') ++ ':' :: V4 := by
      rw [nview_append_split (x0 :: h'').length (x0 :: h'') (':' :: s4)
        (Nat.le_refl _)
        (fun e he => by
          rw [List.head?_cons] at he
          rw [← Option.some.inj he]
          decide),
        List.head?_cons, hV4]
    obtain ⟨pre1, hpre1, hNs3⟩ : ∃ pre1, (∀ c ∈ pre1, pySpace c = true) ∧
        nview s3 = pre1 ++ (nviewF (some ':') (x0 :: h'') ++ ':' :: V4) := by
      cases hw2e : w2 with
      | nil =>
        refine ⟨[], ?_, ?_⟩
        · intro c hc2
          cases hc2
        · rw [hs3, hw2e, List.nil_append, List.nil_append]
          exact hB
      | cons b w2t =>
        refine ⟨[' '], ?_, ?_⟩
        · intro c hc2
          rw [List.mem_singleton.mp hc2]
          rfl
        · rw [hs3, hw2e]
          rw [nview_wsrun (List.cons_ne_nil b w2t) (hw2e ▸ hw2)
            (fun e he => by
              rw [List.cons_append, List.head?_cons] at he
              rw [← Option.some.inj he]
              exact hx0), hB]
          rfl
    obtain ⟨pre, hpre, hV3⟩ : ∃ pre, (∀ c ∈ pre, pySpace c = true) ∧
        V3 = pre ++ (nviewF (some ':') (x0 :: h'') ++ ':' :: V4) := by
      rcases hV with rfl | ⟨rfl, _⟩
      · exact ⟨pre1, hpre1, hNs3⟩
      · refine ⟨' ' :: pre1, ?_, ?_⟩
        · intro c hc2
          rcases List.mem_cons.mp hc2 with rfl | hc3
          · rfl
          · exact hpre1 c hc3
        · rw [hNs3]
          rfl
    obtain ⟨W, hW⟩ := nviewF_head_nonws (some ':') h'' hx0
    refine ⟨nviewF (some ':') (x0 :: h''), V4, ?_, hV4rel⟩
    rw [hV3]
    refine colonSplit_compute_normal hpre
      (nviewF_ne_nil (some ':') (List.cons_ne_nil x0 h'')) ?_ ?_
    · intro c hc2
      rw [hW, List.head?_cons] at hc2
      rw [← Option.some.inj hc2]
      exact hx0
    · intro c hc2
      rcases nviewF_chars hc2 with hm | rfl
      · exact hcol c hm
      · decide
  · rcases hV with rfl | ⟨rfl, d, hd, hdw, hdc⟩
    · have hshape : s3 = (w2' ++ [wc]) ++ ':' :: s4 := by
        rw [hs3, List.append_assoc]
        rfl
      have hN : nview s3 = ' ' :: ':' :: V4 := by
        rw [hshape, nview_wsrun (by simp)
          (fun c hc2 => by
            rcases List.mem_append.mp hc2 with h1 | h1
            · exact hw2' c h1
            · rw [List.mem_singleton.mp h1]
              exact hwc)
          (fun e he => by
            rw [List.head?_cons] at he
            rw [← Option.some.inj he]
            decide), hV4]
      rw [hN]
      exact ⟨[' '], V4, colonSplit_compute_backoff V4, hV4rel⟩
    · exfalso
      have : pySpace d = true := by
        cases hw2e : w2' with
        | nil =>
          rw [hs3, hw2e, List.nil_append, List.head?_cons] at hd
          rw [← Option.some.inj hd]
          exact hwc
        | cons b w2t =>
          rw [hs3, hw2e, List.cons_append, List.head?_cons] at hd
          rw [← Option.some.inj hd]
          exact hw2' b (hw2e ▸ List.mem_cons_self b w2t)
      rw [this] at hdw
      cases hdw

theorem litMatch_plain_back : ∀ (cs : List Char),
    (∀ c ∈ cs, pySpace c = false ∧ (c == ']') = false ∧ (c == ':') = false) →
    ∀ (z w : List Char), litMatch cs false (nview z) = some w →
      ∃ y1, z = cs ++ y1 ∧ w = nview y1 := by
  intro cs
  induction cs with
  | nil =>
    intro _ z w h
    exact ⟨z, rfl, (Option.some.inj h).symm⟩
  | cons e cr ih =>
    intro hpl z w h
    obtain ⟨hew, he1, he2⟩ := hpl e (List.mem_cons_self e cr)
    cases hnv : nview z with
    | nil =>
      rw [hnv] at h
      cases h
    | cons a V =>
      rw [hnv] at h
      have hea : e = a := by
        by_cases hcond : e = a
        · exact hcond
        · exfalso
          have hnone : litMatch (e :: cr) false (a :: V) = none := by
            have heq : litMatch (e :: cr) false (a :: V) =
                if e = a then litMatch cr false V else none := rfl
            rw [heq, if_neg hcond]
          rw [hnone] at h
          cases h
      subst hea
      have hne : e ≠ ' ' := by
        intro hsp
        rw [hsp] at hew
        exact absurd hew (by decide)
      have hz : z.head? = some e := by
        refine (nview_head_back hne ?_).1
        rw [hnv, List.head?_cons]
      obtain ⟨z1, rfl⟩ : ∃ z1, z = e :: z1 := by
        cases z with
        | nil => cases hz
        | cons b t => exact ⟨t, by rw [Option.some.inj hz.symm]⟩
      have hnv1 : nview (e :: z1) = e :: nview z1 :=
        nview_cons_plain hew he1 he2
      rw [hnv1] at hnv
      have hV : V = nview z1 := (List.cons.inj hnv).2.symm
      have hrest : litMatch cr false (nview z1) = some w := by
        have heq : litMatch (e :: cr) false (e :: V) =
            if e = e then litMatch cr false V else none := rfl
        rw [heq, if_pos rfl, hV] at h
        exact h
      obtain ⟨y1, rfl, hw⟩ := ih
        (fun c hc => hpl c (List.mem_cons_of_mem e hc)) z1 w hrest
      exact ⟨y1, rfl, hw⟩

theorem urlTailAt_nview (y3 : List Char) :
    (urlTailAt (nview y3)).isSome = (urlTailAt y3).isSome := by
  unfold urlTailAt
  cases y3 with
  | nil =>
    rw [nview_nil]
  | cons c t =>
    by_cases hc : pySpace c = true
    · have h1 : nonWs c = false := by
        simp only [nonWs, hc]
        rfl
      rw [nview_ws hc, List.takeWhile_cons_of_neg (bool_neg h1),
        List.takeWhile_cons_of_neg (by decide : ¬(nonWs ' ' = true)),
        if_pos rfl, if_pos rfl]
    · have hcf : pySpace c = false := Bool.not_eq_true _ ▸ hc
      have h1 : nonWs c = true := by
        simp only [nonWs, hcf]
        rfl
      obtain ⟨W, hW⟩ := nview_cons_nonws t hcf
      rw [hW, List.takeWhile_cons_of_pos h1, List.takeWhile_cons_of_pos h1,
        if_neg (List.cons_ne_nil _ _), if_neg (List.cons_ne_nil _ _)]
      rfl

theorem urlRest_nview (z : List Char) :
    (urlRest (nview z)).isSome = (urlRest z).isSome := by
  cases z with
  | nil =>
    rw [nview_nil]
  | cons c t =>
    by_cases hc : pySpace c = true
    · have h1 : urlRest (c :: t) = none := by
        unfold urlRest
        have heq : litMatch (lc "://") false (c :: t) =
            if ':' = c then litMatch ['/', '/'] false t else none := rfl
        rw [heq, if_neg (fun h => by rw [← h] at hc; exact absurd hc (by decide))]
      have h2 : urlRest (nview (c :: t)) = none := by
        rw [nview_ws hc]
        unfold urlRest
        have heq : litMatch (lc "://") false
            (' ' :: nview (t.dropWhile pySpace)) =
            if ':' = ' ' then
              litMatch ['/', '/'] false (nview (t.dropWhile pySpace))
            else none := rfl
        rw [heq, if_neg (by decide)]
      rw [h1, h2]
    · have hcf : pySpace c = false := Bool.not_eq_true _ ▸ hc
      by_cases hcc : c = ':'
      · subst hcc
        rcases nview_colon_cases t with hcv | ⟨hcv, hth⟩
        · rw [hcv]
          unfold urlRest
          have heqo : litMatch (lc "://") false (':' :: t) =
              litMatch ['/', '/'] false t := by
            have : litMatch (lc "://") false (':' :: t) =
                if ':' = ':' then litMatch ['/', '/'] false t else none := rfl
            rw [this, if_pos rfl]
          have heqn : litMatch (lc "://") false (':' :: nview t) =
              litMatch ['/', '/'] false (nview t) := by
            have : litMatch (lc "://") false (':' :: nview t) =
                if ':' = ':' then litMatch ['/', '/'] false (nview t)
                else none := rfl
            rw [this, if_pos rfl]
          rw [heqo, heqn]
          have hplsl : ∀ x ∈ ['/', '/'], pySpace x = false ∧
              (x == ']') = false ∧ (x == ':') = false := by
            intro x hx
            rcases List.mem_cons.mp hx with rfl | hx2
            · exact ⟨by decide, by decide, by decide⟩
            · rw [List.mem_singleton.mp hx2]
              exact ⟨by decide, by decide, by decide⟩
          cases hl : litMatch ['/', '/'] false t with
          | some y3 =>
            have ht : t = ['/', '/'] ++ y3 := litMatch_eq_append _ _ _ hl
            have hnt : nview t = ['/', '/'] ++ nview y3 := by
              conv_lhs => rw [ht]
              exact nview_plain_seg _ _ hplsl
            rw [hnt, litMatch_append_self]
            exact urlTailAt_nview y3
          | none =>
            cases hln : litMatch ['/', '/'] false (nview t) with
            | none => rfl
            | some w =>
              exfalso
              obtain ⟨y1, hy1, _⟩ := litMatch_plain_back ['/', '/'] hplsl t w hln
              rw [hy1, litMatch_append_self] at hl
              cases hl
        · rw [hcv]
          obtain ⟨t', rfl⟩ : ∃ t', t = 'h' :: t' := by
            cases t with
            | nil => cases hth
            | cons b r => exact ⟨r, by rw [Option.some.inj hth.symm]⟩
          have h1 : urlRest (':' :: 'h' :: t') = none := by
            unfold urlRest
            have heq : litMatch (lc "://") false (':' :: 'h' :: t') =
                if '/' = 'h' then litMatch ['/'] false t' else none := rfl
            rw [heq, if_neg (by decide)]
          have h2 : urlRest (':' :: ' ' :: nview ('h' :: t')) = none := by
            unfold urlRest
            have heq : litMatch (lc "://") false
                (':' :: ' ' :: nview ('h' :: t')) =
                if '/' = ' ' then litMatch ['/'] false (nview ('h' :: t'))
                else none := rfl
            rw [heq, if_neg (by decide)]
          rw [h1, h2]
      · obtain ⟨W, hW⟩ := nview_cons_nonws t hcf
        have h1 : urlRest (c :: t) = none := by
          unfold urlRest
          have heq : litMatch (lc "://") false (c :: t) =
              if ':' = c then litMatch ['/', '/'] false t else none := rfl
          rw [heq, if_neg (fun h => hcc h.symm)]
        have h2 : urlRest (c :: W) = none := by
          unfold urlRest
          have heq : litMatch (lc "://") false (c :: W) =
              if ':' = c then litMatch ['/', '/'] false W else none := rfl
          rw [heq, if_neg (fun h => hcc h.symm)]
        rw [hW, h1, h2]

theorem urlCore_nview (z : List Char) :
    (urlCore (nview z)).isSome = (urlCore z).isSome := by
  have hplhttp : ∀ x ∈ lc "http", pySpace x = false ∧
      (x == ']') = false ∧ (x == ':') = false := by
    intro x hx
    fin_cases hx <;> exact ⟨by decide, by decide, by decide⟩
  cases hl : litMatch (lc "http") false z with
  | none =>
    have hln : litMatch (lc "http") false (nview z) = none := by
      cases hln2 : litMatch (lc "http") false (nview z) with
      | none => rfl
      | some w =>
        exfalso
        obtain ⟨y1, hy1, _⟩ := litMatch_plain_back (lc "http") hplhttp z w hln2
        rw [hy1, litMatch_append_self] at hl
        cases hl
    unfold urlCore
    rw [hl, hln]
  | some y1 =>
    have hz : z = lc "http" ++ y1 := litMatch_eq_append _ _ _ hl
    have hnz : nview z = lc "http" ++ nview y1 := by
      conv_lhs => rw [hz]
      exact nview_plain_seg _ _ hplhttp
    unfold urlCore
    rw [hl, hnz, litMatch_append_self]
    cases y1 with
    | nil =>
      rw [nview_nil]
    | cons c y2 =>
      by_cases hcw : pySpace c = true
      · rw [nview_ws hcw]
        have hcs : ¬(c = 's') := by
          intro h
          rw [h] at hcw
          exact absurd hcw (by decide)
        dsimp only
        rw [if_neg hcs, if_neg (by decide : ¬(' ' = 's'))]
        have ho : urlRest (c :: y2) = none := by
          unfold urlRest
          have heq : litMatch (lc "://") false (c :: y2) =
              if ':' = c then litMatch ['/', '/'] false y2 else none := rfl
          rw [heq,
            if_neg (fun h => by rw [← h] at hcw; exact absurd hcw (by decide))]
        have hn : urlRest (' ' :: nview (y2.dropWhile pySpace)) = none := by
          unfold urlRest
          have heq : litMatch (lc "://") false
              (' ' :: nview (y2.dropWhile pySpace)) =
              if ':' = ' ' then
                litMatch ['/', '/'] false (nview (y2.dropWhile pySpace))
              else none := rfl
          rw [heq, if_neg (by decide)]
        rw [ho, hn]
      · have hcf : pySpace c = false := Bool.not_eq_true _ ▸ hcw
        by_cases hcs : c = 's'
        · subst hcs
          have hnv1 : nview ('s' :: y2) = 's' :: nview y2 :=
            nview_cons_plain hcf (by decide) (by decide)
          rw [hnv1]
          dsimp only
          rw [if_pos rfl, if_pos rfl]
          have hur := urlRest_nview y2
          cases hu : urlRest y2 with
          | some r =>
            rw [hu] at hur
            cases hun : urlRest (nview y2) with
            | none =>
              rw [hun] at hur
              cases hur
            | some w => rfl
          | none =>
            rw [hu] at hur
            cases hun : urlRest (nview y2) with
            | some w =>
              rw [hun] at hur
              cases hur
            | none =>
              have hsn : ∀ (w : List Char), urlRest ('s' :: w) = none := by
                intro w
                unfold urlRest
                have heq : litMatch (lc "://") false ('s' :: w) =
                    if ':' = 's' then litMatch ['/', '/'] false w else none :=
                  rfl
                rw [heq, if_neg (by decide)]
              rw [hsn, hsn]
        · obtain ⟨W, hW⟩ := nview_cons_nonws y2 hcf
          rw [hW]
          dsimp only
          rw [if_neg hcs, if_neg hcs]
          by_cases hcc : c = ':'
          · subst hcc
            have h2 := urlRest_nview (':' :: y2)
            rw [show nview (':' :: y2) = ':' :: W from hW] at h2
            exact h2
          · have ho : urlRest (c :: y2) = none := by
              unfold urlRest
              have heq : litMatch (lc "://") false (c :: y2) =
                  if ':' = c then litMatch ['/', '/'] false y2 else none := rfl
              rw [heq, if_neg (fun h => hcc h.symm)]
            have hn : urlRest (c :: W) = none := by
              unfold urlRest
              have heq : litMatch (lc "://") false (c :: W) =
                  if ':' = c then litMatch ['/', '/'] false W else none := rfl
              rw [heq, if_neg (fun h => hcc h.symm)]
            rw [ho, hn]

/-- `urlAt` matchability is invariant under taking the whitespace view, also
through one optional inserted leading space. -/
theorem urlAt_nview (s4 V4 : List Char)
    (hV : V4 = nview s4 ∨ V4 = ' ' :: nview s4) :
    (urlAt V4).isSome = (urlAt s4).isSome := by
  have hdw : V4.dropWhile pySpace = nview (s4.dropWhile pySpace) := by
    rcases hV with rfl | rfl
    · exact nview_dropWhile_ws s4
    · rw [List.dropWhile_cons_of_pos (by decide : pySpace ' ' = true)]
      exact nview_dropWhile_ws s4
  unfold urlAt
  rw [hdw]
  have h1 := urlCore_nview (s4.dropWhile pySpace)
  cases hco : urlCore (s4.dropWhile pySpace) with
  | none =>
    rw [hco] at h1
    cases hcn : urlCore (nview (s4.dropWhile pySpace)) with
    | none => rfl
    | some w =>
      rw [hcn] at h1
      cases h1
  | some r =>
    rw [hco] at h1
    cases hcn : urlCore (nview (s4.dropWhile pySpace)) with
    | none =>
      rw [hcn] at h1
      cases h1
    | some w => rfl

theorem tag_stage_none {α : Type}
    (f : Char → List Char → Option α) (z : List Char)
    (h : z.dropWhile notRBrk = []) :
    (if z.takeWhile notRBrk = [] then none else
      match z.dropWhile notRBrk with
      | c3 :: s3 => f c3 s3
      | [] => none) = none := by
  by_cases ht : z.takeWhile notRBrk = []
  · rw [if_pos ht]
  · rw [if_neg ht, h]

/-- Matchability of the spacing pattern head parse is invariant under the
whitespace view. -/
theorem p4At_nview : ∀ (x : List Char),
    (p4At (nview x)).isSome = (p4At x).isSome := by
  intro x
  cases x with
  | nil => rw [nview_nil]
  | cons c s0 =>
    by_cases hcw : pySpace c = true
    · rw [nview_ws hcw, p4At_cons, p4At_cons,
        if_neg (show ¬(' ' = '[') by decide),
        if_neg (fun h => by rw [h] at hcw; exact absurd hcw (by decide))]
    · have hcf : pySpace c = false := Bool.not_eq_true _ ▸ hcw
      by_cases hcb : c = '['
      case neg =>
        obtain ⟨W, hW⟩ := nview_cons_nonws s0 hcf
        rw [hW, p4At_cons, p4At_cons, if_neg hcb, if_neg hcb]
      subst hcb
      have hnv : nview ('[' :: s0) = '[' :: nview s0 :=
        nview_cons_plain hcf (by decide) (by decide)
      rw [hnv, p4At_cons, p4At_cons, if_pos rfl, if_pos rfl]
      obtain ⟨hdT, hdD⟩ := nview_digits s0
      rw [hdT, hdD]
      by_cases hd0 : s0.takeWhile isDigitC = []
      · rw [if_pos hd0, if_pos hd0]
      rw [if_neg hd0, if_neg hd0]
      cases hr : s0.dropWhile isDigitC with
      | nil => rw [nview_nil]
      | cons c1 s1 =>
        by_cases h1w : pySpace c1 = true
        · rw [nview_ws h1w]
          dsimp only
          rw [if_neg (show ¬(' ' = ']') by decide),
            if_neg (fun h => by rw [h] at h1w; exact absurd h1w (by decide))]
        have h1f : pySpace c1 = false := Bool.not_eq_true _ ▸ h1w
        by_cases h1b : c1 = ']'
        case neg =>
          obtain ⟨W1, hW1⟩ := nview_cons_nonws s1 h1f
          rw [hW1]
          dsimp only
          rw [if_neg h1b, if_neg h1b]
        subst h1b
        obtain ⟨V1, hbv, hdw⟩ : ∃ V1, nview (']' :: s1) = ']' :: V1 ∧
            V1.dropWhile pySpace = nview (s1.dropWhile pySpace) := by
          rcases nview_brk_cases s1 with hcv | ⟨hcv, _⟩
          · exact ⟨nview s1, hcv, nview_dropWhile_ws s1⟩
          · refine ⟨' ' :: nview s1, hcv, ?_⟩
            rw [List.dropWhile_cons_of_pos (by decide : pySpace ' ' = true)]
            exact nview_dropWhile_ws s1
        rw [hbv]
        dsimp only
        rw [if_pos rfl, if_pos rfl, hdw]
        cases hq : s1.dropWhile pySpace with
        | nil => rw [nview_nil]
        | cons c2 s2 =>
          have hc2f : pySpace c2 = false :=
            dropWhile_head_not pySpace s1 c2 s2 hq
          by_cases h2b : c2 = '['
          case neg =>
            obtain ⟨W2, hW2⟩ := nview_cons_nonws s2 hc2f
            rw [hW2]
            dsimp only
            rw [if_neg h2b, if_neg h2b]
          subst h2b
          have hnv2 : nview ('[' :: s2) = '[' :: nview s2 :=
            nview_cons_plain hc2f (by decide) (by decide)
          rw [hnv2]
          dsimp only
          rw [if_pos rfl, if_pos rfl]
          cases hD3 : s2.dropWhile notRBrk with
          | nil =>
            have hall : ∀ e ∈ s2, notRBrk e = true := dropWhile_eq_nil_all hD3
            have hDn : (nview s2).dropWhile notRBrk = [] := by
              refine dropWhile_nil_of_all ?_
              intro e he
              rcases nview_chars he with hm | rfl
              · exact hall e hm
              · decide
            rw [tag_stage_none _ (nview s2) hDn]
            by_cases ht : s2.takeWhile notRBrk = []
            · rw [if_pos ht]
            · rw [if_neg ht]
          | cons c3 s3 =>
            have hc3 : c3 = ']' := by
              have := dropWhile_head_not notRBrk s2 c3 s3 hD3
              simpa only [notRBrk, bne_eq_false_iff_eq] using this
            subst hc3
            have hs2 : s2 = s2.takeWhile notRBrk ++ ']' :: s3 := by
              conv_lhs => rw [← List.takeWhile_append_dropWhile
                (p := notRBrk) (l := s2)]
              rw [hD3]
            by_cases ht2 : s2.takeWhile notRBrk = []
            · rw [if_pos ht2]
              have hs2b : s2 = ']' :: s3 := by
                rw [hs2, ht2, List.nil_append]
              obtain ⟨W3, hW3⟩ := nview_cons_nonws s3
                (by decide : pySpace ']' = false)
              rw [hs2b, hW3, List.takeWhile_cons_of_neg
                (by decide : ¬(notRBrk ']' = true)), if_pos rfl]
            · rw [if_neg ht2]
              have hnvs2 : nview s2 =
                  nviewF (some ']') (s2.takeWhile notRBrk) ++
                    nview (']' :: s3) := by
                conv_lhs => rw [hs2]
                rw [nview_append_split (s2.takeWhile notRBrk).length
                  (s2.takeWhile notRBrk) (']' :: s3) (Nat.le_refl _)
                  (fun e he => by
                    rw [List.head?_cons] at he
                    rw [← Option.some.inj he]
                    decide), List.head?_cons]
              obtain ⟨V3, hbv3, hV3rel⟩ : ∃ V3,
                  nview (']' :: s3) = ']' :: V3 ∧
                  (V3 = nview s3 ∨ (V3 = ' ' :: nview s3 ∧
                    ∃ d, s3.head? = some d ∧ pySpace d = false ∧
                      (d == ':') = false)) := by
                rcases nview_brk_cases s3 with h | ⟨h, hd⟩
                · exact ⟨nview s3, h, Or.inl rfl⟩
                · exact ⟨' ' :: nview s3, h, Or.inr ⟨rfl, hd⟩⟩
              have hvnotR : ∀ e ∈ nviewF (some ']') (s2.takeWhile notRBrk),
                  notRBrk e = true := by
                intro e he
                rcases nviewF_chars he with hm | rfl
                · exact List.mem_takeWhile_imp hm
                · decide
              have htN : (nview s2).takeWhile notRBrk =
                  nviewF (some ']') (s2.takeWhile notRBrk) := by
                rw [hnvs2, hbv3, takeWhile_append_of_all hvnotR,
                  List.takeWhile_cons_of_neg
                    (by decide : ¬(notRBrk ']' = true)), List.append_nil]
              have hDN : (nview s2).dropWhile notRBrk = ']' :: V3 := by
                rw [hnvs2, hbv3, dropWhile_append_of_all hvnotR,
                  List.dropWhile_cons_of_neg
                    (by decide : ¬(notRBrk ']' = true))]
              rw [htN, hDN,
                if_neg (nviewF_ne_nil (some ']') ht2)]
              dsimp only
              rw [if_pos rfl, if_pos rfl]
              cases hcs : colonSplit s3 with
              | none =>
                rw [colonSplit_nview_none hcs hV3rel]
              | some pr =>
                obtain ⟨h4, s4⟩ := pr
                obtain ⟨h2, V4, hcsn, hV4rel⟩ :=
                  colonSplit_nview_some hcs V3 hV3rel
                rw [hcsn]
                dsimp only
                have hu := urlAt_nview s4 V4 hV4rel
                cases hua : urlAt s4 with
                | none =>
                  rw [hua] at hu
                  cases huan : urlAt V4 with
                  | none => rfl
                  | some pr3 =>
                    rw [huan] at hu
                    cases hu
                | some pr2 =>
                  obtain ⟨u, rest⟩ := pr2
                  rw [hua] at hu
                  cases huan : urlAt V4 with
                  | none =>
                    rw [huan] at hu
                    cases hu
                  | some pr3 =>
                    obtain ⟨u2, rest2⟩ := pr3
                    rfl

theorem colonSplit_compute_backoff2 {wc : Char} (hwc : pySpace wc = true)
    (V4 : List Char) :
    colonSplit (' ' :: wc :: ':' :: V4) = some ([wc], V4) := by
  have h1 : (' ' :: wc :: ':' :: V4).dropWhile pySpace = ':' :: V4 := by
    rw [List.dropWhile_cons_of_pos (by decide : pySpace ' ' = true),
      List.dropWhile_cons_of_pos hwc,
      List.dropWhile_cons_of_neg (by decide : ¬(pySpace ':' = true))]
  have h2 : (':' :: V4).takeWhile notColon = [] :=
    List.takeWhile_cons_of_neg (by decide : ¬(notColon ':' = true))
  have h3 : (':' :: V4).dropWhile notColon = ':' :: V4 :=
    List.dropWhile_cons_of_neg (by decide : ¬(notColon ':' = true))
  have h4 : (' ' :: wc :: ':' :: V4).takeWhile pySpace = [' ', wc] := by
    rw [List.takeWhile_cons_of_pos (by decide : pySpace ' ' = true),
      List.takeWhile_cons_of_pos hwc,
      List.takeWhile_cons_of_neg (by decide : ¬(pySpace ':' = true))]
  rw [colonSplit_eq, h1, h3]
  show (if (':' :: V4).takeWhile notColon = [] then
      (match ((' ' :: wc :: ':' :: V4).takeWhile pySpace).getLast? with
        | some c => some ([c], V4)
        | none => none)
    else some ((':' :: V4).takeWhile notColon, V4)) = some ([wc], V4)
  rw [if_pos h2, h4]
  rfl

theorem urlAt_compute (u utail sOpt z : List Char)
    (hu : u = lc "http" ++ (sOpt ++ (lc "://" ++ utail)))
    (hsopt : sOpt = [] ∨ sOpt = ['s'])
    (hutail : utail ≠ []) (hutailn : ∀ c ∈ utail, nonWs c = true)
    (hz : ∀ c, z.head? = some c → pySpace c = true) :
    urlAt (' ' :: (u ++ z)) = some (u, z) := by
  have hzn : ∀ c, z.head? = some c → nonWs c = false := by
    intro c hc
    simp only [nonWs, hz c hc]
    rfl
  have htail : urlTailAt (utail ++ z) = some z := by
    unfold urlTailAt
    rw [takeWhile_append_of_all hutailn, takeWhile_nil_of_head hzn,
      List.append_nil, if_neg hutail, dropWhile_append_of_all hutailn,
      dropWhile_id_of_head hzn]
  have hcore : urlCore (u ++ z) = some z := by
    have hshape : u ++ z = lc "http" ++ (sOpt ++ (lc "://" ++ (utail ++ z))) := by
      rw [hu]
      simp [List.append_assoc]
    rw [hshape]
    unfold urlCore
    rw [litMatch_append_self]
    rcases hsopt with rfl | rfl
    · rw [List.nil_append]
      show urlRest (lc "://" ++ (utail ++ z)) = some z
      unfold urlRest
      rw [litMatch_append_self]
      exact htail
    · show (match (['s'] ++ (lc "://" ++ (utail ++ z)) : List Char) with
        | [] => urlRest []
        | c :: y2 =>
          if c = 's' then
            match urlRest y2 with
            | some r => some r
            | none => urlRest (c :: y2)
          else urlRest (c :: y2)) = some z
      rw [show (['s'] ++ (lc "://" ++ (utail ++ z)) : List Char) =
        's' :: (lc "://" ++ (utail ++ z)) from rfl]
      dsimp only
      rw [if_pos rfl]
      have hr : urlRest (lc "://" ++ (utail ++ z)) = some z := by
        unfold urlRest
        rw [litMatch_append_self]
        exact htail
      rw [hr]
  have huh : ∀ c, (u ++ z).head? = some c → pySpace c = false := by
    intro c hc
    rw [hu] at hc
    rw [show (lc "http" ++ (sOpt ++ (lc "://" ++ utail))) ++ z =
      'h' :: ((lc "ttp" ++ (sOpt ++ (lc "://" ++ utail))) ++ z) from by
        simp [lc, List.append_assoc], List.head?_cons] at hc
    rw [← Option.some.inj hc]
    decide
  unfold urlAt
  rw [List.dropWhile_cons_of_pos (by decide : pySpace ' ' = true),
    dropWhile_id_of_head huh, hcore]
  dsimp only
  rw [take_pre_of_append u z]

/-- The replacement text of the spacing pattern parses again to the same
groups, with any whitespace-headed (or empty) continuation. -/
theorem p4At_repl (d tag h u utail sOpt z : List Char)
    (hd : d ≠ []) (hdD : ∀ c ∈ d, isDigitC c = true)
    (htag : tag ≠ []) (htagR : ∀ c ∈ tag, notRBrk c = true)
    (hh : (h ≠ [] ∧ (∀ c, h.head? = some c → pySpace c = false) ∧
      (∀ c ∈ h, notColon c = true)) ∨
      (∃ wc, h = [wc] ∧ pySpace wc = true))
    (hu : u = lc "http" ++ (sOpt ++ (lc "://" ++ utail)))
    (hsopt : sOpt = [] ∨ sOpt = ['s'])
    (hutail : utail ≠ []) (hutailn : ∀ c ∈ utail, nonWs c = true)
    (hz : ∀ c, z.head? = some c → pySpace c = true) :
    p4At ('[' :: (d ++ ']' :: ' ' :: '[' :: (tag ++ ']' :: ' ' ::
      (h ++ ':' :: ' ' :: (u ++ z))))) = some (d, tag, h, u, z) := by
  rw [p4At_cons, if_pos rfl]
  have h1 : (d ++ ']' :: ' ' :: '[' :: (tag ++ ']' :: ' ' ::
      (h ++ ':' :: ' ' :: (u ++ z)))).takeWhile isDigitC = d := by
    rw [takeWhile_append_of_all hdD,
      List.takeWhile_cons_of_neg (by decide : ¬(isDigitC ']' = true)),
      List.append_nil]
  have h2 : (d ++ ']' :: ' ' :: '[' :: (tag ++ ']' :: ' ' ::
      (h ++ ':' :: ' ' :: (u ++ z)))).dropWhile isDigitC =
      ']' :: ' ' :: '[' :: (tag ++ ']' :: ' ' ::
        (h ++ ':' :: ' ' :: (u ++ z))) := by
    rw [dropWhile_append_of_all hdD,
      List.dropWhile_cons_of_neg (by decide : ¬(isDigitC ']' = true))]
  rw [h1, h2, if_neg hd]
  dsimp only
  rw [if_pos rfl]
  have h3 : (' ' :: '[' :: (tag ++ ']' :: ' ' ::
      (h ++ ':' :: ' ' :: (u ++ z)))).dropWhile pySpace =
      '[' :: (tag ++ ']' :: ' ' :: (h ++ ':' :: ' ' :: (u ++ z))) := by
    rw [List.dropWhile_cons_of_pos (by decide : pySpace ' ' = true),
      List.dropWhile_cons_of_neg (by decide : ¬(pySpace '[' = true))]
  rw [h3]
  dsimp only
  rw [if_pos rfl]
  have h4 : (tag ++ ']' :: ' ' ::
      (h ++ ':' :: ' ' :: (u ++ z))).takeWhile notRBrk = tag := by
    rw [takeWhile_append_of_all htagR,
      List.takeWhile_cons_of_neg (by decide : ¬(notRBrk ']' = true)),
      List.append_nil]
  have h5 : (tag ++ ']' :: ' ' ::
      (h ++ ':' :: ' ' :: (u ++ z))).dropWhile notRBrk =
      ']' :: ' ' :: (h ++ ':' :: ' ' :: (u ++ z)) := by
    rw [dropWhile_append_of_all htagR,
      List.dropWhile_cons_of_neg (by decide : ¬(notRBrk ']' = true))]
  rw [h4, h5, if_neg htag]
  dsimp only
  rw [if_pos rfl]
  have hcs : colonSplit (' ' :: (h ++ ':' :: ' ' :: (u ++ z))) =
      some (h, ' ' :: (u ++ z)) := by
    rcases hh with ⟨hne, hhd, hcol⟩ | ⟨wc, rfl, hwc⟩
    · rw [show ' ' :: (h ++ ':' :: ' ' :: (u ++ z)) =
        [' '] ++ (h ++ ':' :: (' ' :: (u ++ z))) from rfl]
      exact colonSplit_compute_normal
        (fun c hc => by
          rw [List.mem_singleton.mp hc]
          rfl)
        hne
        (fun c hc => hhd c hc)
        hcol
    · rw [show ' ' :: ([wc] ++ ':' :: ' ' :: (u ++ z)) =
        ' ' :: wc :: ':' :: (' ' :: (u ++ z)) from rfl]
      exact colonSplit_compute_backoff2 hwc (' ' :: (u ++ z))
  rw [hcs]
  dsimp only
  rw [urlAt_compute u utail sOpt z hu hsopt hutail hutailn hz]

theorem msearch_eq_of {re : RE} :
    ∀ (pre : List Char) {s1 s2 : List Char} {caps : Caps},
      mrun re s1 (fun u cp => some (u, cp)) [] = some (s2, caps) →
      (∀ u, u <:+ (pre ++ s1) → s1.length < u.length →
        mrun re u (fun v cp => some (v, cp)) [] = none) →
      msearch re (pre ++ s1) = some (s1, s2, caps) := by
  intro pre
  induction pre with
  | nil =>
    intro s1 s2 caps hrun _
    rw [List.nil_append]
    cases s1 with
    | nil =>
      have he : msearch re ([] : List Char) =
          match mrun re [] (fun u cp => some (u, cp)) [] with
          | some (u, cp) => some ([], u, cp)
          | none => none := rfl
      rw [he, hrun]
    | cons c t => exact msearch_cons_succ hrun
  | cons a pre' ih =>
    intro s1 s2 caps hrun hfail
    rw [List.cons_append]
    have hlen : s1.length < (a :: (pre' ++ s1)).length := by
      simp only [List.length_cons, List.length_append]
      omega
    rw [msearch_cons_fail
      (hfail (a :: (pre' ++ s1)) (List.suffix_refl _) hlen)]
    exact ih hrun (fun u hu hl =>
      hfail u (hu.trans (List.suffix_cons a (pre' ++ s1))) hl)

theorem suffix_longer_split {pre s1 u : List Char}
    (h : u <:+ (pre ++ s1)) (hlen : s1.length < u.length) :
    ∃ a, a <:+ pre ∧ a ≠ [] ∧ u = a ++ s1 := by
  obtain ⟨b, hb⟩ := h
  have hblen : b.length < pre.length := by
    have := congrArg List.length hb
    simp only [List.length_append] at this
    omega
  refine ⟨pre.drop b.length, List.drop_suffix _ _, ?_, ?_⟩
  · intro hnil
    have := congrArg List.length hnil
    simp only [List.length_drop, List.length_nil] at this
    omega
  · have hpre : pre = pre.take b.length ++ pre.drop b.length :=
      (List.take_append_drop _ _).symm
    have hb2 : b ++ u = pre.take b.length ++ (pre.drop b.length ++ s1) := by
      rw [hb]
      conv_lhs => rw [hpre]
      rw [List.append_assoc]
    have hlb : b.length = (pre.take b.length).length := by
      rw [List.length_take]
      omega
    exact (List.append_inj hb2 hlb).2

theorem applyTmpl_cite (d tag h u : List Char) :
    applyTmpl [(4, u), (3, h), (2, tag), (1, d)]
      [.inl (lc "["), .inr 1, .inl (lc "] ["), .inr 2, .inl (lc "] "),
       .inr 3, .inl (lc ": "), .inr 4] =
    '[' :: (d ++ ']' :: ' ' :: '[' :: (tag ++ ']' :: ' ' ::
      (h ++ ':' :: ' ' :: u))) := by
  have h1 : applyTmpl [(4, u), (3, h), (2, tag), (1, d)]
      [.inl (lc "["), .inr 1, .inl (lc "] ["), .inr 2, .inl (lc "] "),
       .inr 3, .inl (lc ": "), .inr 4] =
      '[' :: (d ++ ']' :: ' ' :: '[' :: (tag ++ ']' :: ' ' ::
        (h ++ ':' :: ' ' :: (u ++ [])))) := rfl
  rw [h1, List.append_nil]

theorem repl_append (d tag h u z : List Char) :
    ('[' :: (d ++ ']' :: ' ' :: '[' :: (tag ++ ']' :: ' ' ::
      (h ++ ':' :: ' ' :: u)))) ++ z =
    '[' :: (d ++ ']' :: ' ' :: '[' :: (tag ++ ']' :: ' ' ::
      (h ++ ':' :: ' ' :: (u ++ z)))) := by
  simp [List.append_assoc]

/-- The replacement template of the fourth `clean_text` pass. -/
def citeTmpl : Tmpl :=
  [.inl (lc "["), .inr 1, .inl (lc "] ["), .inr 2, .inl (lc "] "),
   .inr 3, .inl (lc ": "), .inr 4]

theorem cite_match_structure {s1 s2 : List Char} {caps : Caps}
    (hrun : mrun citeSpacingPat s1 (fun u cp => some (u, cp)) [] =
      some (s2, caps)) :
    ∃ d tag h u,
      caps = [(4, u), (3, h), (2, tag), (1, d)] ∧
      p4At s1 = some (d, tag, h, u, s2) := by
  rw [mrun_cite_head] at hrun
  cases hp : p4At s1 with
  | none =>
    rw [hp] at hrun
    cases hrun
  | some q =>
    obtain ⟨d, tag, h, u, rest⟩ := q
    rw [hp] at hrun
    dsimp only at hrun
    have hinj := Option.some.inj hrun
    have hrest : rest = s2 := congrArg Prod.fst hinj
    have hcaps : caps = [(4, u), (3, h), (2, tag), (1, d)] :=
      (congrArg Prod.snd hinj).symm
    subst hrest
    exact ⟨d, tag, h, u, hcaps, rfl⟩

/-- Everything the idempotence induction needs about one successful match of
the spacing pattern: strict progress, the whitespace shape of the remainder,
view equality between match and replacement, and the self-parse of the
replacement against any view-equivalent continuation. -/
theorem cite_step {s1 s2 T' : List Char} {caps : Caps}
    (hrun : mrun citeSpacingPat s1 (fun u cp => some (u, cp)) [] =
      some (s2, caps))
    (hT : nview T' = nview s2) (hTh : T'.head? = s2.head?) :
    s2.length < s1.length ∧
    (∀ c, s2.head? = some c → pySpace c = true) ∧
    s1.head? = some '[' ∧
    nview s1 = nview (applyTmpl caps citeTmpl ++ T') ∧
    mrun citeSpacingPat (applyTmpl caps citeTmpl ++ T')
      (fun u cp => some (u, cp)) [] = some (T', caps) ∧
    (applyTmpl caps citeTmpl ++ T').head? = some '[' := by
  obtain ⟨d, tag, h, u, hcaps, hp⟩ := cite_match_structure hrun
  obtain ⟨w1, s3, s4v, hx, hdne, hdD, hw1, htagne, htagR, hcs, hua⟩ :=
    p4At_inv hp
  obtain ⟨sOpt, utail, hx4, hushape, hsopt, hutne, hutn, huall, hresthead,
    huhead⟩ := urlAt_inv hua
  have hR : applyTmpl caps citeTmpl =
      '[' :: (d ++ ']' :: ' ' :: '[' :: (tag ++ ']' :: ' ' ::
        (h ++ ':' :: ' ' :: u))) := by
    rw [hcaps]
    exact applyTmpl_cite d tag h u
  have hRT : applyTmpl caps citeTmpl ++ T' =
      '[' :: (d ++ ']' :: ' ' :: '[' :: (tag ++ ']' :: ' ' ::
        (h ++ ':' :: ' ' :: (u ++ T')))) := by
    rw [hR, repl_append]
  have hzT : ∀ c, T'.head? = some c → pySpace c = true := by
    intro c hc
    rw [hTh] at hc
    exact hresthead c hc
  rcases colonSplit_inv hcs with ⟨w2, hw2, hs3, hhne, hhead, hcol⟩ |
    ⟨w2', wc, hw2', hwc, hs3, hh⟩
  · obtain ⟨x0, h'', rfl⟩ : ∃ x0 h'', h = x0 :: h'' := by
      cases h with
      | nil => exact absurd rfl hhne
      | cons a r => exact ⟨a, r, rfl⟩
    obtain ⟨hx0, hx0c⟩ := hhead x0 rfl
    have hxx : s1 = '[' :: (d ++ ']' :: (w1 ++ '[' :: (tag ++ ']' ::
        (w2 ++ x0 :: (h'' ++ ':' ::
          (s4v.takeWhile pySpace ++ (u ++ s2))))))) := by
      rw [hx, hs3]
      conv_lhs => rw [hx4]
      rfl
    have hcore := core_nview_normal d tag h'' w1 w2 (s4v.takeWhile pySpace)
      u s2 T' x0 hdD hw1 hw2 (all_takeWhile pySpace s4v) hx0 hx0c huall
      huhead hT.symm hTh.symm
    refine ⟨?_, hresthead, ?_, ?_, ?_, ?_⟩
    · rw [hxx]
      simp only [List.length_cons, List.length_append]
      omega
    · rw [hxx, List.head?_cons]
    · rw [hxx, hRT]
      exact hcore
    · rw [hRT, mrun_cite_head,
        p4At_repl d tag (x0 :: h'') u utail sOpt T' hdne hdD htagne htagR
          (Or.inl ⟨List.cons_ne_nil x0 h'',
            (fun c hc => (hhead c hc).1), hcol⟩)
          hushape hsopt hutne hutn hzT, hcaps]
    · rw [hRT, List.head?_cons]
  · have hxx : s1 = '[' :: (d ++ ']' :: (w1 ++ '[' :: (tag ++ ']' ::
        (w2' ++ wc :: ':' ::
          (s4v.takeWhile pySpace ++ (u ++ s2)))))) := by
      rw [hx, hs3]
      conv_lhs => rw [hx4]
    have hcore := core_nview_backoff d tag w1 w2' (s4v.takeWhile pySpace)
      u s2 T' wc hdD hw1 hw2' hwc (all_takeWhile pySpace s4v) huall
      huhead hT.symm hTh.symm
    refine ⟨?_, hresthead, ?_, ?_, ?_, ?_⟩
    · rw [hxx]
      simp only [List.length_cons, List.length_append]
      omega
    · rw [hxx, List.head?_cons]
    · rw [hxx, hRT, hh]
      exact hcore
    · rw [hRT, mrun_cite_head,
        p4At_repl d tag h u utail sOpt T' hdne hdD htagne htagR
          (Or.inr ⟨wc, hh, hwc⟩)
          hushape hsopt hutne hutn hzT, hcaps]
    · rw [hRT, List.head?_cons]

theorem p4At_rest_lt {x d tag h u rest : List Char}
    (hp : p4At x = some (d, tag, h, u, rest)) : rest.length < x.length := by
  obtain ⟨w1, s3, s4v, hx, _, _, _, _, _, hcs, hua⟩ := p4At_inv hp
  obtain ⟨sOpt, utail, hx4, _, _, _, _, _, _, _⟩ := urlAt_inv hua
  have h1 : rest.length ≤ s4v.length := by
    have := congrArg List.length hx4
    simp only [List.length_append] at this
    omega
  have h2 : s4v.length < s3.length := by
    rcases colonSplit_inv hcs with ⟨w2, _, hs3, _, _, _⟩ |
      ⟨w2', wc, _, _, hs3, _⟩
    · have := congrArg List.length hs3
      simp only [List.length_append, List.length_cons] at this
      omega
    · have := congrArg List.length hs3
      simp only [List.length_append, List.length_cons] at this
      omega
  have h3 : s3.length < x.length := by
    have := congrArg List.length hx
    simp only [List.length_append, List.length_cons] at this
    omega
  omega

theorem suffix_append_left {a pre s1 : List Char} (h : a <:+ pre) :
    a ++ s1 <:+ pre ++ s1 := by
  obtain ⟨b, hb⟩ := h
  exact ⟨b, by rw [← List.append_assoc, hb]⟩

/-- The spacing pass: head preservation, view invariance, and idempotence,
by strong induction on the input length. -/
theorem cite_pass_triple : ∀ (n : Nat) (s : List Char), s.length ≤ n →
    (subAll citeSpacingPat citeTmpl s).head? = s.head? ∧
    nview (subAll citeSpacingPat citeTmpl s) = nview s ∧
    subAll citeSpacingPat citeTmpl (subAll citeSpacingPat citeTmpl s) =
      subAll citeSpacingPat citeTmpl s := by
  intro n
  induction n with
  | zero =>
    intro s hlen
    have hs : s = [] := List.eq_nil_of_length_eq_zero (Nat.le_zero.mp hlen)
    subst hs
    have hn : msearch citeSpacingPat ([] : List Char) = none := by
      refine msearch_eq_none [] ?_
      intro u hu
      have hu0 : u = [] := List.suffix_nil.mp hu
      subst hu0
      rw [mrun_cite_head]
      rfl
    have h0 : subAll citeSpacingPat citeTmpl [] = [] := subAll_eq_none hn
    rw [h0]
    exact ⟨rfl, rfl, h0⟩
  | succ m ih =>
    intro s hlen
    cases hms : msearch citeSpacingPat s with
    | none =>
      have h0 : subAll citeSpacingPat citeTmpl s = s := subAll_eq_none hms
      rw [h0]
      exact ⟨rfl, rfl, h0⟩
    | some r =>
      obtain ⟨s1, s2, caps⟩ := r
      obtain ⟨hsuf, hrun, hfail⟩ := msearch_decomp hms
      obtain ⟨pre, hpre⟩ := hsuf
      obtain ⟨d0, tag0, h0, u0, hcaps0, hp0⟩ := cite_match_structure hrun
      have hs2lt : s2.length < s1.length := p4At_rest_lt hp0
      have hs1le : s1.length ≤ s.length := List.IsSuffix.length_le ⟨pre, hpre⟩
      have hs2m : s2.length ≤ m := by omega
      obtain ⟨IH1, IH2, IH3⟩ := ih s2 hs2m
      obtain ⟨hlt, hs2head, hs1head, hview, hrun2, hreplhead⟩ :=
        cite_step hrun IH2 IH1
      have hdec : subAll citeSpacingPat citeTmpl s =
          pre ++ applyTmpl caps citeTmpl ++
            subAll citeSpacingPat citeTmpl s2 :=
        subAll_decomp hms hpre.symm hlt
      have hRzhead : (applyTmpl caps citeTmpl ++
          subAll citeSpacingPat citeTmpl s2).head? = some '[' := hreplhead
      have hRzview : nview (applyTmpl caps citeTmpl ++
          subAll citeSpacingPat citeTmpl s2) = nview s1 := hview.symm
      refine ⟨?_, ?_, ?_⟩
      · rw [hdec, ← hpre]
        cases pre with
        | nil =>
          rw [List.nil_append, List.nil_append, hRzhead, hs1head]
        | cons a pre' =>
          rw [List.cons_append, List.cons_append, List.cons_append,
            List.head?_cons, List.head?_cons]
      · rw [hdec, ← hpre, List.append_assoc]
        rw [nview_append_split pre.length pre _ (Nat.le_refl _)
          (fun dd hdd => by
            rw [hRzhead] at hdd
            rw [← Option.some.inj hdd]
            decide),
          nview_append_split pre.length pre s1 (Nat.le_refl _)
          (fun dd hdd => by
            rw [hs1head] at hdd
            rw [← Option.some.inj hdd]
            decide),
          hRzhead, hs1head, hRzview]
      · rw [hdec, List.append_assoc]
        have hfail2 : ∀ u, u <:+ (pre ++ (applyTmpl caps citeTmpl ++
            subAll citeSpacingPat citeTmpl s2)) →
            (applyTmpl caps citeTmpl ++
              subAll citeSpacingPat citeTmpl s2).length < u.length →
            mrun citeSpacingPat u (fun v cp => some (v, cp)) [] = none := by
          intro u hu hul
          obtain ⟨a, hapre, hane, rfl⟩ := suffix_longer_split hu hul
          have hview2 : nview (a ++ (applyTmpl caps citeTmpl ++
              subAll citeSpacingPat citeTmpl s2)) = nview (a ++ s1) := by
            rw [nview_append_split a.length a _ (Nat.le_refl _)
              (fun dd hdd => by
                rw [hRzhead] at hdd
                rw [← Option.some.inj hdd]
                decide),
              nview_append_split a.length a s1 (Nat.le_refl _)
              (fun dd hdd => by
                rw [hs1head] at hdd
                rw [← Option.some.inj hdd]
                decide),
              hRzhead, hs1head, hRzview]
          have holdfail : mrun citeSpacingPat (a ++ s1)
              (fun v cp => some (v, cp)) [] = none := by
            refine hfail (a ++ s1) ?_ ?_
            · rw [← hpre]
              exact suffix_append_left hapre
            · cases a with
              | nil => exact absurd rfl hane
              | cons a0 a' =>
                simp only [List.length_cons, List.length_append]
                omega
          have hpold : p4At (a ++ s1) = none := by
            rw [mrun_cite_head] at holdfail
            cases hpa : p4At (a ++ s1) with
            | none => rfl
            | some q =>
              obtain ⟨dd, tg, hh, uu, rr⟩ := q
              rw [hpa] at holdfail
              cases holdfail
          have hpnew : p4At (a ++ (applyTmpl caps citeTmpl ++
              subAll citeSpacingPat citeTmpl s2)) = none := by
            cases hq : p4At (a ++ (applyTmpl caps citeTmpl ++
                subAll citeSpacingPat citeTmpl s2)) with
            | none => rfl
            | some q =>
              exfalso
              have hchain := (p4At_nview (a ++ (applyTmpl caps citeTmpl ++
                subAll citeSpacingPat citeTmpl s2))).symm.trans
                ((congrArg (fun w => (p4At w).isSome) hview2).trans
                  (p4At_nview (a ++ s1)))
              rw [hq, hpold] at hchain
              cases hchain
          rw [mrun_cite_head, hpnew]
        have hm2 : msearch citeSpacingPat (pre ++ (applyTmpl caps citeTmpl ++
            subAll citeSpacingPat citeTmpl s2)) =
            some (applyTmpl caps citeTmpl ++
              subAll citeSpacingPat citeTmpl s2,
              subAll citeSpacingPat citeTmpl s2, caps) :=
          msearch_eq_of pre hrun2 hfail2
        obtain ⟨d1, tag1, h1, u1, _, hp2⟩ := cite_match_structure hrun2
        have hlt2 : (subAll citeSpacingPat citeTmpl s2).length <
            (applyTmpl caps citeTmpl ++
              subAll citeSpacingPat citeTmpl s2).length :=
          p4At_rest_lt hp2
        rw [subAll_decomp hm2 rfl hlt2, IH3, List.append_assoc]

theorem noAdj_suffix {p q : Char → Bool} {s t : List Char}
    (h : noAdj p q s) (hsuf : t <:+ s) : noAdj p q t := by
  obtain ⟨pre, rfl⟩ := hsuf
  exact (List.chain'_append.mp h).2.1

theorem noAdj_left_pfree {p q : Char → Bool} {w r : List Char}
    (hw : ∀ a ∈ w, p a = false) (hr : noAdj p q r) : noAdj p q (w ++ r) := by
  unfold noAdj
  rw [List.chain'_append]
  refine ⟨?_, hr, ?_⟩
  · induction w with
    | nil => exact List.chain'_nil
    | cons a t ih =>
      rw [List.chain'_cons']
      refine ⟨?_, ih (fun x hx => hw x (List.mem_cons_of_mem a hx))⟩
      intro b _ hab
      rw [hw a (List.mem_cons_self a t)] at hab
      exact absurd hab.1 (by decide)
  · intro x hx y _ hxy
    have hxw : x ∈ w := List.mem_of_mem_getLast? hx
    rw [hw x hxw] at hxy
    exact absurd hxy.1 (by decide)

theorem noAdj_nview_to (p q : Char → Bool)
    (hp : ∀ c, p c = true → pySpace c = false)
    (hq : ∀ c, q c = true → pySpace c = false) :
    ∀ (n : Nat) (s : List Char), s.length ≤ n →
      noAdj p q s → noAdj p q (nview s) := by
  intro n
  induction n with
  | zero =>
    intro s hlen _
    have hs : s = [] := List.eq_nil_of_length_eq_zero (Nat.le_zero.mp hlen)
    subst hs
    rw [nview_nil]
    exact List.chain'_nil
  | succ m ih =>
    intro s hlen h
    cases s with
    | nil =>
      rw [nview_nil]
      exact List.chain'_nil
    | cons c t =>
      by_cases hcw : pySpace c = true
      · rw [nview_ws hcw]
        unfold noAdj
        rw [List.chain'_cons']
        constructor
        · intro b _ hab
          have hps : p ' ' = false := by
            cases hc2 : p ' ' with
            | false => rfl
            | true => exact absurd (hp ' ' hc2) (by decide)
          rw [hps] at hab
          exact absurd hab.1 (by decide)
        · have hlt : (t.dropWhile pySpace).length ≤ m := by
            have := length_dropWhile_le pySpace t
            simp only [List.length_cons] at hlen
            omega
          refine ih (t.dropWhile pySpace) hlt ?_
          exact noAdj_suffix ((List.chain'_cons'.mp h).2)
            (List.dropWhile_suffix pySpace)
      · have hcf : pySpace c = false := Bool.not_eq_true _ ▸ hcw
        cases t with
        | nil =>
          rw [nview_nonws_nil hcf]
          exact h
        | cons d t' =>
          rw [nview_nonws_cons hcf]
          have hrest : noAdj p q (d :: t') := (List.chain'_cons'.mp h).2
          have hlt : (d :: t').length ≤ m := by
            simp only [List.length_cons] at hlen ⊢
            omega
          have hV := ih (d :: t') hlt hrest
          have hqs : q ' ' = false := by
            cases hc2 : q ' ' with
            | false => rfl
            | true => exact absurd (hq ' ' hc2) (by decide)
          have hps : p ' ' = false := by
            cases hc2 : p ' ' with
            | false => rfl
            | true => exact absurd (hp ' ' hc2) (by decide)
          by_cases hins : insFlag c d = true
          · rw [if_pos hins]
            unfold noAdj
            rw [List.chain'_cons', List.chain'_cons']
            refine ⟨?_, ?_, hV⟩
            · intro b hb hab
              have hb2 : b = ' ' :=
                (Option.some.inj (Option.mem_def.mp hb)).symm
              rw [hb2, hqs] at hab
              exact absurd hab.2 (by decide)
            · intro b _ hab
              rw [hps] at hab
              exact absurd hab.1 (by decide)
          · rw [if_neg hins]
            unfold noAdj
            rw [List.chain'_cons']
            refine ⟨?_, hV⟩
            intro b hb hab
            by_cases hdw : pySpace d = true
            · have hdh : (nview (d :: t')).head? = some ' ' := by
                rw [nview_ws hdw]
                rfl
              have hb2 : b = ' ' := by
                have h3 := Option.mem_def.mp hb
                rw [hdh] at h3
                exact (Option.some.inj h3).symm
              rw [hb2, hqs] at hab
              exact absurd hab.2 (by decide)
            · have hdf : pySpace d = false := Bool.not_eq_true _ ▸ hdw
              obtain ⟨W, hW⟩ := nview_cons_nonws t' hdf
              have hb2 : b = d := by
                have h3 := Option.mem_def.mp hb
                rw [hW] at h3
                exact (Option.some.inj h3).symm
              rw [hb2] at hab
              exact (List.chain'_cons'.mp h).1 d rfl hab

theorem noAdj_nview_back (p q : Char → Bool)
    (hp : ∀ c, p c = true → pySpace c = false ∧ (c == ']') = false ∧
      (c == ':') = false)
    (hq : ∀ c, q c = true → pySpace c = false) :
    ∀ (n : Nat) (s : List Char), s.length ≤ n →
      noAdj p q (nview s) → noAdj p q s := by
  intro n
  induction n with
  | zero =>
    intro s hlen _
    have hs : s = [] := List.eq_nil_of_length_eq_zero (Nat.le_zero.mp hlen)
    subst hs
    exact List.chain'_nil
  | succ m ih =>
    intro s hlen h
    cases s with
    | nil => exact List.chain'_nil
    | cons c t =>
      by_cases hcw : pySpace c = true
      · rw [nview_ws hcw] at h
        unfold noAdj
        rw [List.chain'_cons']
        constructor
        · intro b _ hab
          have hc0 : p c = false := by
            cases hc2 : p c with
            | false => rfl
            | true =>
              exfalso
              have h3 := (hp c hc2).1
              rw [hcw] at h3
              cases h3
          rw [hc0] at hab
          exact absurd hab.1 (by decide)
        · have hlt : (t.dropWhile pySpace).length ≤ m := by
            have := length_dropWhile_le pySpace t
            simp only [List.length_cons] at hlen
            omega
          have hdn : noAdj p q (t.dropWhile pySpace) :=
            ih (t.dropWhile pySpace) hlt (List.chain'_cons'.mp h).2
          have ht : t = t.takeWhile pySpace ++ t.dropWhile pySpace :=
            (List.takeWhile_append_dropWhile (p := pySpace) (l := t)).symm
          rw [ht]
          refine noAdj_left_pfree ?_ hdn
          intro a ha
          have haw : pySpace a = true := List.mem_takeWhile_imp ha
          cases hc2 : p a with
          | false => rfl
          | true =>
            exfalso
            have := (hp a hc2).1
            rw [haw] at this
            cases this
      · have hcf : pySpace c = false := Bool.not_eq_true _ ▸ hcw
        cases t with
        | nil => exact List.chain'_singleton c
        | cons d t' =>
          rw [nview_nonws_cons hcf] at h
          have hlt : (d :: t').length ≤ m := by
            simp only [List.length_cons] at hlen ⊢
            omega
          unfold noAdj
          rw [List.chain'_cons']
          by_cases hins : insFlag c d = true
          · rw [if_pos hins] at h
            have hV : noAdj p q (nview (d :: t')) :=
              (List.chain'_cons'.mp (List.chain'_cons'.mp h).2).2
            refine ⟨?_, ih (d :: t') hlt hV⟩
            intro b hb hab
            have hcno : p c = false := by
              cases hc2 : p c with
              | false => rfl
              | true =>
                exfalso
                obtain ⟨_, hc3, hc4⟩ := hp c hc2
                simp only [insFlag, Bool.and_eq_true, Bool.or_eq_true,
                  hc3, hc4, Bool.false_and] at hins
                exact absurd hins.2 (by simp)
            rw [hcno] at hab
            exact absurd hab.1 (by decide)
          · rw [if_neg hins] at h
            have hV : noAdj p q (nview (d :: t')) :=
              (List.chain'_cons'.mp h).2
            refine ⟨?_, ih (d :: t') hlt hV⟩
            intro b hb hab
            have hbd : d = b := Option.some.inj (Option.mem_def.mp hb)
            subst hbd
            by_cases hdw : pySpace d = true
            · have h3 := hq d hab.2
              rw [hdw] at h3
              cases h3
            · have hdf : pySpace d = false := Bool.not_eq_true _ ▸ hdw
              obtain ⟨W, hW⟩ := nview_cons_nonws t' hdf
              refine (List.chain'_cons'.mp h).1 d ?_ hab
              rw [hW]
              rfl

/-- The spacing pass preserves absence of adjacent `p`-`q` pairs, for classes
of plain non-whitespace characters. -/
theorem cite_pass_pres_noAdj (p q : Char → Bool)
    (hp : ∀ c, p c = true → pySpace c = false ∧ (c == ']') = false ∧
      (c == ':') = false)
    (hq : ∀ c, q c = true → pySpace c = false)
    (s : List Char) (h : noAdj p q s) :
    noAdj p q (subAll citeSpacingPat citeTmpl s) := by
  have h1 : noAdj p q (nview s) :=
    noAdj_nview_to p q (fun c hc => (hp c hc).1) hq s.length s
      (Nat.le_refl _) h
  have h2 := (cite_pass_triple s.length s (Nat.le_refl _)).2.1
  have h3 : noAdj p q (nview (subAll citeSpacingPat citeTmpl s)) := by
    rw [h2]
    exact h1
  exact noAdj_nview_back p q hp hq
    (subAll citeSpacingPat citeTmpl s).length _ (Nat.le_refl _) h3

theorem lowerAZ_plain {c : Char} (h : lowerAZ c = true) :
    pySpace c = false ∧ (c == ']') = false ∧ (c == ':') = false := by
  simp only [lowerAZ, Bool.and_eq_true, decide_eq_true_eq] at h
  refine ⟨?_, ?_, ?_⟩
  · cases hws : pySpace c with
    | false => rfl
    | true =>
      exfalso
      rcases pySpace_cases hws with rfl|rfl|rfl|rfl|rfl|rfl <;>
        exact absurd h.1 (by decide)
  · cases hb : (c == ']') with
    | false => rfl
    | true =>
      exfalso
      have := beq_iff_eq.mp hb
      subst this
      exact absurd h.1 (by decide)
  · cases hb : (c == ':') with
    | false => rfl
    | true =>
      exfalso
      have := beq_iff_eq.mp hb
      subst this
      exact absurd h.1 (by decide)

theorem sentEndC_plain {c : Char} (h : sentEndC c = true) :
    pySpace c = false ∧ (c == ']') = false ∧ (c == ':') = false := by
  simp only [sentEndC, Bool.or_eq_true] at h
  rcases h with (h | h) | h <;>
    · have := beq_iff_eq.mp h
      subst this
      exact ⟨by decide, by decide, by decide⟩

theorem upperAZ_nonws {c : Char} (h : upperAZ c = true) :
    pySpace c = false := by
  simp only [upperAZ, Bool.and_eq_true, decide_eq_true_eq] at h
  cases hws : pySpace c with
  | false => rfl
  | true =>
    exfalso
    rcases pySpace_cases hws with rfl|rfl|rfl|rfl|rfl|rfl <;>
      exact absurd h.1 (by decide)

theorem nf1_tail {c : Char} {t : List Char} (h : nf1 (c :: t)) : nf1 t := h.2

theorem nf1_app_tail (a b : List Char) (h : nf1 (a ++ b)) : nf1 b :=
  ((nf1_append a b).mp h).2

theorem nf1_cons_iff {c : Char} {t : List Char} (hc : ¬(c = '\n')) :
    nf1 (c :: t) ↔ nf1 t := by
  show ((c = '\n' → ((t.takeWhile pySpace).count '\n' ≤ 1)) ∧ nf1 t) ↔ nf1 t
  constructor
  · exact fun h => h.2
  · exact fun h => ⟨fun hc2 => absurd hc2 hc, h⟩

theorem nf1F_no_nl : ∀ (a : List Char), (∀ c ∈ a, ¬(c = '\n')) →
    ∀ (b : List Char), nf1F a b := by
  intro a
  induction a with
  | nil =>
    intro _ b
    trivial
  | cons c t ih =>
    intro h b
    exact ⟨fun hc => absurd hc (h c (List.mem_cons_self c t)),
      ih (fun x hx => h x (List.mem_cons_of_mem c hx)) b⟩

theorem nf1_append_no_nl {a : List Char} (ha : ∀ c ∈ a, ¬(c = '\n'))
    (b : List Char) : nf1 (a ++ b) ↔ nf1 b := by
  rw [nf1_append]
  constructor
  · exact fun h => h.2
  · exact fun h => ⟨nf1F_no_nl a ha b, h⟩

theorem takeWhile_stop_head {p : Char → Bool} (t B : List Char) {c : Char}
    (hc : p c = false) : (t ++ c :: B).takeWhile p = t.takeWhile p := by
  by_cases hall : ∀ x ∈ t, p x = true
  · have hd := dropWhile_nil_of_all hall
    have ht : t.takeWhile p = t := by
      have h2 := List.takeWhile_append_dropWhile (p := p) (l := t)
      rw [hd, List.append_nil] at h2
      exact h2
    rw [takeWhile_append_of_all hall, List.takeWhile_cons_of_neg (bool_neg hc),
      List.append_nil, ht]
  · push_neg at hall
    obtain ⟨x, hx, hpx⟩ := hall
    exact takeWhile_append_stop (c :: B) ⟨x, hx, Bool.not_eq_true _ ▸ hpx⟩

theorem nf1F_stop_iff {c : Char} (hc : pySpace c = false) :
    ∀ (a B : List Char), nf1F a (c :: B) ↔ nf1 a := by
  intro a
  induction a with
  | nil =>
    intro B
    exact Iff.rfl
  | cons e t ih =>
    intro B
    show ((e = '\n' → (((t ++ c :: B).takeWhile pySpace).count '\n' ≤ 1)) ∧
        nf1F t (c :: B)) ↔
      ((e = '\n' → ((t.takeWhile pySpace).count '\n' ≤ 1)) ∧ nf1 t)
    rw [takeWhile_stop_head t B hc, ih B]

theorem cite_subAll_nil : subAll citeSpacingPat citeTmpl [] = [] := by
  refine subAll_eq_none (msearch_eq_none [] ?_)
  intro u hu
  have hu0 : u = [] := List.suffix_nil.mp hu
  subst hu0
  rw [mrun_cite_head]
  rfl

/-- The spacing pass preserves the newline normal form. -/
theorem cite_pass_pres_nf1 : ∀ (n : Nat) (s : List Char), s.length ≤ n →
    nf1 s → nf1 (subAll citeSpacingPat citeTmpl s) := by
  intro n
  induction n with
  | zero =>
    intro s hlen _
    have hs : s = [] := List.eq_nil_of_length_eq_zero (Nat.le_zero.mp hlen)
    subst hs
    rw [cite_subAll_nil]
    trivial
  | succ m ih =>
    intro s hlen hnf
    cases hms : msearch citeSpacingPat s with
    | none =>
      rw [subAll_eq_none hms]
      exact hnf
    | some r =>
      obtain ⟨s1, s2, caps⟩ := r
      obtain ⟨hsuf, hrun, hfail⟩ := msearch_decomp hms
      obtain ⟨pre, hpre⟩ := hsuf
      obtain ⟨d, tag, h, u, hcaps, hp⟩ := cite_match_structure hrun
      obtain ⟨w1, s3, s4v, hx, hdne, hdD, hw1, htagne, htagR, hcs, hua⟩ :=
        p4At_inv hp
      obtain ⟨sOpt, utail, hx4, hushape, hsopt, hutne, hutn, huall,
        hresthead, huhead⟩ := urlAt_inv hua
      have hs2lt : s2.length < s1.length := p4At_rest_lt hp
      have hs1le : s1.length ≤ s.length := List.IsSuffix.length_le ⟨pre, hpre⟩
      have hs2m : s2.length ≤ m := by omega
      have hnfps : nf1F pre s1 ∧ nf1 s1 := by
        rw [← hpre] at hnf
        exact (nf1_append pre s1).mp hnf
      have h1 := hnfps.2
      rw [hx] at h1
      have h2 := nf1_tail h1
      have h3 := nf1_app_tail _ _ h2
      have h4 := nf1_tail h3
      have h5 := nf1_app_tail _ _ h4
      have h6 := nf1_tail h5
      have htagnf : nf1 tag :=
        (nf1F_stop_iff (by decide) tag s3).mp ((nf1_append tag _).mp h6).1
      have h7 := nf1_app_tail _ _ h6
      have h8 := nf1_tail h7
      have hdnl : ∀ c ∈ d, ¬(c = '\n') := by
        intro c hc hc2
        subst hc2
        exact absurd (hdD '\n' hc) (by decide)
      have hunl : ∀ c ∈ u, ¬(c = '\n') := by
        intro c hc hc2
        subst hc2
        exact absurd (huall '\n' hc) (by decide)
      have hRz : applyTmpl caps citeTmpl ++ subAll citeSpacingPat citeTmpl s2 =
          '[' :: (d ++ ']' :: ' ' :: '[' :: (tag ++ ']' :: ' ' ::
            (h ++ ':' :: ' ' ::
              (u ++ subAll citeSpacingPat citeTmpl s2)))) := by
        rw [hcaps]
        rw [show applyTmpl [(4, u), (3, h), (2, tag), (1, d)] citeTmpl =
          '[' :: (d ++ ']' :: ' ' :: '[' :: (tag ++ ']' :: ' ' ::
            (h ++ ':' :: ' ' :: u))) from applyTmpl_cite d tag h u]
        rw [repl_append]
      obtain ⟨hhnf, hs2nf⟩ : nf1 h ∧ nf1 s2 := by
        rcases colonSplit_inv hcs with ⟨w2, hw2, hs3, hhne, hhead, hcol⟩ |
          ⟨w2', wc, hw2', hwc, hs3, hh⟩
        · rw [hs3] at h8
          have h9 := nf1_app_tail _ _ h8
          have hhnf : nf1 h :=
            (nf1F_stop_iff (by decide) h s4v).mp ((nf1_append h _).mp h9).1
          have h10 := nf1_app_tail _ _ h9
          have h11 := nf1_tail h10
          rw [hx4] at h11
          have h12 := nf1_app_tail _ _ h11
          exact ⟨hhnf, nf1_app_tail _ _ h12⟩
        · rw [hs3] at h8
          have h9 := nf1_app_tail _ _ h8
          have h10 := nf1_tail h9
          have h11 := nf1_tail h10
          rw [hx4] at h11
          have h12 := nf1_app_tail _ _ h11
          refine ⟨?_, nf1_app_tail _ _ h12⟩
          rw [hh]
          exact ⟨fun _ => by simp, trivial⟩
      have hz : nf1 (subAll citeSpacingPat citeTmpl s2) := ih s2 hs2m hs2nf
      rw [subAll_decomp hms hpre.symm hs2lt, List.append_assoc]
      refine (nf1_append pre _).mpr ⟨?_, ?_⟩
      · refine nf1F_congr pre ?_ ?_ hnfps.1
        · rw [hx, hRz]
          rfl
        · intro dd hdd
          rw [hx, List.head?_cons] at hdd
          rw [← Option.some.inj hdd]
          decide
      · rw [hRz]
        refine (nf1_cons_iff (by decide)).mpr ?_
        refine (nf1_append_no_nl hdnl _).mpr ?_
        refine (nf1_cons_iff (by decide)).mpr ?_
        refine (nf1_cons_iff (by decide)).mpr ?_
        refine (nf1_cons_iff (by decide)).mpr ?_
        refine (nf1_append tag _).mpr
          ⟨(nf1F_stop_iff (by decide) tag _).mpr htagnf, ?_⟩
        refine (nf1_cons_iff (by decide)).mpr ?_
        refine (nf1_cons_iff (by decide)).mpr ?_
        refine (nf1_append h _).mpr
          ⟨(nf1F_stop_iff (by decide) h _).mpr hhnf, ?_⟩
        refine (nf1_cons_iff (by decide)).mpr ?_
        refine (nf1_cons_iff (by decide)).mpr ?_
        exact (nf1_append_no_nl hunl _).mpr hz

theorem upperAZ_not_lowerAZ {c : Char} (h : upperAZ c = true) :
    lowerAZ c = false := by
  simp only [upperAZ, Bool.and_eq_true, decide_eq_true_eq] at h
  cases hl : lowerAZ c with
  | false => rfl
  | true =>
    exfalso
    simp only [lowerAZ, Bool.and_eq_true, decide_eq_true_eq] at hl
    have : 'a' ≤ 'Z' := le_trans hl.1 h.2
    exact absurd this (by decide)

theorem upperAZ_not_sentEndC {c : Char} (h : upperAZ c = true) :
    sentEndC c = false := by
  cases hl : sentEndC c with
  | false => rfl
  | true =>
    exfalso
    simp only [sentEndC, Bool.or_eq_true] at hl
    rcases hl with (hl | hl) | hl <;>
      · have := beq_iff_eq.mp hl
        subst this
        exact absurd h (by decide)

/-- `clean_text` unfolded to the four passes with the named templates. -/
theorem clean_text_eq (x : List Char) :
    clean_text x = subAll citeSpacingPat citeTmpl
      (subAll sentencePat pairTmpl (subAll camelPat pairTmpl
        (subAll nlRun3Pat nlTmpl x))) := rfl

/-- C9: re-normalizing already-normalized text makes no further change. -/
theorem c9_clean_text_idempotent (s : List Char) :
    clean_text (clean_text s) = clean_text s := by
  have hlw : ∀ c, lowerAZ c = true → pySpace c = false :=
    fun c hc => (lowerAZ_plain hc).1
  have hsw : ∀ c, sentEndC c = true → pySpace c = false :=
    fun c hc => (sentEndC_plain hc).1
  have hup : ∀ c, upperAZ c = true → pySpace c = false :=
    fun c hc => upperAZ_nonws hc
  have h1 : nf1 (subAll nlRun3Pat nlTmpl s) :=
    subAll_nl3_out_nf1 s.length s (Nat.le_refl _)
  have h2 : nf1 (subAll camelPat pairTmpl (subAll nlRun3Pat nlTmpl s)) :=
    subAll_pair_pres_nf1 lowerAZ upperAZ hlw hup
      (subAll nlRun3Pat nlTmpl s).length _ (Nat.le_refl _) h1
  have h3 : nf1 (subAll sentencePat pairTmpl (subAll camelPat pairTmpl
      (subAll nlRun3Pat nlTmpl s))) :=
    subAll_pair_pres_nf1 sentEndC upperAZ hsw hup
      (subAll camelPat pairTmpl (subAll nlRun3Pat nlTmpl s)).length _
      (Nat.le_refl _) h2
  have h4 : nf1 (clean_text s) := by
    rw [clean_text_eq]
    exact cite_pass_pres_nf1 (subAll sentencePat pairTmpl
      (subAll camelPat pairTmpl (subAll nlRun3Pat nlTmpl s))).length _
      (Nat.le_refl _) h3
  have g2 : noAdj lowerAZ upperAZ (subAll camelPat pairTmpl
      (subAll nlRun3Pat nlTmpl s)) :=
    subAll_pair_out_noAdj lowerAZ upperAZ
      (fun c hc => upperAZ_not_lowerAZ hc) (by decide) (by decide)
      (subAll nlRun3Pat nlTmpl s).length _ (Nat.le_refl _)
  have g3 : noAdj lowerAZ upperAZ (subAll sentencePat pairTmpl
      (subAll camelPat pairTmpl (subAll nlRun3Pat nlTmpl s))) :=
    subAll_pair_pres_noAdj sentEndC upperAZ lowerAZ upperAZ
      (by decide) (by decide)
      (subAll camelPat pairTmpl (subAll nlRun3Pat nlTmpl s)).length _
      (Nat.le_refl _) g2
  have g4 : noAdj lowerAZ upperAZ (clean_text s) := by
    rw [clean_text_eq]
    exact cite_pass_pres_noAdj lowerAZ upperAZ
      (fun c hc => lowerAZ_plain hc) (fun c hc => upperAZ_nonws hc) _ g3
  have k3 : noAdj sentEndC upperAZ (subAll sentencePat pairTmpl
      (subAll camelPat pairTmpl (subAll nlRun3Pat nlTmpl s))) :=
    subAll_pair_out_noAdj sentEndC upperAZ
      (fun c hc => upperAZ_not_sentEndC hc) (by decide) (by decide)
      (subAll camelPat pairTmpl (subAll nlRun3Pat nlTmpl s)).length _
      (Nat.le_refl _)
  have k4 : noAdj sentEndC upperAZ (clean_text s) := by
    rw [clean_text_eq]
    exact cite_pass_pres_noAdj sentEndC upperAZ
      (fun c hc => sentEndC_plain hc) (fun c hc => upperAZ_nonws hc) _ k3
  have f1 : subAll nlRun3Pat nlTmpl (clean_text s) = clean_text s :=
    subAll_eq_none (msearch_nl3_none (clean_text s) h4)
  have f2 : subAll camelPat pairTmpl (clean_text s) = clean_text s :=
    subAll_eq_none (msearch_pair_none lowerAZ upperAZ (clean_text s) g4)
  have f3 : subAll sentencePat pairTmpl (clean_text s) = clean_text s :=
    subAll_eq_none (msearch_pair_none sentEndC upperAZ (clean_text s) k4)
  have f4 : subAll citeSpacingPat citeTmpl (clean_text s) = clean_text s := by
    rw [clean_text_eq]
    exact (cite_pass_triple (subAll sentencePat pairTmpl
      (subAll camelPat pairTmpl (subAll nlRun3Pat nlTmpl s))).length _
      (Nat.le_refl _)).2.2
  rw [clean_text_eq (clean_text s), f1, f2, f3, f4]
